import Mathlib

/-!
# tinyfont: font codec and framebuffer rasterizer

A shallow embedding of `tinyfont.c`.  Bytes are natural numbers, the input
stream of `pack_font` is the list of the bytes still to be read together with
the end-of-file indicator, the table `packed_encodings[256][2]` is the flat
list of its 512 bytes in memory order, and `exit(EXIT_FAILURE)` is an error
result carrying the diagnostic that was printed.  The host is assumed to use
the "C" locale (`isprint` holds for 32..126), an 8-bit `char`, a 32-bit
`unsigned int` and a 64-bit `unsigned long int`.  Read errors of the stream
(`ferror`) do not occur in the model.
-/

namespace Tinyfont

/-! ## Constants of the anonymous `enum` -/

abbrev CHAR_BIT : Nat := 8
abbrev byte_all_zeroes : Nat := 0
abbrev byte_value_cnt : Nat := 1 <<< CHAR_BIT
abbrev byte_all_ones : Nat := byte_value_cnt - 1
abbrev bytes_per_font_character : Nat := 2
abbrev bits_per_pixel : Nat := 24
abbrev font_height : Nat := 5
abbrev font_width : Nat := 3
abbrev max_font_file_line_len : Nat := 11
abbrev max_font_file_lines : Nat := 571
abbrev max_write_line : Nat := 4096

/-- The built-in table `default_font`: 256 entries of 2 bytes. -/
def default_font : List Nat := [
  255, 255, 255, 255, 255, 255, 255, 255, 255, 255, 255, 255, 255, 255, 255, 255,
  255, 255, 255, 255, 255, 255, 255, 255, 255, 255, 255, 255, 255, 255, 255, 255,
  255, 255, 255, 255, 255, 255, 255, 255, 255, 255, 255, 255, 255, 255, 255, 255,
  255, 255, 255, 255, 255, 255, 255, 255, 255, 255, 255, 255, 255, 255, 255, 255,
  0, 0, 146, 32, 45, 0, 85, 85, 223, 125, 165, 82, 170, 106, 18, 0,
  94, 102, 51, 61, 213, 85, 210, 37, 0, 40, 192, 1, 0, 8, 160, 2,
  106, 43, 147, 116, 231, 115, 231, 121, 237, 73, 207, 121, 207, 123, 167, 18,
  239, 123, 239, 121, 16, 4, 16, 20, 84, 68, 56, 14, 17, 21, 167, 32,
  239, 115, 234, 91, 235, 58, 79, 114, 107, 59, 207, 115, 207, 19, 79, 123,
  237, 91, 151, 116, 39, 123, 93, 86, 73, 114, 253, 47, 253, 95, 111, 123,
  239, 19, 111, 79, 239, 90, 143, 120, 151, 36, 109, 123, 109, 43, 207, 114,
  173, 90, 173, 36, 167, 114, 79, 114, 136, 8, 39, 121, 42, 0, 0, 112,
  17, 0, 152, 43, 201, 123, 120, 114, 228, 123, 80, 103, 106, 22, 234, 57,
  201, 91, 130, 36, 130, 52, 233, 90, 73, 50, 200, 127, 200, 91, 192, 123,
  120, 31, 120, 79, 80, 19, 240, 56, 186, 36, 64, 123, 64, 43, 192, 85,
  64, 85, 64, 21, 56, 117, 212, 68, 146, 36, 145, 21, 17, 69, 255, 255,
  255, 255, 255, 255, 255, 255, 255, 255, 255, 255, 255, 255, 255, 255, 255, 255,
  255, 255, 255, 255, 255, 255, 255, 255, 255, 255, 255, 255, 255, 255, 255, 255,
  255, 255, 255, 255, 255, 255, 255, 255, 255, 255, 255, 255, 255, 255, 255, 255,
  255, 255, 255, 255, 255, 255, 255, 255, 255, 255, 255, 255, 255, 255, 255, 255,
  255, 255, 255, 255, 255, 255, 255, 255, 255, 255, 255, 255, 255, 255, 255, 255,
  255, 255, 255, 255, 255, 255, 255, 255, 255, 255, 255, 255, 255, 255, 255, 255,
  255, 255, 255, 255, 255, 255, 255, 255, 255, 255, 255, 255, 255, 255, 255, 255,
  255, 255, 255, 255, 255, 255, 255, 255, 255, 255, 255, 255, 255, 255, 255, 255,
  255, 255, 255, 255, 255, 255, 255, 255, 255, 255, 255, 255, 255, 255, 255, 255,
  255, 255, 255, 255, 255, 255, 255, 255, 255, 255, 255, 255, 255, 255, 255, 255,
  255, 255, 255, 255, 255, 255, 255, 255, 255, 255, 255, 255, 255, 255, 255, 255,
  255, 255, 255, 255, 255, 255, 255, 255, 255, 255, 255, 255, 255, 255, 255, 255,
  255, 255, 255, 255, 255, 255, 255, 255, 255, 255, 255, 255, 255, 255, 255, 255,
  255, 255, 255, 255, 255, 255, 255, 255, 255, 255, 255, 255, 255, 255, 255, 255,
  255, 255, 255, 255, 255, 255, 255, 255, 255, 255, 255, 255, 255, 255, 255, 255,
  255, 255, 255, 255, 255, 255, 255, 255, 255, 255, 255, 255, 255, 255, 255, 255]

/-- The array `pixel_off`, the string of three spaces with its terminator. -/
def pixel_off : List Nat := [32, 32, 32, 0]

/-- The array `pixel_on`, the string `###` with its terminator. -/
def pixel_on : List Nat := [35, 35, 35, 0]

/-- The classification `isprint` in the "C" locale. -/
def isprint (c : Nat) : Bool := decide (32 ≤ c) && decide (c ≤ 126)

/-! ## The input stream and the C string functions -/

/-- An input stream: the bytes not yet read and the end-of-file indicator. -/
structure FILE where
  rest : List Nat
  eof : Bool
deriving DecidableEq, Repr

/-- Whether `feof(file) || ferror(file)` holds; the model has no read errors. -/
def feof (f : FILE) : Bool := f.eof

/-- The reading loop of `fgets`: at most `n` bytes, stopping after a newline.
Returns the bytes stored, the bytes left, and whether end of file was hit. -/
def fgets_read : Nat → List Nat → List Nat × List Nat × Bool
  | 0, inp => ([], inp, false)
  | _ + 1, [] => ([], [], true)
  | n + 1, c :: cs =>
    if c = 10 then ([c], cs, false)
    else
      let r := fgets_read n cs
      (c :: r.1, r.2.1, r.2.2)

/-- The call `fgets(buf, size, file)`: `none` is the `NULL` result (end of file
before any byte was read), otherwise the bytes stored in `buf` before the
terminating NUL. -/
def fgets (size : Nat) (f : FILE) : Option (List Nat) × FILE :=
  let r := fgets_read (size - 1) f.rest
  let f1 : FILE := { rest := r.2.1, eof := f.eof || r.2.2 }
  if r.1 = [] ∧ r.2.2 = true then (none, f1) else (some r.1, f1)

/-- The index `strchr(buf, c) - buf` of the first `c` of the C string held in
`buf`, `none` for a `NULL` result. -/
def strchr : List Nat → Nat → Option Nat
  | [], c => if c = 0 then some 0 else none
  | b :: bs, c =>
    if b = c then some 0
    else if b = 0 then none
    else (strchr bs c).map (· + 1)

/-- The length `strlen(buf)` of the C string held in `buf`. -/
def strlen : List Nat → Nat
  | [] => 0
  | b :: bs => if b = 0 then 0 else strlen bs + 1

/-! ## pack_font -/

/-- The fatal diagnostics of `pack_font`, each followed by `exit(EXIT_FAILURE)`,
and the exhaustion of the fuel of the model. -/
inductive PackError where
  /-- "Expected printable character, then newline on line %d" -/
  | expected_char_newline (line : Nat)
  /-- "Expected printable character before newline on line %d" -/
  | expected_printable (line : Nat)
  /-- "Expected line of pixels of '0' or '1' on line %d" -/
  | expected_pixel_line (line : Nat)
  /-- "Expected %d pixels of '0' or '1' on line %d" -/
  | expected_pixels (line : Nat)
  /-- "Expected '0' or '1' for pixel %d on line %d" -/
  | expected_01 (pixel line : Nat)
  /-- "Expected %d more lines of pixels after line %d" -/
  | expected_more_lines (more : Int) (line : Nat)
  /-- The model ran out of fuel (not a behaviour of the program). -/
  | out_of_fuel
deriving DecidableEq, Repr

/-- The result of a step of `pack_font`. -/
inductive Outcome (α : Type) where
  | ok (a : α)
  | fatal (e : PackError)
deriving DecidableEq, Repr

/-- The table `packed_encodings` after the initial loop: every byte all ones. -/
def init_encodings : List Nat :=
  List.replicate (byte_value_cnt * bytes_per_font_character) byte_all_ones

/-- The loop over `pixel` (lines 372-381): checks the next `n` pixels of `buf`
and ORs each into the table; yields the table and `bit_pos`. -/
def pack_pixels (buf : List Nat) (line character : Nat) :
    Nat → Nat → Nat → List Nat → Outcome (List Nat × Nat)
  | 0, _, bit_pos, t => .ok (t, bit_pos)
  | n + 1, pixel, bit_pos, t =>
    if buf.getD pixel 0 ≠ 48 ∧ buf.getD pixel 0 ≠ 49 then
      .fatal (.expected_01 (pixel + 1) line)
    else
      let idx := character * bytes_per_font_character + bit_pos / CHAR_BIT
      let t1 := t.set idx
        (t.getD idx 0 ||| ((if buf.getD pixel 0 = 48 then 0 else 1) <<< (bit_pos % CHAR_BIT)))
      pack_pixels buf line character n (pixel + 1) (bit_pos + 1) t1

/-- The state of `pack_font` after the loop over `pixel_line`. -/
structure PixelLines where
  pixel_line : Nat
  line : Nat
  file : FILE
  table : List Nat
deriving DecidableEq, Repr

/-- The loop over `pixel_line` (lines 354-387) with `n` iterations left. -/
def pack_pixel_lines (character : Nat) :
    Nat → Nat → Nat → Nat → FILE → List Nat → Outcome PixelLines
  | 0, pixel_line, line, _, f, t => .ok ⟨pixel_line, line, f, t⟩
  | n + 1, pixel_line, line, bit_pos, f, t =>
    let line1 := line + 1
    match fgets (max_font_file_line_len + 1) f with
    | (none, _) => .fatal (.expected_pixel_line line1)
    | (some buf, f1) =>
      let line_len := strlen buf
      if line_len < font_width ∨ (line_len > font_width ∧ buf.getD font_width 0 ≠ 10) then
        .fatal (.expected_pixels line1)
      else
        match pack_pixels buf line1 character font_width 0 bit_pos t with
        | .fatal e => .fatal e
        | .ok (t1, bit_pos1) =>
          if feof f1 then .ok ⟨pixel_line, line1, f1, t1⟩
          else pack_pixel_lines character n (pixel_line + 1) line1 bit_pos1 f1 t1

/-- The loop over `line` (lines 324-399); yields the final table and stream. -/
def pack_lines : Nat → Nat → FILE → List Nat → Outcome (List Nat × FILE)
  | 0, _, _, _ => .fatal .out_of_fuel
  | fuel + 1, line, f, t =>
    if line < max_font_file_lines then
      match fgets (max_font_file_line_len + 1) f with
      | (none, f1) => .ok (t, f1)
      | (some buf, f1) =>
        match strchr buf 10 with
        | none => .fatal (.expected_char_newline line)
        | some 0 => .fatal (.expected_char_newline line)
        | some (search + 1) =>
          if !isprint (buf.getD search 0) then .fatal (.expected_printable line)
          else
            let character := buf.getD search 0
            let t1 := (t.set (character * bytes_per_font_character) byte_all_zeroes).set
              (character * bytes_per_font_character + 1) byte_all_zeroes
            match pack_pixel_lines character font_height 0 line 0 f1 t1 with
            | .fatal e => .fatal e
            | .ok r =>
              if r.pixel_line < font_height then
                .fatal (.expected_more_lines ((font_height - 1 : Int) - r.pixel_line) r.line)
              else if feof r.file then .ok (r.table, r.file)
              else pack_lines fuel (r.line + 1) r.file r.table
    else .ok (t, f)

/-- The table `packed_encodings` that `pack_font` has built when it reaches
"All done", for the stream holding the bytes `input`. -/
def pack_table (input : List Nat) : Outcome (List Nat) :=
  match pack_lines max_font_file_lines 1 ⟨input, false⟩ init_encodings with
  | .fatal e => .fatal e
  | .ok r => .ok r.1

/-- The bytes of a string literal of the program. -/
def bytes (s : String) : List Nat := s.toList.map Char.toNat

/-- The conversion `%d` of `printf` for a non-negative value. -/
def printf_d (n : Nat) : List Nat := (Nat.toDigits 10 n).map Char.toNat

/-- The conversion `%02X` of `printf`: upper-case hexadecimal, zero-padded to
two digits. -/
def printf_02X (n : Nat) : List Nat :=
  let ds := (Nat.toDigits 16 n).map fun ch => ch.toUpper.toNat
  List.replicate (2 - ds.length) 48 ++ ds

/-- The inner loop over `j` of the output (lines 408-415) for entry `i`, with
`n` iterations left: a separator before every value except the first. -/
def print_entry (t : List Nat) (i : Nat) : Nat → Nat → List Nat
  | 0, _ => []
  | n + 1, j =>
    (if j = 0 then [] else bytes ", ")
      ++ printf_d (t.getD (i * bytes_per_font_character + j) 0)
      ++ print_entry t i n (j + 1)

/-- The outer loop over `i` of the output (lines 402-416), with `n` iterations
left: a separator before every entry except the first. -/
def print_entries (t : List Nat) : Nat → Nat → List Nat
  | 0, _ => []
  | n + 1, i =>
    (if i = 0 then [] else bytes ", ")
      ++ print_entry t i bytes_per_font_character 0
      ++ print_entries t n (i + 1)

/-- What `pack_font` writes to the standard output for the table `t`. -/
def pack_output (t : List Nat) : List Nat :=
  bytes "Font encodes as these bytes: " ++ print_entries t byte_value_cnt 0 ++ bytes "\n"

/-- The function `pack_font` on the stream holding the bytes `input`: the bytes
written to the standard output, or the fatal diagnostic after which the
program exits having written nothing to the standard output. -/
def pack_font (input : List Nat) : Outcome (List Nat) :=
  match pack_table input with
  | .fatal e => .fatal e
  | .ok t => .ok (pack_output t)

/-! ## unpack_font -/

/-- The loop over `x` (lines 543-547) with `n` iterations left: the characters
printed and the final `bit_pos`. -/
def unpack_row (font : List Nat) (i : Nat) : Nat → Nat → List Nat × Nat
  | 0, bit_pos => ([], bit_pos)
  | n + 1, bit_pos =>
    let r := unpack_row font i n (bit_pos + 1)
    ((if font.getD (i + bit_pos / CHAR_BIT) 0 &&& (1 <<< (bit_pos % CHAR_BIT)) ≠ 0
        then 49 else 48) :: r.1, r.2)

/-- The loop over `y` (lines 541-549) with `n` iterations left: the pixel lines
printed for the entry at byte offset `i` of `font`. -/
def unpack_rows (font : List Nat) (i : Nat) : Nat → Nat → List Nat
  | 0, _ => []
  | n + 1, bit_pos =>
    let r := unpack_row font i font_width bit_pos
    r.1 ++ [10] ++ unpack_rows font i n r.2

/-- The loop over `i` (lines 528-550) on a table `font`, with `n` iterations
left.  The cast `(char) character` keeps the low 8 bits. -/
def unpack_entries (font : List Nat) : Nat → Nat → List Nat
  | 0, _ => []
  | n + 1, i =>
    if i < font.length then
      let character := i / bytes_per_font_character
      let c := character % byte_value_cnt
      (if !isprint c then []
       else printf_d c ++ bytes " 0x" ++ printf_02X c ++ [32, c, 10]
              ++ unpack_rows font i font_height 0)
        ++ unpack_entries font n (i + bytes_per_font_character)
    else []

/-- The body of `unpack_font` run on a table `font` in place of `default_font`. -/
def unpack_font_of (font : List Nat) : List Nat :=
  unpack_entries font font.length 0

/-- The function `unpack_font`: the bytes written to the standard output. -/
def unpack_font : List Nat := unpack_font_of default_font

/-! ## The framebuffer -/

/-- One more than `UINT_MAX`. -/
abbrev UINT : Nat := 2 ^ 32

/-- One more than `ULONG_MAX`. -/
abbrev ULONG : Nat := 2 ^ 64

/-- The `struct framebuffer`; `buf` holds the bytes of the allocated buffer. -/
structure framebuffer where
  buf : List Nat
  bytes_per_pixel : Nat
  cur_x : Nat
  cur_y : Nat
  font_scale : Nat
  height : Nat
  width : Nat
deriving DecidableEq, Repr

/-- The bytes of `dst` after the first `n` bytes of `src` have been copied to
the offsets `pos`, ..., `pos + n - 1`, for a copy that lies inside `dst`. -/
def memcpy_within (dst : List Nat) (pos : Nat) (src : List Nat) : Nat → List Nat
  | 0 => dst
  | n + 1 => (memcpy_within dst pos src n).set (pos + n) (src.getD n 0)

/-- The call `memcpy(dst + pos, src, n)` on a buffer that holds the bytes
`dst`: `none` when the `n` bytes from offset `pos` on do not all lie inside the
buffer.  The C call then writes outside the allocated object, and the
behaviour of the program is undefined. -/
def memcpy (dst : List Nat) (pos : Nat) (src : List Nat) (n : Nat) : Option (List Nat) :=
  if pos + n ≤ dst.length then some (memcpy_within dst pos src n) else none

/-- How the painting of one glyph ends. -/
inductive Paint where
  /-- The loops ran to their end. -/
  | done (buf : List Nat) (bit_pos : Nat)
  /-- The "Bug-guard" fired: `framebuffer_write` returns. -/
  | out_of_bounds (buf : List Nat)
  /-- The guard let a write pass that does not lie inside the buffer:
  undefined behaviour. -/
  | undefined
  /-- The model ran out of fuel (not a behaviour of the program). -/
  | out_of_fuel
deriving DecidableEq, Repr

/-- The loop over `sx` (lines 277-291) with `n` iterations left. -/
def paint_sx (fb : framebuffer) (c fb_size bit_pos y x sy : Nat) :
    Nat → Nat → List Nat → Paint
  | 0, _, buf => .done buf bit_pos
  | n + 1, sx, buf =>
    let byte_pos := (fb.width * fb.bytes_per_pixel * (fb.cur_y + y + sy)
      + (fb.cur_x + x + sx) * fb.bytes_per_pixel) % ULONG
    if (byte_pos + fb.bytes_per_pixel) % ULONG > fb_size then .out_of_bounds buf
    else
      let pixel :=
        if default_font.getD (c * bytes_per_font_character + bit_pos / CHAR_BIT) 0
            &&& (1 <<< (bit_pos % CHAR_BIT)) ≠ 0
        then pixel_on else pixel_off
      match memcpy buf byte_pos pixel fb.bytes_per_pixel with
      | some b => paint_sx fb c fb_size bit_pos y x sy n (sx + 1) b
      | none => .undefined

/-- The loop over `sy` (lines 275-292) with `n` iterations left. -/
def paint_sy (fb : framebuffer) (c fb_size bit_pos y x : Nat) :
    Nat → Nat → List Nat → Paint
  | 0, _, buf => .done buf bit_pos
  | n + 1, sy, buf =>
    match paint_sx fb c fb_size bit_pos y x sy fb.font_scale 0 buf with
    | .done b _ => paint_sy fb c fb_size bit_pos y x n (sy + 1) b
    | r => r

/-- The loop over `x` (lines 273-294); `x` is an `unsigned int`. -/
def paint_x (fb : framebuffer) (c fb_size scaled_char_width y : Nat) :
    Nat → Nat → Nat → List Nat → Paint
  | 0, _, _, _ => .out_of_fuel
  | fuel + 1, x, bit_pos, buf =>
    if x < scaled_char_width then
      match paint_sy fb c fb_size bit_pos y x fb.font_scale 0 buf with
      | .done b _ =>
        paint_x fb c fb_size scaled_char_width y fuel ((x + fb.font_scale) % UINT) (bit_pos + 1) b
      | r => r
    else .done buf bit_pos

/-- The loop over `y` (lines 271-295); `y` is an `unsigned int`. -/
def paint_y (fb : framebuffer) (c fb_size scaled_char_height scaled_char_width : Nat) :
    Nat → Nat → Nat → List Nat → Paint
  | 0, _, _, _ => .out_of_fuel
  | fuel + 1, y, bit_pos, buf =>
    if y < scaled_char_height then
      match paint_x fb c fb_size scaled_char_width y (UINT + 1) 0 bit_pos buf with
      | .done b bit_pos1 =>
        paint_y fb c fb_size scaled_char_height scaled_char_width fuel
          ((y + fb.font_scale) % UINT) bit_pos1 b
      | r => r
    else .done buf bit_pos

/-- How a call of `framebuffer_write` ends. -/
inductive Written where
  /-- The whole text was processed. -/
  | finished (fb : framebuffer)
  /-- The call returned at the "Bug-guard", after its diagnostic. -/
  | aborted (fb : framebuffer)
  /-- The call wrote outside the buffer: undefined behaviour. -/
  | undefined
  /-- The model ran out of fuel (not a behaviour of the program). -/
  | out_of_fuel
deriving DecidableEq, Repr

/-- The loop over the bytes of `text` (lines 257-297), up to its terminator. -/
def write_chars (scaled_char_height scaled_char_width char_height char_width fb_size : Nat) :
    List Nat → framebuffer → Written
  | [], fb => .finished fb
  | c :: cs, fb =>
    if c = 0 then .finished fb
    else
      let fb1 : framebuffer :=
        if c = 10 ∨ (fb.cur_x + char_width) % ULONG > (fb.width + 1) % ULONG then
          { fb with cur_x := 0, cur_y := (fb.cur_y + char_height) % ULONG }
        else fb
      if c = 10 then
        write_chars scaled_char_height scaled_char_width char_height char_width fb_size cs fb1
      else
        let fb2 : framebuffer :=
          if (fb1.cur_y + char_height) % ULONG > (fb1.height + 1) % ULONG then
            { fb1 with cur_y := 0 }
          else fb1
        match paint_y fb2 c fb_size scaled_char_height scaled_char_width (UINT + 1) 0 0 fb2.buf with
        | .done b _ =>
          write_chars scaled_char_height scaled_char_width char_height char_width fb_size cs
            { fb2 with buf := b, cur_x := (fb2.cur_x + char_width) % ULONG }
        | .out_of_bounds b => .aborted { fb2 with buf := b }
        | .undefined => .undefined
        | .out_of_fuel => .out_of_fuel

/-- The function `framebuffer_write`. -/
def framebuffer_write (fb : framebuffer) (text : List Nat) : Written :=
  let scaled_char_height := font_height * fb.font_scale % UINT
  let scaled_char_width := font_width * fb.font_scale % UINT
  let char_height := (scaled_char_height + 1) % UINT
  let char_width := (scaled_char_width + 1) % UINT
  let fb_size := fb.width * fb.height * fb.bytes_per_pixel % ULONG
  write_chars scaled_char_height scaled_char_width char_height char_width fb_size text fb

/-! ## Well-formed pack input, as the specification describes it -/

/-- A group of the pack input: the free text of the header line, the
character it defines, and the pixel lines without their newlines. -/
structure Group where
  text : List Nat
  code : Nat
  rows : List (List Nat)
deriving DecidableEq, Repr

/-- A valid header (at most 11 bytes with its newline, no newline or NUL in
the free text, a printable character before the newline) and 5 lines of 3
characters `'0'`/`'1'`. -/
def Group.well_formed (g : Group) : Prop :=
  g.text.length + 2 ≤ max_font_file_line_len ∧ (∀ b ∈ g.text, b ≠ 10 ∧ b ≠ 0) ∧
  isprint g.code = true ∧ g.rows.length = font_height ∧
  ∀ r ∈ g.rows, r.length = font_width ∧ ∀ b ∈ r, b = 48 ∨ b = 49

instance (g : Group) : Decidable g.well_formed := by
  unfold Group.well_formed; infer_instance

/-- The pixel lines of a group as they stand in the stream, each with its
newline. -/
def Group.grid (g : Group) : List Nat := g.rows.flatMap (· ++ [10])

/-- The bytes of a group in the stream: header line and newline-terminated
pixel lines. -/
def Group.encode (g : Group) : List Nat := g.text ++ [g.code, 10] ++ g.grid

/-- The stream holding the given groups one after the other. -/
def stream (gs : List Group) : List Nat := gs.flatMap Group.encode

/-- Whether the pixel at `(row, col)` of the group is `'1'`. -/
def Group.pixel (g : Group) (row col : Nat) : Bool := (g.rows.getD row []).getD col 48 == 49

/-- The byte `k` of the reference encoding of a group: bit `j` of byte `k` is
the pixel with index `b = 8 * k + j = row * 3 + col`, and a bit with `b ≥ 15`
is 0. -/
def Group.spec_byte (g : Group) (k : Nat) : Nat :=
  ((List.range CHAR_BIT).map fun j =>
    if CHAR_BIT * k + j < font_height * font_width ∧
        g.pixel ((CHAR_BIT * k + j) / font_width) ((CHAR_BIT * k + j) % font_width) = true
    then 2 ^ j else 0).sum

/-- The reference effect of a group on a table: its two bytes overwritten. -/
def apply_group (t : List Nat) (g : Group) : List Nat :=
  (t.set (g.code * bytes_per_font_character) (g.spec_byte 0)).set
    (g.code * bytes_per_font_character + 1) (g.spec_byte 1)

/-- The number of groups `pack_font` reads: the group starting at line
`1 + 6 * k` is read while `1 + 6 * k < max_font_file_lines`. -/
abbrev group_limit : Nat := 95

/-- The assignment of line 379 for one pixel character `b` at `bit_pos`. -/
def or_pixel (t : List Nat) (character bit_pos b : Nat) : List Nat :=
  t.set (character * bytes_per_font_character + bit_pos / CHAR_BIT)
    (t.getD (character * bytes_per_font_character + bit_pos / CHAR_BIT) 0
      ||| ((if b = 48 then 0 else 1) <<< (bit_pos % CHAR_BIT)))

/-- The byte whose bit `j` is `bj`, least-significant bit first, built the way
line 379 builds it. -/
def glyph_byte (b0 b1 b2 b3 b4 b5 b6 b7 : Bool) : Nat :=
  ((((((((0 : Nat) ||| (b0.toNat <<< 0)) ||| (b1.toNat <<< 1)) ||| (b2.toNat <<< 2))
    ||| (b3.toNat <<< 3)) ||| (b4.toNat <<< 4)) ||| (b5.toNat <<< 5)) ||| (b6.toNat <<< 6))
    ||| (b7.toNat <<< 7)

/-! ## Concrete inputs used in the examples -/

/-- The group `A`, `111`, `101`, `101`, `101`, `111` of the concrete scenario. -/
def group_A : Group :=
  ⟨[], 65, [[49, 49, 49], [49, 48, 49], [49, 48, 49], [49, 48, 49], [49, 49, 49]]⟩

/-- A group that defines `B` as the empty glyph. -/
def group_B : Group :=
  ⟨[], 66, [[48, 48, 48], [48, 48, 48], [48, 48, 48], [48, 48, 48], [48, 48, 48]]⟩

/-- A stream of 96 well-formed groups: 95 definitions of `A`, then one of `B`. -/
def groups_96 : List Group := List.replicate 95 group_A ++ [group_B]

/-- The group `A`, `010`, `101`, `111`, `101`, `101`: the glyph of the built-in
table for `A`. -/
def group_A_font : Group :=
  ⟨[], 65, [[48, 49, 48], [49, 48, 49], [49, 49, 49], [49, 48, 49], [49, 48, 49]]⟩

/-- A valid header line followed by fewer than 5 pixel lines, each of 3
characters `'0'`/`'1'`. -/
def Group.incomplete (g : Group) : Prop :=
  g.text.length + 2 ≤ max_font_file_line_len ∧ (∀ b ∈ g.text, b ≠ 10 ∧ b ≠ 0) ∧
  isprint g.code = true ∧ g.rows.length < font_height ∧
  ∀ r ∈ g.rows, r.length = font_width ∧ ∀ b ∈ r, b = 48 ∨ b = 49

instance (g : Group) : Decidable g.incomplete := by
  unfold Group.incomplete; infer_instance

/-- The pixel lines that the loop over `y` of `unpack_font` prints for the
entry at byte offset `i`, line by line and without the newlines. -/
def unpack_grid (font : List Nat) (i : Nat) : Nat → Nat → List (List Nat)
  | 0, _ => []
  | n + 1, bit_pos =>
    let r := unpack_row font i font_width bit_pos
    r.1 :: unpack_grid font i n r.2

/-- The group that `unpack_font` prints for the code `c` of the table `font`. -/
def unpack_group (font : List Nat) (c : Nat) : Group :=
  ⟨printf_d c ++ bytes " 0x" ++ printf_02X c ++ [32], c,
    unpack_grid font (c * bytes_per_font_character) font_height 0⟩

/-- The groups that `unpack_font` prints: one for each of the codes 32..126. -/
def unpack_groups (font : List Nat) : List Group :=
  (List.range 95).map fun k => unpack_group font (32 + k)

/-! ## Description of a painted buffer -/

/-- The pixel that line 286 selects for bit `bit_pos` of the glyph of `c`. -/
def glyph_pixel (c bit_pos : Nat) : List Nat :=
  if default_font.getD (c * bytes_per_font_character + bit_pos / CHAR_BIT) 0
      &&& (1 <<< (bit_pos % CHAR_BIT)) ≠ 0
  then pixel_on else pixel_off

/-- The buffer `buf1` is `buf` with, for every column `X` below the width `W`
and every row `Y`, the pixel cell at `(X, Y)` overwritten by the pixel
`F X Y` when there is one. -/
def Painted (W : Nat) (buf buf1 : List Nat) (F : Nat → Nat → Option (List Nat)) : Prop :=
  buf1.length = buf.length ∧
  ∀ X Y k, X < W → k < 3 →
    buf1.getD (W * 3 * Y + X * 3 + k) 0
      = match F X Y with
        | some px => px.getD k 0
        | none => buf.getD (W * 3 * Y + X * 3 + k) 0

/-- The pixels of one row of glyph blocks, starting with bit `bit_pos`: three
blocks of `font_scale` columns from column `cur_x` on. -/
def glyph_row (fb : framebuffer) (c bit_pos X : Nat) : Option (List Nat) :=
  if fb.cur_x ≤ X ∧ X < fb.cur_x + fb.font_scale then some (glyph_pixel c bit_pos)
  else if fb.cur_x + fb.font_scale ≤ X ∧ X < fb.cur_x + 2 * fb.font_scale then
    some (glyph_pixel c (bit_pos + 1))
  else if fb.cur_x + 2 * fb.font_scale ≤ X ∧ X < fb.cur_x + 3 * fb.font_scale then
    some (glyph_pixel c (bit_pos + 2))
  else none

/-- The pixels of a scaled glyph with its top-left corner at the cursor: five
rows of blocks, each `font_scale` buffer rows high. -/
def glyph_cells (fb : framebuffer) (c X Y : Nat) : Option (List Nat) :=
  if fb.cur_y ≤ Y ∧ Y < fb.cur_y + fb.font_scale then glyph_row fb c 0 X
  else if fb.cur_y + fb.font_scale ≤ Y ∧ Y < fb.cur_y + 2 * fb.font_scale then
    glyph_row fb c 3 X
  else if fb.cur_y + 2 * fb.font_scale ≤ Y ∧ Y < fb.cur_y + 3 * fb.font_scale then
    glyph_row fb c 6 X
  else if fb.cur_y + 3 * fb.font_scale ≤ Y ∧ Y < fb.cur_y + 4 * fb.font_scale then
    glyph_row fb c 9 X
  else if fb.cur_y + 4 * fb.font_scale ≤ Y ∧ Y < fb.cur_y + 5 * fb.font_scale then
    glyph_row fb c 12 X
  else none

/-- A framebuffer of 7 by 11 pixels, all off, with scale 2 and the cursor at
the origin: exactly one glyph fits. -/
def fb_example : framebuffer :=
  { buf := List.replicate (7 * 11 * 3) 32, bytes_per_pixel := 3, cur_x := 0, cur_y := 0,
    font_scale := 2, height := 11, width := 7 }

/-! ## Framebuffers as `simulation` sets them up, and successive calls -/

/-- The framebuffer is one that `simulation` has allocated: 3 bytes per pixel
and a buffer of `width * height * 3` bytes, a size that fits an
`unsigned long`. -/
def framebuffer.allocated (fb : framebuffer) : Prop :=
  fb.bytes_per_pixel = 3 ∧ fb.buf.length = fb.width * fb.height * 3 ∧
  fb.width * fb.height * 3 < ULONG

instance (fb : framebuffer) : Decidable fb.allocated := by
  unfold framebuffer.allocated; infer_instance

/-- The framebuffer is allocated and holds at least one glyph at its scale. -/
def framebuffer.holds_glyph (fb : framebuffer) : Prop :=
  fb.allocated ∧ 1 ≤ fb.font_scale ∧ 3 * fb.font_scale ≤ fb.width ∧
  5 * fb.font_scale ≤ fb.height

instance (fb : framebuffer) : Decidable fb.holds_glyph := by
  unfold framebuffer.holds_glyph; infer_instance

/-- A further call `framebuffer_write(&fb, text)` on the framebuffer that an
earlier call has left, whether that call ran to its end or returned at the
"Bug-guard" (lines 470-485 of `simulation` call it line after line).  Once the
behaviour is undefined it stays so. -/
def write_after (w : Written) (text : List Nat) : Written :=
  match w with
  | .finished fb => framebuffer_write fb text
  | .aborted fb => framebuffer_write fb text
  | .undefined => .undefined
  | .out_of_fuel => .out_of_fuel

/-- The state that a call leaves, when it returns. -/
def Written.state : Written → Option framebuffer
  | .finished fb => some fb
  | .aborted fb => some fb
  | .undefined => none
  | .out_of_fuel => none

/-- The wrap policy in the words of the specification: the top-left corner
`(x0, y0)` of the next glyph.  `(x0, y1)` is the cursor when
`cur_x + cell_w ≤ width + 1` and `(0, cur_y + cell_h)` otherwise; `y0` is `y1`
when `y1 + cell_h ≤ height + 1` and 0 otherwise. -/
def glyph_origin (fb : framebuffer) : Nat × Nat :=
  let cell_w := 3 * fb.font_scale + 1
  let cell_h := 5 * fb.font_scale + 1
  let x0 := if fb.cur_x + cell_w ≤ fb.width + 1 then fb.cur_x else 0
  let y1 := if fb.cur_x + cell_w ≤ fb.width + 1 then fb.cur_y else fb.cur_y + cell_h
  let y0 := if y1 + cell_h ≤ fb.height + 1 then y1 else 0
  (x0, y0)

/-- A framebuffer of 4 by 4 pixels with scale 1: one cell wide, but one row
short of the height of a glyph. -/
def fb_low : framebuffer :=
  { buf := List.replicate (4 * 4 * 3) 32, bytes_per_pixel := 3, cur_x := 0, cur_y := 0,
    font_scale := 1, height := 4, width := 4 }

/-- A framebuffer of 4 by 6 pixels with scale 1: exactly one cell. -/
def fb_cell : framebuffer :=
  { buf := List.replicate (4 * 6 * 3) 32, bytes_per_pixel := 3, cur_x := 0, cur_y := 0,
    font_scale := 1, height := 6, width := 4 }

/-- A framebuffer of 3 by 5 pixels with scale 1 whose `cur_y` is 6 below
`ULONG_MAX + 1`, so that `cur_y + char_height` wraps to 0. -/
def fb_far : framebuffer :=
  { buf := List.replicate (3 * 5 * 3) 32, bytes_per_pixel := 3, cur_x := 0,
    cur_y := ULONG - 6, font_scale := 1, height := 5, width := 3 }

/-- A framebuffer of 4 by 11 pixels with scale 1: one cell wide, two cell rows
high. -/
def fb_two_rows : framebuffer :=
  { buf := List.replicate (4 * 11 * 3) 32, bytes_per_pixel := 3, cur_x := 0, cur_y := 0,
    font_scale := 1, height := 11, width := 4 }

/-- The framebuffer `fb_low` after the first four rows of the glyph of `A`
have been painted at (0, 0). -/
def fb_low_left : framebuffer :=
  { buf := [32, 32, 32, 35, 35, 35, 32, 32, 32, 32, 32, 32,
            35, 35, 35, 32, 32, 32, 35, 35, 35, 32, 32, 32,
            35, 35, 35, 35, 35, 35, 35, 35, 35, 32, 32, 32,
            35, 35, 35, 32, 32, 32, 35, 35, 35, 32, 32, 32],
    bytes_per_pixel := 3, cur_x := 0, cur_y := 0, font_scale := 1, height := 4, width := 4 }

/-- The framebuffer `fb_example` with the cursor at the right end of the only
cell row: the next glyph wraps horizontally and then vertically. -/
def fb_at_end : framebuffer :=
  { buf := List.replicate (7 * 11 * 3) 32, bytes_per_pixel := 3, cur_x := 7, cur_y := 0,
    font_scale := 2, height := 11, width := 7 }

/-! ## Malformed pixel lines -/

/-- Whether `pack_font` came to "All done". -/
def Outcome.is_ok {α : Type} : Outcome α → Bool
  | .ok _ => true
  | .fatal _ => false

/-- The characters of the first line of a stream, without its newline. -/
def first_line (s : List Nat) : List Nat := s.takeWhile (fun b => decide (b ≠ 10))

/-- The stream `s` starts with a malformed pixel line: a line of fewer than 3
characters before its newline, a line whose fourth character is not a NUL
byte, or a line with a character other than `'0'` and `'1'` among its first
3 characters. -/
def bad_pixel_line (s : List Nat) : Prop :=
  ((first_line s).length < font_width ∧ (first_line s).length < s.length) ∨
  (font_width < (first_line s).length ∧ (first_line s).getD font_width 0 ≠ 0) ∨
  (font_width ≤ (first_line s).length ∧
    ∃ k, k < font_width ∧ (first_line s).getD k 0 ≠ 48 ∧ (first_line s).getD k 0 ≠ 49)

instance (s : List Nat) : Decidable (bad_pixel_line s) := by
  unfold bad_pixel_line; infer_instance

/-- The stream `"A\n111\0\n101\n101\n101\n111\n"`: the group `A` of the concrete
scenario with a NUL byte as fourth character of its first pixel line. -/
def stream_A_nul : List Nat :=
  [65, 10, 49, 49, 49, 0, 10, 49, 48, 49, 10, 49, 48, 49, 10, 49, 48, 49, 10, 49, 49, 49, 10]

/-! ## The output of unpack_font as the specification describes it -/

/-- The upper-case hexadecimal digit for a value below 16. -/
def spec_hex_digit (d : Nat) : Nat := if d < 10 then 48 + d else 55 + d

/-- The header line of the code `c`: the decimal code, `0x` with two upper-case
hexadecimal digits, the character itself, and a newline. -/
def spec_unpack_header (c : Nat) : List Nat :=
  bytes (toString c) ++ bytes " 0x" ++ [spec_hex_digit (c / 16), spec_hex_digit (c % 16)]
    ++ bytes " " ++ [c] ++ bytes "\n"

/-- The character at line `row`, column `col` of the grid of the code `c`:
`'1'` when bit `row * 3 + col` of the built-in entry is set. -/
def spec_unpack_pixel (c row col : Nat) : Nat :=
  if (default_font.getD (c * 2 + (row * 3 + col) / 8) 0).testBit ((row * 3 + col) % 8) = true
  then 49 else 48

/-- The 5 lines of 3 characters of the code `c`, each with its newline. -/
def spec_unpack_lines (c : Nat) : List Nat :=
  (List.range 5).flatMap fun row => (List.range 3).map (spec_unpack_pixel c row) ++ bytes "\n"

/-- The output for the printable codes 32..126 in ascending order. -/
def spec_unpack_output : List Nat :=
  (List.range' 32 95).flatMap fun c => spec_unpack_header c ++ spec_unpack_lines c

/-! ## The memory accesses of framebuffer_write -/

/-- One pass of the body of the innermost loop (lines 279-290): the offset
`byte_pos` that it computes and, for the pass that the "Bug-guard" lets go on,
the byte of `default_font` that is read and the pixel that `memcpy` writes at
the offset. -/
structure Access where
  /-- The character `*cptr` that is being painted. -/
  code : Nat
  /-- The value of `bit_pos`. -/
  bit_pos : Nat
  /-- The column `fb->cur_x + x + sx` of the pixel. -/
  column : Nat
  /-- The row `fb->cur_y + y + sy` of the pixel. -/
  row : Nat
  /-- The offset `byte_pos`, where `bytes_per_pixel` bytes are written. -/
  byte_pos : Nat
  /-- The index at which `default_font` is read. -/
  font_index : Nat
deriving DecidableEq, Repr

/-- The access of the loop body for the given values of the loop variables. -/
def access_at (fb : framebuffer) (c bit_pos y x sy sx : Nat) : Access :=
  { code := c, bit_pos := bit_pos,
    column := (fb.cur_x + x + sx) % ULONG, row := (fb.cur_y + y + sy) % ULONG,
    byte_pos := (fb.width * fb.bytes_per_pixel * (fb.cur_y + y + sy)
      + (fb.cur_x + x + sx) * fb.bytes_per_pixel) % ULONG,
    font_index := c * bytes_per_font_character + bit_pos / CHAR_BIT }

/-- The passes of the loop over `sx` (lines 277-291) with `n` iterations
left, in their order; the pass at which the "Bug-guard" fires, or whose write
does not lie inside the buffer, is the last. -/
def accesses_sx (fb : framebuffer) (c fb_size bit_pos y x sy : Nat) :
    Nat → Nat → List Nat → List Access
  | 0, _, _ => []
  | n + 1, sx, buf =>
    let byte_pos := (fb.width * fb.bytes_per_pixel * (fb.cur_y + y + sy)
      + (fb.cur_x + x + sx) * fb.bytes_per_pixel) % ULONG
    access_at fb c bit_pos y x sy sx ::
      if (byte_pos + fb.bytes_per_pixel) % ULONG > fb_size then []
      else
        let pixel :=
          if default_font.getD (c * bytes_per_font_character + bit_pos / CHAR_BIT) 0
              &&& (1 <<< (bit_pos % CHAR_BIT)) ≠ 0
          then pixel_on else pixel_off
        match memcpy buf byte_pos pixel fb.bytes_per_pixel with
        | some b => accesses_sx fb c fb_size bit_pos y x sy n (sx + 1) b
        | none => []

/-- The passes of the loop over `sy` (lines 275-292); the loop goes on as
`paint_sy` does. -/
def accesses_sy (fb : framebuffer) (c fb_size bit_pos y x : Nat) :
    Nat → Nat → List Nat → List Access
  | 0, _, _ => []
  | n + 1, sy, buf =>
    accesses_sx fb c fb_size bit_pos y x sy fb.font_scale 0 buf ++
      match paint_sx fb c fb_size bit_pos y x sy fb.font_scale 0 buf with
      | .done b _ => accesses_sy fb c fb_size bit_pos y x n (sy + 1) b
      | _ => []

/-- The passes of the loop over `x` (lines 273-294). -/
def accesses_x (fb : framebuffer) (c fb_size scaled_char_width y : Nat) :
    Nat → Nat → Nat → List Nat → List Access
  | 0, _, _, _ => []
  | fuel + 1, x, bit_pos, buf =>
    if x < scaled_char_width then
      accesses_sy fb c fb_size bit_pos y x fb.font_scale 0 buf ++
        match paint_sy fb c fb_size bit_pos y x fb.font_scale 0 buf with
        | .done b _ =>
          accesses_x fb c fb_size scaled_char_width y fuel ((x + fb.font_scale) % UINT)
            (bit_pos + 1) b
        | _ => []
    else []

/-- The passes of the loop over `y` (lines 271-295). -/
def accesses_y (fb : framebuffer) (c fb_size scaled_char_height scaled_char_width : Nat) :
    Nat → Nat → Nat → List Nat → List Access
  | 0, _, _, _ => []
  | fuel + 1, y, bit_pos, buf =>
    if y < scaled_char_height then
      accesses_x fb c fb_size scaled_char_width y (UINT + 1) 0 bit_pos buf ++
        match paint_x fb c fb_size scaled_char_width y (UINT + 1) 0 bit_pos buf with
        | .done b bit_pos1 =>
          accesses_y fb c fb_size scaled_char_height scaled_char_width fuel
            ((y + fb.font_scale) % UINT) bit_pos1 b
        | _ => []
    else []

/-- The passes of the loop over the bytes of `text` (lines 257-297); the
cursor moves as in `write_chars`. -/
def accesses_chars (scaled_char_height scaled_char_width char_height char_width fb_size : Nat) :
    List Nat → framebuffer → List Access
  | [], _ => []
  | c :: cs, fb =>
    if c = 0 then []
    else
      let fb1 : framebuffer :=
        if c = 10 ∨ (fb.cur_x + char_width) % ULONG > (fb.width + 1) % ULONG then
          { fb with cur_x := 0, cur_y := (fb.cur_y + char_height) % ULONG }
        else fb
      if c = 10 then
        accesses_chars scaled_char_height scaled_char_width char_height char_width fb_size cs fb1
      else
        let fb2 : framebuffer :=
          if (fb1.cur_y + char_height) % ULONG > (fb1.height + 1) % ULONG then
            { fb1 with cur_y := 0 }
          else fb1
        accesses_y fb2 c fb_size scaled_char_height scaled_char_width (UINT + 1) 0 0 fb2.buf ++
          match paint_y fb2 c fb_size scaled_char_height scaled_char_width (UINT + 1) 0 0
              fb2.buf with
          | .done b _ =>
            accesses_chars scaled_char_height scaled_char_width char_height char_width fb_size cs
              { fb2 with buf := b, cur_x := (fb2.cur_x + char_width) % ULONG }
          | _ => []

/-- The passes of the body of the innermost loop in a call of
`framebuffer_write`, in their order. -/
def framebuffer_write_accesses (fb : framebuffer) (text : List Nat) : List Access :=
  let scaled_char_height := font_height * fb.font_scale % UINT
  let scaled_char_width := font_width * fb.font_scale % UINT
  let char_height := (scaled_char_height + 1) % UINT
  let char_width := (scaled_char_width + 1) % UINT
  let fb_size := fb.width * fb.height * fb.bytes_per_pixel % ULONG
  accesses_chars scaled_char_height scaled_char_width char_height char_width fb_size text fb

/-- The pixel of the access lies inside a framebuffer of `W` by `H` pixels, at
the offset of its column and row, and the table is read for one of the 15
bits of the entry of the code. -/
def Access.in_bounds (W H : Nat) (a : Access) : Prop :=
  a.column < W ∧ a.row < H ∧ a.byte_pos = W * 3 * a.row + a.column * 3 ∧
  a.byte_pos + 3 ≤ W * H * 3 ∧ a.bit_pos ≤ 14 ∧
  a.font_index = a.code * bytes_per_font_character + a.bit_pos / CHAR_BIT

instance (W H : Nat) (a : Access) : Decidable (a.in_bounds W H) := by
  unfold Access.in_bounds; infer_instance

/-- The "Bug-guard" (line 281) fires at the pass: its test is made in
`unsigned long` arithmetic. -/
def Access.guarded (bytes_per_pixel fb_size : Nat) (a : Access) : Prop :=
  (a.byte_pos + bytes_per_pixel) % ULONG > fb_size

instance (bytes_per_pixel fb_size : Nat) (a : Access) :
    Decidable (a.guarded bytes_per_pixel fb_size) := by
  unfold Access.guarded; infer_instance

/-- The pass writes its pixel, inside a buffer of `len` bytes: the guard does
not fire and the bytes written lie inside the buffer. -/
def Access.written (bytes_per_pixel fb_size len : Nat) (a : Access) : Prop :=
  ¬ a.guarded bytes_per_pixel fb_size ∧ a.byte_pos + bytes_per_pixel ≤ len

instance (bytes_per_pixel fb_size len : Nat) (a : Access) :
    Decidable (a.written bytes_per_pixel fb_size len) := by
  unfold Access.written; infer_instance

/-- The buffer after the writes of the given passes, in their order: each
copies the pixel for its bit of the entry of its code to its offset. -/
def replay (bytes_per_pixel : Nat) (buf : List Nat) (accesses : List Access) : List Nat :=
  accesses.foldl
    (fun b a => memcpy_within b a.byte_pos (glyph_pixel a.code a.bit_pos) bytes_per_pixel) buf

/-- How the passes `log` account for the way the painting of a glyph on the
buffer `buf` ended.  When the loops ran to their end every pass wrote its
pixel inside the buffer, and the buffer is `buf` with these writes.  When the
"Bug-guard" fired it fired at the last pass, which wrote nothing, and every
pass before it wrote inside the buffer.  When the behaviour is undefined the
guard let the last pass go on although its bytes do not lie inside the
buffer. -/
def Paint.explained (bytes_per_pixel fb_size : Nat) (buf : List Nat) (log : List Access) :
    Paint → Prop
  | .done b _ =>
    (∀ a ∈ log, a.written bytes_per_pixel fb_size buf.length) ∧
    b = replay bytes_per_pixel buf log
  | .out_of_bounds b =>
    ∃ init a, log = init ++ [a] ∧ (∀ a1 ∈ init, a1.written bytes_per_pixel fb_size buf.length) ∧
      a.guarded bytes_per_pixel fb_size ∧ b = replay bytes_per_pixel buf init
  | .undefined =>
    ∃ init a, log = init ++ [a] ∧ (∀ a1 ∈ init, a1.written bytes_per_pixel fb_size buf.length) ∧
      ¬ a.guarded bytes_per_pixel fb_size ∧ buf.length < a.byte_pos + bytes_per_pixel
  | .out_of_fuel => ∀ a ∈ log, a.written bytes_per_pixel fb_size buf.length

/-- How the passes `log` account for the way a call of `framebuffer_write` on
the buffer `buf` ended: as `Paint.explained`, for the buffer of the framebuffer
that the call leaves. -/
def Written.explained (bytes_per_pixel fb_size : Nat) (buf : List Nat) (log : List Access) :
    Written → Prop
  | .finished fb1 =>
    (∀ a ∈ log, a.written bytes_per_pixel fb_size buf.length) ∧
    fb1.buf = replay bytes_per_pixel buf log
  | .aborted fb1 =>
    ∃ init a, log = init ++ [a] ∧ (∀ a1 ∈ init, a1.written bytes_per_pixel fb_size buf.length) ∧
      a.guarded bytes_per_pixel fb_size ∧ fb1.buf = replay bytes_per_pixel buf init
  | .undefined =>
    ∃ init a, log = init ++ [a] ∧ (∀ a1 ∈ init, a1.written bytes_per_pixel fb_size buf.length) ∧
      ¬ a.guarded bytes_per_pixel fb_size ∧ buf.length < a.byte_pos + bytes_per_pixel
  | .out_of_fuel => ∀ a ∈ log, a.written bytes_per_pixel fb_size buf.length

/-- A framebuffer of 4 by 6 pixels with scale 1 whose `cur_x` is `ULONG_MAX`:
`(cur_x + x + sx) * 3` wraps around to `ULONG_MAX - 2`, and the sum of the
guard wraps around to 0. -/
def fb_wild : framebuffer :=
  { buf := List.replicate (4 * 6 * 3) 32, bytes_per_pixel := 3, cur_x := ULONG - 1, cur_y := 0,
    font_scale := 1, height := 6, width := 4 }

/-- The framebuffer with the cursor where the wrap tests (lines 259-268) put it
before a character other than newline is painted. -/
def wrap_cursor (char_height char_width c : Nat) (fb : framebuffer) : framebuffer :=
  let fb1 : framebuffer :=
    if c = 10 ∨ (fb.cur_x + char_width) % ULONG > (fb.width + 1) % ULONG then
      { fb with cur_x := 0, cur_y := (fb.cur_y + char_height) % ULONG }
    else fb
  if (fb1.cur_y + char_height) % ULONG > (fb1.height + 1) % ULONG then
    { fb1 with cur_y := 0 }
  else fb1

/-! ## Lemmas on the stream functions -/

theorem getD_set_ne (t : List Nat) (i j v : Nat) (h : i ≠ j) :
    (t.set i v).getD j 0 = t.getD j 0 := by
  simp [List.getD_eq_getElem?_getD, List.getElem?_set_ne h]

theorem getD_set_self (t : List Nat) (i v : Nat) (h : i < t.length) :
    (t.set i v).getD i 0 = v := by
  simp [List.getD_eq_getElem?_getD, List.getElem?_set_self h]

theorem isprint_iff (c : Nat) : isprint c = true ↔ 32 ≤ c ∧ c ≤ 126 := by
  simp [isprint]

theorem fgets_read_line (l : List Nat) (rest : List Nat) (n : Nat)
    (hl : ∀ b ∈ l, b ≠ 10) (hn : l.length < n) :
    fgets_read n (l ++ 10 :: rest) = (l ++ [10], rest, false) := by
  induction l generalizing n with
  | nil =>
    cases n with
    | zero => simp at hn
    | succ n => simp [fgets_read]
  | cons a l ih =>
    cases n with
    | zero => simp at hn
    | succ n =>
      have ha : a ≠ 10 := hl a (by simp)
      have := ih n (fun b hb => hl b (by simp [hb])) (by simpa using hn)
      simp [fgets_read, ha, this]

theorem fgets_line (l rest : List Nat) (e : Bool)
    (hl : ∀ b ∈ l, b ≠ 10) (hn : l.length < max_font_file_line_len) :
    fgets (max_font_file_line_len + 1) ⟨l ++ 10 :: rest, e⟩ = (some (l ++ [10]), ⟨rest, e⟩) := by
  simp [fgets, fgets_read_line l rest 11 hl hn]

theorem fgets_nil (e : Bool) :
    fgets (max_font_file_line_len + 1) ⟨[], e⟩ = (none, ⟨[], true⟩) := by
  simp [fgets, fgets_read]

theorem strchr_line (l : List Nat) (hl : ∀ b ∈ l, b ≠ 10 ∧ b ≠ 0) :
    strchr (l ++ [10]) 10 = some l.length := by
  induction l with
  | nil => simp [strchr]
  | cons a l ih =>
    have ha := hl a (by simp)
    have := ih (fun b hb => hl b (by simp [hb]))
    simp [strchr, ha.1, ha.2, this]

theorem pack_pixels_row (a b c : Nat) (tail : List Nat) (line ch bp : Nat) (t : List Nat)
    (ha : a = 48 ∨ a = 49) (hb : b = 48 ∨ b = 49) (hc : c = 48 ∨ c = 49) :
    pack_pixels (a :: b :: c :: tail) line ch font_width 0 bp t
      = .ok (or_pixel (or_pixel (or_pixel t ch bp a) ch (bp + 1) b) ch (bp + 2) c, bp + 3) := by
  have h1 : ¬ (a ≠ 48 ∧ a ≠ 49) := by omega
  have h2 : ¬ (b ≠ 48 ∧ b ≠ 49) := by omega
  have h3 : ¬ (c ≠ 48 ∧ c ≠ 49) := by omega
  simp only [pack_pixels, List.getD_cons_zero, List.getD_cons_succ, h1, h2, h3, if_false,
    or_pixel, Nat.zero_add]

theorem strlen_row (a b c : Nat) (ha : a = 48 ∨ a = 49) (hb : b = 48 ∨ b = 49)
    (hc : c = 48 ∨ c = 49) : strlen [a, b, c, 10] = 4 := by
  have h1 : a ≠ 0 := by omega
  have h2 : b ≠ 0 := by omega
  have h3 : c ≠ 0 := by omega
  simp [strlen, h1, h2, h3]

theorem pack_pixel_lines_row (a b c : Nat) (rest : List Nat) (ch n pl line bp : Nat)
    (t : List Nat)
    (ha : a = 48 ∨ a = 49) (hb : b = 48 ∨ b = 49) (hc : c = 48 ∨ c = 49) :
    pack_pixel_lines ch (n + 1) pl line bp ⟨a :: b :: c :: 10 :: rest, false⟩ t
      = pack_pixel_lines ch n (pl + 1) (line + 1) (bp + 3) ⟨rest, false⟩
          (or_pixel (or_pixel (or_pixel t ch bp a) ch (bp + 1) b) ch (bp + 2) c) := by
  have hf := fgets_line [a, b, c] rest false (by intro x hx; simp at hx; omega) (by simp [max_font_file_line_len])
  simp only [List.cons_append, List.nil_append] at hf
  rw [pack_pixel_lines, hf]
  simp only [strlen_row a b c ha hb hc, pack_pixels_row a b c [10] _ ch bp t ha hb hc, feof]
  simp [font_width]

theorem or_pixel_lo (t : List Nat) (ch bp b x y : Nat) (h : ch * 2 + 1 < t.length)
    (hbp : bp < 8) :
    or_pixel ((t.set (ch * 2) x).set (ch * 2 + 1) y) ch bp b
      = (t.set (ch * 2) (x ||| ((if b = 48 then 0 else 1) <<< bp))).set (ch * 2 + 1) y := by
  have h0 : bp / CHAR_BIT = 0 := by simp only [CHAR_BIT]; omega
  have h1 : bp % CHAR_BIT = bp := by simp only [CHAR_BIT]; omega
  simp only [or_pixel, h0, h1, Nat.add_zero, bytes_per_font_character, CHAR_BIT]
  rw [List.getD_eq_getElem?_getD, List.getElem?_set_ne (by omega),
    List.getElem?_set_self (by omega), Option.getD_some,
    List.set_comm _ _ _ (by omega : ch * 2 + 1 ≠ ch * 2), List.set_set,
    List.set_comm _ _ _ (by omega : ch * 2 ≠ ch * 2 + 1)]

theorem or_pixel_hi (t : List Nat) (ch bp b x y : Nat) (h : ch * 2 + 1 < t.length)
    (hbp : bp < 8) :
    or_pixel ((t.set (ch * 2) x).set (ch * 2 + 1) y) ch (bp + 8) b
      = (t.set (ch * 2) x).set (ch * 2 + 1) (y ||| ((if b = 48 then 0 else 1) <<< bp)) := by
  have h0 : (bp + 8) / CHAR_BIT = 1 := by simp only [CHAR_BIT]; omega
  have h1 : (bp + 8) % CHAR_BIT = bp := by simp only [CHAR_BIT]; omega
  simp only [or_pixel, h0, h1, bytes_per_font_character, CHAR_BIT]
  rw [List.getD_eq_getElem?_getD, List.getElem?_set_self (by simpa using h), Option.getD_some,
    List.set_set]

theorem or_pixel_at (t : List Nat) (ch bp b x y : Nat) (h : ch * 2 + 1 < t.length)
    (hbp : bp < 16) :
    or_pixel ((t.set (ch * 2) x).set (ch * 2 + 1) y) ch bp b
      = (t.set (ch * 2) (if bp < 8 then x ||| ((if b = 48 then 0 else 1) <<< bp) else x)).set
          (ch * 2 + 1) (if bp < 8 then y else y ||| ((if b = 48 then 0 else 1) <<< (bp - 8))) := by
  by_cases h8 : bp < 8
  · simp only [h8, if_true]
    exact or_pixel_lo t ch bp b x y h h8
  · simp only [h8, if_false]
    have := or_pixel_hi t ch (bp - 8) b x y h (by omega)
    rwa [Nat.sub_add_cancel (by omega)] at this

theorem list_length_three {l : List Nat} (h : l.length = 3) : ∃ a b c, l = [a, b, c] := by
  match l, h with
  | [a, b, c], _ => exact ⟨a, b, c, rfl⟩

theorem list_length_five {l : List (List Nat)} (h : l.length = 5) :
    ∃ a b c d e, l = [a, b, c, d, e] := by
  match l, h with
  | [a, b, c, d, e], _ => exact ⟨a, b, c, d, e, rfl⟩

/-- The rows of a well-formed group are 15 characters `'0'`/`'1'`. -/
theorem rows_shape (g : Group) (h : g.well_formed) :
    ∃ a0 a1 a2 a3 a4 a5 a6 a7 a8 a9 a10 a11 a12 a13 a14 : Nat,
      g.rows = [[a0, a1, a2], [a3, a4, a5], [a6, a7, a8], [a9, a10, a11], [a12, a13, a14]] ∧
      (a0 = 48 ∨ a0 = 49) ∧ (a1 = 48 ∨ a1 = 49) ∧ (a2 = 48 ∨ a2 = 49) ∧
      (a3 = 48 ∨ a3 = 49) ∧ (a4 = 48 ∨ a4 = 49) ∧ (a5 = 48 ∨ a5 = 49) ∧
      (a6 = 48 ∨ a6 = 49) ∧ (a7 = 48 ∨ a7 = 49) ∧ (a8 = 48 ∨ a8 = 49) ∧
      (a9 = 48 ∨ a9 = 49) ∧ (a10 = 48 ∨ a10 = 49) ∧ (a11 = 48 ∨ a11 = 49) ∧
      (a12 = 48 ∨ a12 = 49) ∧ (a13 = 48 ∨ a13 = 49) ∧ (a14 = 48 ∨ a14 = 49) := by
  unfold Group.well_formed at h
  obtain ⟨-, -, -, h5, hr⟩ := h
  obtain ⟨r0, r1, r2, r3, r4, hrows⟩ := list_length_five h5
  rw [hrows] at hr
  obtain ⟨a0, a1, a2, e0⟩ := list_length_three (hr r0 (by simp)).1
  obtain ⟨a3, a4, a5, e1⟩ := list_length_three (hr r1 (by simp)).1
  obtain ⟨a6, a7, a8, e2⟩ := list_length_three (hr r2 (by simp)).1
  obtain ⟨a9, a10, a11, e3⟩ := list_length_three (hr r3 (by simp)).1
  obtain ⟨a12, a13, a14, e4⟩ := list_length_three (hr r4 (by simp)).1
  subst e0 e1 e2 e3 e4
  refine ⟨a0, a1, a2, a3, a4, a5, a6, a7, a8, a9, a10, a11, a12, a13, a14, hrows, ?_⟩
  have q0 := (hr _ (List.mem_cons_self _ _)).2
  have q1 := (hr [a3, a4, a5] (by simp)).2
  have q2 := (hr [a6, a7, a8] (by simp)).2
  have q3 := (hr [a9, a10, a11] (by simp)).2
  have q4 := (hr [a12, a13, a14] (by simp)).2
  simp only [List.mem_cons, List.mem_singleton, forall_eq_or_imp, forall_eq, List.not_mem_nil,
    false_imp_iff, implies_true, and_true, List.mem_nil_iff] at q0 q1 q2 q3 q4
  exact ⟨q0.1, q0.2.1, q0.2.2, q1.1, q1.2.1, q1.2.2, q2.1, q2.2.1, q2.2.2, q3.1, q3.2.1, q3.2.2,
    q4.1, q4.2.1, q4.2.2⟩

theorem pixel_value (a : Nat) (h : a = 48 ∨ a = 49) :
    (if a = 48 then 0 else 1 : Nat) = (decide (a = 49)).toNat := by
  rcases h with rfl | rfl <;> rfl

theorem ite_decide (p : Prop) [Decidable p] (x : Nat) :
    (if p then x else 0) = if decide p = true then x else 0 := by
  simp

/-- The low byte that the fifteen assignments of line 379 build is the
reference byte 0. -/
theorem spec_byte_zero (text : List Nat) (code : Nat)
    (a0 a1 a2 a3 a4 a5 a6 a7 a8 a9 a10 a11 a12 a13 a14 : Nat)
    (h0 : a0 = 48 ∨ a0 = 49) (h1 : a1 = 48 ∨ a1 = 49) (h2 : a2 = 48 ∨ a2 = 49)
    (h3 : a3 = 48 ∨ a3 = 49) (h4 : a4 = 48 ∨ a4 = 49) (h5 : a5 = 48 ∨ a5 = 49)
    (h6 : a6 = 48 ∨ a6 = 49) (h7 : a7 = 48 ∨ a7 = 49) :
    Group.spec_byte ⟨text, code,
      [[a0, a1, a2], [a3, a4, a5], [a6, a7, a8], [a9, a10, a11], [a12, a13, a14]]⟩ 0
    = (((((((((0 : Nat) ||| ((if a0 = 48 then 0 else 1) <<< 0))
        ||| ((if a1 = 48 then 0 else 1) <<< 1)) ||| ((if a2 = 48 then 0 else 1) <<< 2))
        ||| ((if a3 = 48 then 0 else 1) <<< 3)) ||| ((if a4 = 48 then 0 else 1) <<< 4))
        ||| ((if a5 = 48 then 0 else 1) <<< 5)) ||| ((if a6 = 48 then 0 else 1) <<< 6))
        ||| ((if a7 = 48 then 0 else 1) <<< 7)) := by
  rw [pixel_value a0 h0, pixel_value a1 h1, pixel_value a2 h2, pixel_value a3 h3,
    pixel_value a4 h4, pixel_value a5 h5, pixel_value a6 h6, pixel_value a7 h7]
  simp only [Group.spec_byte, Group.pixel, CHAR_BIT, font_height, font_width, List.range_succ,
    List.range_zero, List.nil_append, List.cons_append, List.map_cons, List.map_nil,
    List.sum_cons, List.sum_nil]
  norm_num
  rw [ite_decide (a0 = 49), ite_decide (a1 = 49), ite_decide (a2 = 49), ite_decide (a3 = 49),
    ite_decide (a4 = 49), ite_decide (a5 = 49), ite_decide (a6 = 49), ite_decide (a7 = 49)]
  generalize decide (a0 = 49) = b0
  generalize decide (a1 = 49) = b1
  generalize decide (a2 = 49) = b2
  generalize decide (a3 = 49) = b3
  generalize decide (a4 = 49) = b4
  generalize decide (a5 = 49) = b5
  generalize decide (a6 = 49) = b6
  generalize decide (a7 = 49) = b7
  revert b0 b1 b2 b3 b4 b5 b6 b7
  decide

/-- The high byte that the fifteen assignments of line 379 build is the
reference byte 1; its bit 7 is never set. -/
theorem spec_byte_one (text : List Nat) (code : Nat)
    (a0 a1 a2 a3 a4 a5 a6 a7 a8 a9 a10 a11 a12 a13 a14 : Nat)
    (h8 : a8 = 48 ∨ a8 = 49) (h9 : a9 = 48 ∨ a9 = 49) (h10 : a10 = 48 ∨ a10 = 49)
    (h11 : a11 = 48 ∨ a11 = 49) (h12 : a12 = 48 ∨ a12 = 49) (h13 : a13 = 48 ∨ a13 = 49)
    (h14 : a14 = 48 ∨ a14 = 49) :
    Group.spec_byte ⟨text, code,
      [[a0, a1, a2], [a3, a4, a5], [a6, a7, a8], [a9, a10, a11], [a12, a13, a14]]⟩ 1
    = ((((((((0 : Nat) ||| ((if a8 = 48 then 0 else 1) <<< 0))
        ||| ((if a9 = 48 then 0 else 1) <<< 1)) ||| ((if a10 = 48 then 0 else 1) <<< 2))
        ||| ((if a11 = 48 then 0 else 1) <<< 3)) ||| ((if a12 = 48 then 0 else 1) <<< 4))
        ||| ((if a13 = 48 then 0 else 1) <<< 5)) ||| ((if a14 = 48 then 0 else 1) <<< 6)) := by
  rw [pixel_value a8 h8, pixel_value a9 h9, pixel_value a10 h10, pixel_value a11 h11,
    pixel_value a12 h12, pixel_value a13 h13, pixel_value a14 h14]
  simp only [Group.spec_byte, Group.pixel, CHAR_BIT, font_height, font_width, List.range_succ,
    List.range_zero, List.nil_append, List.cons_append, List.map_cons, List.map_nil,
    List.sum_cons, List.sum_nil]
  norm_num
  rw [ite_decide (a8 = 49), ite_decide (a9 = 49), ite_decide (a10 = 49), ite_decide (a11 = 49),
    ite_decide (a12 = 49), ite_decide (a13 = 49), ite_decide (a14 = 49)]
  generalize decide (a8 = 49) = b0
  generalize decide (a9 = 49) = b1
  generalize decide (a10 = 49) = b2
  generalize decide (a11 = 49) = b3
  generalize decide (a12 = 49) = b4
  generalize decide (a13 = 49) = b5
  generalize decide (a14 = 49) = b6
  revert b0 b1 b2 b3 b4 b5 b6
  decide

/-- The fifteen assignments of line 379 on the cleared entry build the
reference encoding of the group. -/
theorem or_pixels_group (t : List Nat) (text : List Nat) (code : Nat)
    (a0 a1 a2 a3 a4 a5 a6 a7 a8 a9 a10 a11 a12 a13 a14 : Nat)
    (h : code * 2 + 1 < t.length)
    (h0 : a0 = 48 ∨ a0 = 49) (h1 : a1 = 48 ∨ a1 = 49) (h2 : a2 = 48 ∨ a2 = 49)
    (h3 : a3 = 48 ∨ a3 = 49) (h4 : a4 = 48 ∨ a4 = 49) (h5 : a5 = 48 ∨ a5 = 49)
    (h6 : a6 = 48 ∨ a6 = 49) (h7 : a7 = 48 ∨ a7 = 49) (h8 : a8 = 48 ∨ a8 = 49)
    (h9 : a9 = 48 ∨ a9 = 49) (h10 : a10 = 48 ∨ a10 = 49) (h11 : a11 = 48 ∨ a11 = 49)
    (h12 : a12 = 48 ∨ a12 = 49) (h13 : a13 = 48 ∨ a13 = 49) (h14 : a14 = 48 ∨ a14 = 49) :
    or_pixel (or_pixel (or_pixel (or_pixel (or_pixel (or_pixel (or_pixel (or_pixel (or_pixel
      (or_pixel (or_pixel (or_pixel (or_pixel (or_pixel (or_pixel
        ((t.set (code * 2) 0).set (code * 2 + 1) 0)
        code 0 a0) code 1 a1) code 2 a2) code 3 a3) code 4 a4) code 5 a5) code 6 a6) code 7 a7)
        code 8 a8) code 9 a9) code 10 a10) code 11 a11) code 12 a12) code 13 a13) code 14 a14
    = apply_group t ⟨text, code,
        [[a0, a1, a2], [a3, a4, a5], [a6, a7, a8], [a9, a10, a11], [a12, a13, a14]]⟩ := by
  rw [or_pixel_at t code 0 a0 _ _ h (by decide), or_pixel_at t code 1 a1 _ _ h (by decide),
    or_pixel_at t code 2 a2 _ _ h (by decide), or_pixel_at t code 3 a3 _ _ h (by decide),
    or_pixel_at t code 4 a4 _ _ h (by decide), or_pixel_at t code 5 a5 _ _ h (by decide),
    or_pixel_at t code 6 a6 _ _ h (by decide), or_pixel_at t code 7 a7 _ _ h (by decide),
    or_pixel_at t code 8 a8 _ _ h (by decide), or_pixel_at t code 9 a9 _ _ h (by decide),
    or_pixel_at t code 10 a10 _ _ h (by decide), or_pixel_at t code 11 a11 _ _ h (by decide),
    or_pixel_at t code 12 a12 _ _ h (by decide), or_pixel_at t code 13 a13 _ _ h (by decide),
    or_pixel_at t code 14 a14 _ _ h (by decide)]
  rw [apply_group, spec_byte_zero text code a0 a1 a2 a3 a4 a5 a6 a7 a8 a9 a10 a11 a12 a13 a14
      h0 h1 h2 h3 h4 h5 h6 h7,
    spec_byte_one text code a0 a1 a2 a3 a4 a5 a6 a7 a8 a9 a10 a11 a12 a13 a14
      h8 h9 h10 h11 h12 h13 h14]
  simp only [bytes_per_font_character]
  rfl

theorem getD_append_length (l : List Nat) (c : Nat) (r : List Nat) :
    (l ++ c :: r).getD l.length 0 = c := by
  induction l with
  | nil => rfl
  | cons a l ih => simpa using ih

/-- One iteration of the loop over `line` on a well-formed group: the group is
consumed, six lines are counted and the table gets the reference encoding. -/
theorem pack_lines_group (g : Group) (hg : g.well_formed) (rest : List Nat) (fuel line : Nat)
    (t : List Nat) (ht : t.length = 512) (hline : line < max_font_file_lines) :
    pack_lines (fuel + 1) line ⟨g.encode ++ rest, false⟩ t
      = pack_lines fuel (line + 6) ⟨rest, false⟩ (apply_group t g) := by
  obtain ⟨a0, a1, a2, a3, a4, a5, a6, a7, a8, a9, a10, a11, a12, a13, a14, hrows,
    h0, h1, h2, h3, h4, h5, h6, h7, h8, h9, h10, h11, h12, h13, h14⟩ := rows_shape g hg
  obtain ⟨text, code, rows⟩ := g
  simp only at hrows
  subst hrows
  unfold Group.well_formed at hg
  obtain ⟨hlen, htext, hcode, -, -⟩ := hg
  simp only at hlen htext hcode
  have hc := (isprint_iff code).1 hcode
  have hno : ∀ b ∈ text ++ [code], b ≠ 10 ∧ b ≠ 0 := by
    intro b hb
    rcases List.mem_append.1 hb with hb | hb
    · exact htext b hb
    · simp only [List.mem_singleton] at hb
      subst hb
      omega
  have henc : Group.encode ⟨text, code, [[a0, a1, a2], [a3, a4, a5], [a6, a7, a8],
        [a9, a10, a11], [a12, a13, a14]]⟩ ++ rest
      = (text ++ [code]) ++ 10 :: (a0 :: a1 :: a2 :: 10 :: a3 :: a4 :: a5 :: 10 :: a6 :: a7 ::
          a8 :: 10 :: a9 :: a10 :: a11 :: 10 :: a12 :: a13 :: a14 :: 10 :: rest) := by
    simp [Group.encode, Group.grid]
  have hf := fgets_line (text ++ [code]) (a0 :: a1 :: a2 :: 10 :: a3 :: a4 :: a5 :: 10 :: a6 ::
    a7 :: a8 :: 10 :: a9 :: a10 :: a11 :: 10 :: a12 :: a13 :: a14 :: 10 :: rest) false
    (fun b hb => (hno b hb).1) (by simp only [max_font_file_line_len] at hlen ⊢; simp; omega)
  have hs := strchr_line (text ++ [code]) hno
  have hget : (text ++ [code] ++ [10]).getD text.length 0 = code := by
    rw [List.append_assoc]
    exact getD_append_length text code [10]
  rw [henc, pack_lines, if_pos hline, hf]
  simp only [hs, List.length_append, List.length_singleton, hget, hcode, Bool.not_true,
    Bool.false_eq_true, if_false, font_height]
  rw [pack_pixel_lines_row a0 a1 a2 _ code 4 0 line 0 _ h0 h1 h2,
    pack_pixel_lines_row a3 a4 a5 _ code 3 _ _ _ _ h3 h4 h5,
    pack_pixel_lines_row a6 a7 a8 _ code 2 _ _ _ _ h6 h7 h8,
    pack_pixel_lines_row a9 a10 a11 _ code 1 _ _ _ _ h9 h10 h11,
    pack_pixel_lines_row a12 a13 a14 _ code 0 _ _ _ _ h12 h13 h14]
  simp only [pack_pixel_lines, Nat.zero_add, Nat.reduceAdd, bytes_per_font_character,
    byte_all_zeroes, Nat.lt_irrefl, if_false, feof, Bool.false_eq_true, Nat.add_assoc]
  rw [or_pixels_group t text code a0 a1 a2 a3 a4 a5 a6 a7 a8 a9 a10 a11 a12 a13 a14
    (by omega) h0 h1 h2 h3 h4 h5 h6 h7 h8 h9 h10 h11 h12 h13 h14]

theorem apply_group_length (t : List Nat) (g : Group) :
    (apply_group t g).length = t.length := by
  simp [apply_group]

theorem foldl_apply_group_length (gs : List Group) (t : List Nat) :
    (gs.foldl apply_group t).length = t.length := by
  induction gs generalizing t with
  | nil => rfl
  | cons g gs ih => rw [List.foldl_cons, ih, apply_group_length]

theorem stream_cons (g : Group) (gs : List Group) :
    stream (g :: gs) = g.encode ++ stream gs := by
  simp [stream]

theorem stream_append (gs hs : List Group) : stream (gs ++ hs) = stream gs ++ stream hs := by
  simp [stream]

/-- The loop over `line` consumes well-formed groups one by one as long as each
starts on a line below `max_font_file_lines`. -/
theorem pack_lines_groups (gs : List Group) (hgs : ∀ g ∈ gs, g.well_formed) (rest : List Nat)
    (fuel line : Nat) (t : List Nat) (ht : t.length = 512)
    (hline : line + 6 * gs.length ≤ max_font_file_lines + 5) (hfuel : gs.length ≤ fuel) :
    pack_lines fuel line ⟨stream gs ++ rest, false⟩ t
      = pack_lines (fuel - gs.length) (line + 6 * gs.length) ⟨rest, false⟩
          (gs.foldl apply_group t) := by
  induction gs generalizing fuel line t with
  | nil => simp [stream]
  | cons g gs ih =>
    simp only [List.length_cons, max_font_file_lines] at hline hfuel
    obtain ⟨fuel, rfl⟩ : ∃ k, fuel = k + 1 := ⟨fuel - 1, by omega⟩
    rw [stream_cons, List.append_assoc,
      pack_lines_group g (hgs g (List.mem_cons_self _ _)) _ fuel line t ht
        (by simp only [max_font_file_lines]; omega),
      ih (fun x hx => hgs x (List.mem_cons_of_mem _ hx)) fuel (line + 6) _
        (by rw [apply_group_length, ht]) (by simp only [max_font_file_lines]; omega) (by omega)]
    simp only [List.length_cons, List.foldl_cons]
    congr 1
    · omega
    · omega

theorem init_encodings_length : init_encodings.length = 512 := by
  rw [init_encodings, List.length_replicate]
  rfl

/-- A stream of at most 95 well-formed groups, read to its end. -/
theorem pack_table_eof (gs : List Group) (hgs : ∀ g ∈ gs, g.well_formed)
    (hlen : gs.length < group_limit) :
    pack_table (stream gs) = .ok (gs.foldl apply_group init_encodings) := by
  have h := pack_lines_groups gs hgs [] max_font_file_lines 1 init_encodings
    init_encodings_length (by simp only [max_font_file_lines, group_limit] at *; omega)
    (by simp only [max_font_file_lines, group_limit] at *; omega)
  rw [List.append_nil] at h
  simp only [group_limit, max_font_file_lines] at hlen h
  obtain ⟨k, hk⟩ : ∃ k, 571 - gs.length = k + 1 := ⟨571 - gs.length - 1, by omega⟩
  rw [pack_table, max_font_file_lines, h, hk, pack_lines,
    if_pos (by simp only [max_font_file_lines]; omega), fgets_nil]

/-- After 95 well-formed groups the loop ends, whatever follows them. -/
theorem pack_table_limit (gs : List Group) (hgs : ∀ g ∈ gs, g.well_formed)
    (hlen : gs.length = group_limit) (rest : List Nat) :
    pack_table (stream gs ++ rest) = .ok (gs.foldl apply_group init_encodings) := by
  have h := pack_lines_groups gs hgs rest max_font_file_lines 1 init_encodings
    init_encodings_length (by simp only [max_font_file_lines, group_limit] at *; omega)
    (by simp only [max_font_file_lines, group_limit] at *; omega)
  simp only [group_limit, max_font_file_lines] at hlen h
  rw [pack_table, max_font_file_lines, h, hlen]
  simp [pack_lines]

/-- The table of any stream of well-formed groups: the first 95 are applied. -/
theorem pack_table_stream (gs : List Group) (hgs : ∀ g ∈ gs, g.well_formed) :
    pack_table (stream gs) = .ok ((gs.take group_limit).foldl apply_group init_encodings) := by
  by_cases h : gs.length < group_limit
  · rw [List.take_of_length_le (Nat.le_of_lt h)]
    exact pack_table_eof gs hgs h
  · have := pack_table_limit (gs.take group_limit)
      (fun g hg => hgs g (List.mem_of_mem_take hg))
      (by rw [List.length_take]; simp only [group_limit] at *; omega)
      (stream (gs.drop group_limit))
    rwa [← stream_append, List.take_append_drop] at this

/-! ## Entries of the table after a sequence of groups -/

theorem getD_apply_group_ne (t : List Nat) (g : Group) (i : Nat)
    (h0 : i ≠ g.code * 2) (h1 : i ≠ g.code * 2 + 1) :
    (apply_group t g).getD i 0 = t.getD i 0 := by
  simp only [apply_group, bytes_per_font_character]
  rw [getD_set_ne _ _ _ _ (Ne.symm h1), getD_set_ne _ _ _ _ (Ne.symm h0)]

theorem getD_apply_group_eq (t : List Nat) (g : Group) (h : g.code * 2 + 1 < t.length) :
    (apply_group t g).getD (g.code * 2) 0 = g.spec_byte 0 ∧
    (apply_group t g).getD (g.code * 2 + 1) 0 = g.spec_byte 1 := by
  simp only [apply_group, bytes_per_font_character]
  constructor
  · rw [getD_set_ne _ _ _ _ (by simp), getD_set_self _ _ _ (by omega)]
  · rw [getD_set_self _ _ _ (by simpa using h)]

theorem getD_foldl_apply_group_ne (gs : List Group) (t : List Nat) (c : Nat)
    (h : ∀ g ∈ gs, g.code ≠ c) :
    (gs.foldl apply_group t).getD (c * 2) 0 = t.getD (c * 2) 0 ∧
    (gs.foldl apply_group t).getD (c * 2 + 1) 0 = t.getD (c * 2 + 1) 0 := by
  induction gs generalizing t with
  | nil => exact ⟨rfl, rfl⟩
  | cons g gs ih =>
    have hg : g.code ≠ c := h g (List.mem_cons_self _ _)
    have := ih (apply_group t g) (fun x hx => h x (List.mem_cons_of_mem _ hx))
    rw [List.foldl_cons, this.1, this.2,
      getD_apply_group_ne t g _ (by omega) (by omega),
      getD_apply_group_ne t g _ (by omega) (by omega)]
    exact ⟨rfl, rfl⟩

/-- The entry of a code after a sequence of groups is the reference encoding
of the last group that defines the code. -/
theorem getD_foldl_apply_group_last (pre post : List Group) (g : Group) (t : List Nat)
    (ht : t.length = 512) (hg : g.well_formed) (h : ∀ x ∈ post, x.code ≠ g.code) :
    ((pre ++ g :: post).foldl apply_group t).getD (g.code * 2) 0 = g.spec_byte 0 ∧
    ((pre ++ g :: post).foldl apply_group t).getD (g.code * 2 + 1) 0 = g.spec_byte 1 := by
  have hc := (isprint_iff g.code).1 hg.2.2.1
  have h1 := getD_foldl_apply_group_ne post (apply_group (pre.foldl apply_group t) g) g.code h
  have h2 := getD_apply_group_eq (pre.foldl apply_group t) g
    (by rw [foldl_apply_group_length, ht]; omega)
  rw [List.foldl_append, List.foldl_cons, h1.1, h1.2]
  exact h2

theorem glyph_byte_bits (b0 b1 b2 b3 b4 b5 b6 b7 : Bool) :
    ((glyph_byte b0 b1 b2 b3 b4 b5 b6 b7 &&& 1 ≠ 0) ↔ b0 = true) ∧
    ((glyph_byte b0 b1 b2 b3 b4 b5 b6 b7 &&& 2 ≠ 0) ↔ b1 = true) ∧
    ((glyph_byte b0 b1 b2 b3 b4 b5 b6 b7 &&& 4 ≠ 0) ↔ b2 = true) ∧
    ((glyph_byte b0 b1 b2 b3 b4 b5 b6 b7 &&& 8 ≠ 0) ↔ b3 = true) ∧
    ((glyph_byte b0 b1 b2 b3 b4 b5 b6 b7 &&& 16 ≠ 0) ↔ b4 = true) ∧
    ((glyph_byte b0 b1 b2 b3 b4 b5 b6 b7 &&& 32 ≠ 0) ↔ b5 = true) ∧
    ((glyph_byte b0 b1 b2 b3 b4 b5 b6 b7 &&& 64 ≠ 0) ↔ b6 = true) ∧
    ((glyph_byte b0 b1 b2 b3 b4 b5 b6 b7 &&& 128 ≠ 0) ↔ b7 = true) := by
  revert b0 b1 b2 b3 b4 b5 b6 b7
  decide

theorem spec_byte_zero_glyph (text : List Nat) (code : Nat)
    (a0 a1 a2 a3 a4 a5 a6 a7 a8 a9 a10 a11 a12 a13 a14 : Nat)
    (h0 : a0 = 48 ∨ a0 = 49) (h1 : a1 = 48 ∨ a1 = 49) (h2 : a2 = 48 ∨ a2 = 49)
    (h3 : a3 = 48 ∨ a3 = 49) (h4 : a4 = 48 ∨ a4 = 49) (h5 : a5 = 48 ∨ a5 = 49)
    (h6 : a6 = 48 ∨ a6 = 49) (h7 : a7 = 48 ∨ a7 = 49) :
    Group.spec_byte ⟨text, code,
      [[a0, a1, a2], [a3, a4, a5], [a6, a7, a8], [a9, a10, a11], [a12, a13, a14]]⟩ 0
    = glyph_byte (decide (a0 = 49)) (decide (a1 = 49)) (decide (a2 = 49)) (decide (a3 = 49))
        (decide (a4 = 49)) (decide (a5 = 49)) (decide (a6 = 49)) (decide (a7 = 49)) := by
  rw [spec_byte_zero text code a0 a1 a2 a3 a4 a5 a6 a7 a8 a9 a10 a11 a12 a13 a14
      h0 h1 h2 h3 h4 h5 h6 h7,
    pixel_value a0 h0, pixel_value a1 h1, pixel_value a2 h2, pixel_value a3 h3,
    pixel_value a4 h4, pixel_value a5 h5, pixel_value a6 h6, pixel_value a7 h7]
  rfl

theorem spec_byte_one_glyph (text : List Nat) (code : Nat)
    (a0 a1 a2 a3 a4 a5 a6 a7 a8 a9 a10 a11 a12 a13 a14 : Nat)
    (h8 : a8 = 48 ∨ a8 = 49) (h9 : a9 = 48 ∨ a9 = 49) (h10 : a10 = 48 ∨ a10 = 49)
    (h11 : a11 = 48 ∨ a11 = 49) (h12 : a12 = 48 ∨ a12 = 49) (h13 : a13 = 48 ∨ a13 = 49)
    (h14 : a14 = 48 ∨ a14 = 49) :
    Group.spec_byte ⟨text, code,
      [[a0, a1, a2], [a3, a4, a5], [a6, a7, a8], [a9, a10, a11], [a12, a13, a14]]⟩ 1
    = glyph_byte (decide (a8 = 49)) (decide (a9 = 49)) (decide (a10 = 49)) (decide (a11 = 49))
        (decide (a12 = 49)) (decide (a13 = 49)) (decide (a14 = 49)) false := by
  rw [spec_byte_one text code a0 a1 a2 a3 a4 a5 a6 a7 a8 a9 a10 a11 a12 a13 a14
      h8 h9 h10 h11 h12 h13 h14,
    pixel_value a8 h8, pixel_value a9 h9, pixel_value a10 h10, pixel_value a11 h11,
    pixel_value a12 h12, pixel_value a13 h13, pixel_value a14 h14]
  generalize decide (a8 = 49) = b0
  generalize decide (a9 = 49) = b1
  generalize decide (a10 = 49) = b2
  generalize decide (a11 = 49) = b3
  generalize decide (a12 = 49) = b4
  generalize decide (a13 = 49) = b5
  generalize decide (a14 = 49) = b6
  revert b0 b1 b2 b3 b4 b5 b6
  decide

theorem pixel_char (a : Nat) (h : a = 48 ∨ a = 49) :
    (if decide (a = 49) = true then 49 else 48) = a := by
  rcases h with rfl | rfl <;> rfl

/-- Decoding the reference encoding of a well-formed group bit by bit, as
`unpack_font` does, gives back the pixel lines of the group. -/
theorem unpack_rows_spec (t : List Nat) (g : Group) (hg : g.well_formed)
    (h0 : t.getD (g.code * 2) 0 = g.spec_byte 0)
    (h1 : t.getD (g.code * 2 + 1) 0 = g.spec_byte 1) :
    unpack_rows t (g.code * bytes_per_font_character) font_height 0 = g.grid := by
  obtain ⟨a0, a1, a2, a3, a4, a5, a6, a7, a8, a9, a10, a11, a12, a13, a14, hrows,
    q0, q1, q2, q3, q4, q5, q6, q7, q8, q9, q10, q11, q12, q13, q14⟩ := rows_shape g hg
  obtain ⟨text, code, rows⟩ := g
  simp only at hrows h0 h1
  subst hrows
  rw [spec_byte_zero_glyph text code a0 a1 a2 a3 a4 a5 a6 a7 a8 a9 a10 a11 a12 a13 a14
    q0 q1 q2 q3 q4 q5 q6 q7] at h0
  rw [spec_byte_one_glyph text code a0 a1 a2 a3 a4 a5 a6 a7 a8 a9 a10 a11 a12 a13 a14
    q8 q9 q10 q11 q12 q13 q14] at h1
  have B0 := glyph_byte_bits (decide (a0 = 49)) (decide (a1 = 49)) (decide (a2 = 49))
    (decide (a3 = 49)) (decide (a4 = 49)) (decide (a5 = 49)) (decide (a6 = 49))
    (decide (a7 = 49))
  have B1 := glyph_byte_bits (decide (a8 = 49)) (decide (a9 = 49)) (decide (a10 = 49))
    (decide (a11 = 49)) (decide (a12 = 49)) (decide (a13 = 49)) (decide (a14 = 49)) false
  obtain ⟨c0, c1, c2, c3, c4, c5, c6, c7⟩ := B0
  obtain ⟨d0, d1, d2, d3, d4, d5, d6, -⟩ := B1
  simp only [unpack_rows, unpack_row, font_height, font_width, CHAR_BIT,
    bytes_per_font_character, Group.grid, Nat.reduceAdd, Nat.reduceDiv, Nat.reduceMod,
    Nat.add_zero, h0, h1, Nat.reduceShiftLeft, c0, c1, c2, c3, c4, c5, c6, c7,
    d0, d1, d2, d3, d4, d5, d6,
    pixel_char a0 q0, pixel_char a1 q1, pixel_char a2 q2, pixel_char a3 q3, pixel_char a4 q4,
    pixel_char a5 q5, pixel_char a6 q6, pixel_char a7 q7, pixel_char a8 q8, pixel_char a9 q9,
    pixel_char a10 q10, pixel_char a11 q11, pixel_char a12 q12, pixel_char a13 q13,
    pixel_char a14 q14]
  simp

/-! ## C1, C2: what `pack_font` builds from well-formed groups -/

/-- C1: for a stream of well-formed newline-terminated groups within the group
limit (at most 95 groups, all of which `pack_font` reads), `pack_font` builds a
table, and decoding that table bit by bit as `unpack_font` does at the entry of
a code gives exactly the pixel lines of the last group of the stream that
defines the code. -/
theorem pack_then_unpack_roundtrip (pre post : List Group) (g : Group)
    (hwf : ∀ x ∈ pre ++ g :: post, x.well_formed)
    (hlimit : (pre ++ g :: post).length ≤ group_limit)
    (hlast : ∀ x ∈ post, x.code ≠ g.code) :
    ∃ t, pack_table (stream (pre ++ g :: post)) = .ok t ∧
      unpack_rows t (g.code * bytes_per_font_character) font_height 0 = g.grid := by
  refine ⟨_, pack_table_stream _ hwf, ?_⟩
  rw [List.take_of_length_le hlimit]
  have hg : g.well_formed := hwf g (by simp)
  have h := getD_foldl_apply_group_last pre post g init_encodings init_encodings_length hg hlast
  exact unpack_rows_spec _ g hg h.1 h.2

theorem pack_then_unpack_roundtrip_witness :
    (∀ x ∈ [group_B] ++ group_A :: [group_B], x.well_formed) ∧
    ([group_B] ++ group_A :: [group_B]).length ≤ group_limit ∧
    (∀ x ∈ [group_B], x.code ≠ group_A.code) ∧
    ∃ t, pack_table (stream ([group_B] ++ group_A :: [group_B])) = .ok t ∧
      unpack_rows t (group_A.code * bytes_per_font_character) font_height 0 = group_A.grid :=
  ⟨by decide, by decide, by decide,
    pack_then_unpack_roundtrip [group_B] [group_B] group_A (by decide) (by decide) (by decide)⟩

theorem glyph_byte_testBit (b0 b1 b2 b3 b4 b5 b6 b7 : Bool) :
    (glyph_byte b0 b1 b2 b3 b4 b5 b6 b7).testBit 0 = b0 ∧
    (glyph_byte b0 b1 b2 b3 b4 b5 b6 b7).testBit 1 = b1 ∧
    (glyph_byte b0 b1 b2 b3 b4 b5 b6 b7).testBit 2 = b2 ∧
    (glyph_byte b0 b1 b2 b3 b4 b5 b6 b7).testBit 3 = b3 ∧
    (glyph_byte b0 b1 b2 b3 b4 b5 b6 b7).testBit 4 = b4 ∧
    (glyph_byte b0 b1 b2 b3 b4 b5 b6 b7).testBit 5 = b5 ∧
    (glyph_byte b0 b1 b2 b3 b4 b5 b6 b7).testBit 6 = b6 ∧
    (glyph_byte b0 b1 b2 b3 b4 b5 b6 b7).testBit 7 = b7 := by
  revert b0 b1 b2 b3 b4 b5 b6 b7
  decide

/-- The bits of the reference encoding of a well-formed group: bit
`b = row * 3 + col` (byte `b / 8`, bit `b % 8`) is the pixel at `(row, col)`,
and bit 7 of the second byte is 0. -/
theorem spec_byte_bits (g : Group) (hg : g.well_formed) :
    (∀ row col, row < font_height → col < font_width →
      (g.spec_byte ((row * font_width + col) / CHAR_BIT)).testBit
        ((row * font_width + col) % CHAR_BIT) = decide ((g.rows.getD row []).getD col 0 = 49)) ∧
    (g.spec_byte 1).testBit 7 = false := by
  obtain ⟨a0, a1, a2, a3, a4, a5, a6, a7, a8, a9, a10, a11, a12, a13, a14, hrows,
    q0, q1, q2, q3, q4, q5, q6, q7, q8, q9, q10, q11, q12, q13, q14⟩ := rows_shape g hg
  obtain ⟨text, code, rows⟩ := g
  simp only at hrows
  subst hrows
  have e0 := spec_byte_zero_glyph text code a0 a1 a2 a3 a4 a5 a6 a7 a8 a9 a10 a11 a12 a13 a14
    q0 q1 q2 q3 q4 q5 q6 q7
  have e1 := spec_byte_one_glyph text code a0 a1 a2 a3 a4 a5 a6 a7 a8 a9 a10 a11 a12 a13 a14
    q8 q9 q10 q11 q12 q13 q14
  obtain ⟨c0, c1, c2, c3, c4, c5, c6, c7⟩ := glyph_byte_testBit (decide (a0 = 49))
    (decide (a1 = 49)) (decide (a2 = 49)) (decide (a3 = 49)) (decide (a4 = 49))
    (decide (a5 = 49)) (decide (a6 = 49)) (decide (a7 = 49))
  obtain ⟨d0, d1, d2, d3, d4, d5, d6, d7⟩ := glyph_byte_testBit (decide (a8 = 49))
    (decide (a9 = 49)) (decide (a10 = 49)) (decide (a11 = 49)) (decide (a12 = 49))
    (decide (a13 = 49)) (decide (a14 = 49)) false
  refine ⟨?_, by rw [e1]; exact d7⟩
  intro row col hrow hcol
  simp only [font_height, font_width, CHAR_BIT] at hrow hcol ⊢
  interval_cases row <;> interval_cases col <;>
    simp only [Nat.reduceMul, Nat.reduceAdd, Nat.reduceDiv, Nat.reduceMod, e0, e1,
      List.getD_cons_zero, List.getD_cons_succ, c0, c1, c2, c3, c4, c5, c6, c7,
      d0, d1, d2, d3, d4, d5, d6]

/-- C2, counterexample: the 96 groups of `groups_96` are well formed and
`pack_font` accepts their stream, but the table it builds is not the all-255
table overwritten by every group: the 96th group is not applied. -/
theorem pack_table_reference_counterexample :
    (∀ g ∈ groups_96, g.well_formed) ∧
    ∃ t, pack_table (stream groups_96) = .ok t ∧
      t ≠ groups_96.foldl apply_group init_encodings := by
  have hwf : ∀ g ∈ groups_96, g.well_formed := by decide
  refine ⟨hwf, _, pack_table_stream _ hwf, ?_⟩
  intro h
  have h1 := getD_foldl_apply_group_ne (groups_96.take group_limit) init_encodings 66
    (by decide)
  have h2 := getD_foldl_apply_group_last (List.replicate 95 group_A) [] group_B init_encodings
    init_encodings_length (by decide) (by decide)
  have h3 : (groups_96.foldl apply_group init_encodings).getD (66 * 2) 0 = 255 := by
    rw [← h, h1.1]; decide
  have h4 : (groups_96.foldl apply_group init_encodings).getD (66 * 2) 0 = 0 := by
    rw [show groups_96 = List.replicate 95 group_A ++ group_B :: [] from rfl]
    rw [show (66 : Nat) = group_B.code from rfl, h2.1]
    decide
  omega

/-- C2, amended: for every stream of well-formed newline-terminated groups,
`pack_font` builds the all-255 table overwritten, group by group in input
order, by the first 95 groups, each at its character code with the two
reference bytes: bit `b = row * 3 + col` (byte `b / 8`, bit `b % 8`,
least-significant bit first) is 1 exactly when the pixel at `(row, col)` is
`'1'`, and bit 7 of the second byte is 0.  Hence a code keeps the bytes of the
last of the first 95 groups that defines it, and a code that none of them
defines keeps 255, 255. -/
theorem pack_table_reference (gs : List Group) (hgs : ∀ g ∈ gs, g.well_formed) :
    ∃ t, pack_table (stream gs) = .ok t ∧
      t = (gs.take group_limit).foldl apply_group (List.replicate 512 255) ∧
      (∀ g ∈ gs,
        (∀ row col, row < font_height → col < font_width →
          (g.spec_byte ((row * font_width + col) / CHAR_BIT)).testBit
            ((row * font_width + col) % CHAR_BIT)
              = decide ((g.rows.getD row []).getD col 0 = 49)) ∧
        (g.spec_byte 1).testBit 7 = false) ∧
      (∀ pre g post, gs.take group_limit = pre ++ g :: post → (∀ x ∈ post, x.code ≠ g.code) →
        t.getD (g.code * 2) 0 = g.spec_byte 0 ∧ t.getD (g.code * 2 + 1) 0 = g.spec_byte 1) ∧
      (∀ c, c < 256 → (∀ g ∈ gs.take group_limit, g.code ≠ c) →
        t.getD (c * 2) 0 = 255 ∧ t.getD (c * 2 + 1) 0 = 255) := by
  refine ⟨_, pack_table_stream gs hgs, rfl, fun g hg => spec_byte_bits g (hgs g hg), ?_, ?_⟩
  · intro pre g post hsplit hlast
    have hg : g.well_formed := hgs g (List.mem_of_mem_take (by rw [hsplit]; simp))
    rw [hsplit]
    exact getD_foldl_apply_group_last pre post g init_encodings init_encodings_length hg hlast
  · intro c hc hnone
    have h := getD_foldl_apply_group_ne (gs.take group_limit) init_encodings c hnone
    rw [h.1, h.2]
    simp only [init_encodings, List.getD_eq_getElem?_getD]
    rw [List.getElem?_replicate, List.getElem?_replicate]
    simp only [byte_value_cnt, bytes_per_font_character, byte_all_ones, CHAR_BIT]
    rw [if_pos (by omega), if_pos (by omega)]
    exact ⟨rfl, rfl⟩

theorem pack_table_reference_witness :
    (∀ g ∈ [group_A, group_B, group_A], g.well_formed) ∧
    ∃ t, pack_table (stream [group_A, group_B, group_A]) = .ok t ∧
      t = ([group_A, group_B, group_A].take group_limit).foldl apply_group
        (List.replicate 512 255) ∧
      (∀ g ∈ [group_A, group_B, group_A],
        (∀ row col, row < font_height → col < font_width →
          (g.spec_byte ((row * font_width + col) / CHAR_BIT)).testBit
            ((row * font_width + col) % CHAR_BIT)
              = decide ((g.rows.getD row []).getD col 0 = 49)) ∧
        (g.spec_byte 1).testBit 7 = false) ∧
      (∀ pre g post, [group_A, group_B, group_A].take group_limit = pre ++ g :: post →
        (∀ x ∈ post, x.code ≠ g.code) →
        t.getD (g.code * 2) 0 = g.spec_byte 0 ∧ t.getD (g.code * 2 + 1) 0 = g.spec_byte 1) ∧
      (∀ c, c < 256 → (∀ g ∈ [group_A, group_B, group_A].take group_limit, g.code ≠ c) →
        t.getD (c * 2) 0 = 255 ∧ t.getD (c * 2 + 1) 0 = 255) :=
  ⟨by decide, pack_table_reference [group_A, group_B, group_A] (by decide)⟩

/-! ## C6: the concrete scenario -/

theorem stream_group_A : bytes "A\n111\n101\n101\n101\n111\n" = stream [group_A] := by
  decide

theorem pack_table_single (g : Group) (hg : g.well_formed) :
    pack_table (stream [g]) = .ok (apply_group init_encodings g) := by
  have h := pack_table_stream [g] (by simpa using hg)
  simpa using h

theorem pack_table_single_entry (g : Group) (hg : g.well_formed) :
    ∃ t, pack_table (stream [g]) = .ok t ∧
      t.getD (g.code * 2) 0 = g.spec_byte 0 ∧ t.getD (g.code * 2 + 1) 0 = g.spec_byte 1 := by
  have hc := (isprint_iff g.code).1 hg.2.2.1
  exact ⟨_, pack_table_single g hg,
    getD_apply_group_eq init_encodings g (by rw [init_encodings_length]; omega)⟩

/-- C6, counterexample: `pack_font` accepts the single-group stream `A`, `111`,
`101`, `101`, `101`, `111`, but the two bytes it stores for code 65 are not the
two bytes `default_font[130]`, `default_font[131]`. -/
theorem pack_A_scenario_counterexample :
    ∃ t, pack_table (bytes "A\n111\n101\n101\n101\n111\n") = .ok t ∧
      ¬ (t.getD 130 0 = default_font.getD 130 0 ∧ t.getD 131 0 = default_font.getD 131 0) := by
  obtain ⟨t, ht, h0, -⟩ := pack_table_single_entry group_A (by decide)
  refine ⟨t, by rw [stream_group_A]; exact ht, ?_⟩
  intro h
  have e : t.getD 130 0 = 111 := by rw [show (130 : Nat) = group_A.code * 2 from rfl, h0]; decide
  have d : default_font.getD 130 0 = 234 := by decide
  omega

/-- C6, amended: packing the single-group stream `A`, `111`, `101`, `101`,
`101`, `111` stores the bytes 111, 123 for code 65; these are the bytes that
`default_font` holds for code 79 (`O`), while `default_font` holds 234, 91 for
code 65, which is what the grid `010`, `101`, `111`, `101`, `101` packs to. -/
theorem pack_A_scenario :
    (∃ t, pack_table (bytes "A\n111\n101\n101\n101\n111\n") = .ok t ∧
      t.getD 130 0 = 111 ∧ t.getD 131 0 = 123 ∧
      t.getD 130 0 = default_font.getD 158 0 ∧ t.getD 131 0 = default_font.getD 159 0) ∧
    default_font.getD 130 0 = 234 ∧ default_font.getD 131 0 = 91 ∧
    (∃ t, pack_table (bytes "A\n010\n101\n111\n101\n101\n") = .ok t ∧
      t.getD 130 0 = default_font.getD 130 0 ∧ t.getD 131 0 = default_font.getD 131 0) := by
  refine ⟨?_, by decide, by decide, ?_⟩
  · obtain ⟨t, ht, h0, h1⟩ := pack_table_single_entry group_A (by decide)
    have e0 : t.getD 130 0 = 111 := by
      rw [show (130 : Nat) = group_A.code * 2 from rfl, h0]; decide
    have e1 : t.getD 131 0 = 123 := by
      rw [show (131 : Nat) = group_A.code * 2 + 1 from rfl, h1]; decide
    refine ⟨t, by rw [stream_group_A]; exact ht, e0, e1, ?_, ?_⟩
    · rw [e0]; decide
    · rw [e1]; decide
  · obtain ⟨t, ht, h0, h1⟩ := pack_table_single_entry group_A_font (by decide)
    refine ⟨t, ?_, ?_, ?_⟩
    · rw [show bytes "A\n010\n101\n111\n101\n101\n" = stream [group_A_font] by decide]
      exact ht
    · rw [show (130 : Nat) = group_A_font.code * 2 from rfl, h0]; decide
    · rw [show (131 : Nat) = group_A_font.code * 2 + 1 from rfl, h1]; decide

/-! ## C9: end of input at the final pixel -/

/-- C9, the defect: when the fifth pixel line of the only group ends at end of
input without a newline, the loop over `pixel_line` is left by `break` before
`pixel_line` is incremented, and `pack_font` exits with "Expected 0 more lines
of pixels after line 6"; with the newline present the stream is accepted. -/
theorem pack_eof_at_final_pixel :
    pack_font (bytes "A\n111\n101\n101\n101\n111") = .fatal (.expected_more_lines 0 6) ∧
    pack_font (bytes "A\n111\n101\n101\n101\n111\n")
      = .ok (pack_output (apply_group init_encodings group_A)) := by
  constructor
  · decide
  · rw [stream_group_A, pack_font, pack_table_single group_A (by decide)]

/-! ## The end of the input inside a group -/

/-- The header part of one iteration of the loop over `line`. -/
theorem pack_lines_header (text : List Nat) (code : Nat) (rest : List Nat) (fuel line : Nat)
    (t : List Nat) (hlen : text.length + 2 ≤ max_font_file_line_len)
    (htext : ∀ b ∈ text, b ≠ 10 ∧ b ≠ 0) (hcode : isprint code = true)
    (hline : line < max_font_file_lines) :
    pack_lines (fuel + 1) line ⟨text ++ [code, 10] ++ rest, false⟩ t
      = match pack_pixel_lines code font_height 0 line 0 ⟨rest, false⟩
            ((t.set (code * 2) 0).set (code * 2 + 1) 0) with
        | .fatal e => .fatal e
        | .ok r =>
          if r.pixel_line < font_height then
            .fatal (.expected_more_lines ((font_height - 1 : Int) - r.pixel_line) r.line)
          else if feof r.file then .ok (r.table, r.file)
          else pack_lines fuel (r.line + 1) r.file r.table := by
  have hc := (isprint_iff code).1 hcode
  have hno : ∀ b ∈ text ++ [code], b ≠ 10 ∧ b ≠ 0 := by
    intro b hb
    rcases List.mem_append.1 hb with hb | hb
    · exact htext b hb
    · simp only [List.mem_singleton] at hb
      subst hb
      omega
  have henc : text ++ [code, 10] ++ rest = (text ++ [code]) ++ 10 :: rest := by simp
  have hf := fgets_line (text ++ [code]) rest false
    (fun b hb => (hno b hb).1) (by simp only [max_font_file_line_len] at hlen ⊢; simp; omega)
  have hs := strchr_line (text ++ [code]) hno
  have hget : (text ++ [code] ++ [10]).getD text.length 0 = code := by
    rw [List.append_assoc]
    exact getD_append_length text code [10]
  rw [henc, pack_lines, if_pos hline, hf]
  simp only [hs, List.length_append, List.length_singleton, hget, hcode, Bool.not_true,
    Bool.false_eq_true, if_false, bytes_per_font_character, byte_all_zeroes]

/-- The loop over `pixel_line` reads valid newline-terminated pixel lines one
by one. -/
theorem pack_pixel_lines_rows (rows : List (List Nat))
    (hrows : ∀ r ∈ rows, r.length = font_width ∧ ∀ b ∈ r, b = 48 ∨ b = 49)
    (rest : List Nat) (ch n pl line bp : Nat) (t : List Nat) (hn : rows.length ≤ n) :
    ∃ t1, pack_pixel_lines ch n pl line bp ⟨rows.flatMap (· ++ [10]) ++ rest, false⟩ t
      = pack_pixel_lines ch (n - rows.length) (pl + rows.length) (line + rows.length)
          (bp + 3 * rows.length) ⟨rest, false⟩ t1 := by
  induction rows generalizing n pl line bp t with
  | nil => exact ⟨t, by simp⟩
  | cons r rows ih =>
    obtain ⟨a, b, c, rfl⟩ := list_length_three (hrows r (List.mem_cons_self _ _)).1
    have hr := (hrows [a, b, c] (List.mem_cons_self _ _)).2
    have ha := hr a (by simp)
    have hb := hr b (by simp)
    have hc := hr c (by simp)
    simp only [List.length_cons] at hn
    obtain ⟨n, rfl⟩ : ∃ k, n = k + 1 := ⟨n - 1, by omega⟩
    obtain ⟨t1, h1⟩ := ih (fun x hx => hrows x (List.mem_cons_of_mem _ hx)) n (pl + 1)
      (line + 1) (bp + 3)
      (or_pixel (or_pixel (or_pixel t ch bp a) ch (bp + 1) b) ch (bp + 2) c) (by omega)
    refine ⟨t1, ?_⟩
    have e : ([a, b, c] :: rows).flatMap (· ++ [10]) ++ rest
        = a :: b :: c :: 10 :: (rows.flatMap (· ++ [10]) ++ rest) := by
      simp
    rw [e, pack_pixel_lines_row a b c _ ch n pl line bp t ha hb hc, h1]
    simp only [List.length_cons]
    congr 1 <;> omega

/-- A valid header followed by fewer than 5 newline-terminated pixel lines and
the end of the input: `pack_font` exits with "Expected line of pixels". -/
theorem pack_lines_incomplete (g : Group) (hg : g.incomplete) (fuel line : Nat) (t : List Nat)
    (hline : line < max_font_file_lines) :
    pack_lines (fuel + 1) line ⟨g.encode, false⟩ t
      = .fatal (.expected_pixel_line (line + g.rows.length + 1)) := by
  obtain ⟨hlen, htext, hcode, hlt, hrows⟩ := hg
  have h := pack_lines_header g.text g.code g.grid fuel line t hlen htext hcode hline
  obtain ⟨t1, h1⟩ := pack_pixel_lines_rows g.rows hrows [] g.code font_height 0 line 0
    ((t.set (g.code * 2) 0).set (g.code * 2 + 1) 0) (Nat.le_of_lt hlt)
  rw [List.append_nil] at h1
  obtain ⟨k, hk⟩ : ∃ k, font_height - g.rows.length = k + 1 :=
    ⟨font_height - g.rows.length - 1, by omega⟩
  rw [Group.encode, h, Group.grid, h1, hk, pack_pixel_lines, fgets_nil]

/-- A valid header followed by at most 5 pixel lines of which the last ends at
the end of the input without a newline: `pack_font` exits with "Expected %d
more lines of pixels", also when all 5 lines are there. -/
theorem pack_lines_unterminated (text : List Nat) (code : Nat) (rows : List (List Nat))
    (a b c : Nat) (hlen : text.length + 2 ≤ max_font_file_line_len)
    (htext : ∀ x ∈ text, x ≠ 10 ∧ x ≠ 0) (hcode : isprint code = true)
    (hlt : rows.length < font_height)
    (hrows : ∀ r ∈ rows, r.length = font_width ∧ ∀ x ∈ r, x = 48 ∨ x = 49)
    (ha : a = 48 ∨ a = 49) (hb : b = 48 ∨ b = 49) (hc : c = 48 ∨ c = 49)
    (fuel line : Nat) (t : List Nat) (hline : line < max_font_file_lines) :
    pack_lines (fuel + 1) line
        ⟨text ++ [code, 10] ++ (rows.flatMap (· ++ [10]) ++ [a, b, c]), false⟩ t
      = .fatal (.expected_more_lines ((font_height - 1 : Int) - rows.length)
          (line + rows.length + 1)) := by
  have h := pack_lines_header text code (rows.flatMap (· ++ [10]) ++ [a, b, c]) fuel line t
    hlen htext hcode hline
  obtain ⟨t1, h1⟩ := pack_pixel_lines_rows rows hrows [a, b, c] code font_height 0 line 0
    ((t.set (code * 2) 0).set (code * 2 + 1) 0) (Nat.le_of_lt hlt)
  obtain ⟨k, hk⟩ : ∃ k, font_height - rows.length = k + 1 :=
    ⟨font_height - rows.length - 1, by omega⟩
  have ha0 : a ≠ 0 ∧ a ≠ 10 := by omega
  have hb0 : b ≠ 0 ∧ b ≠ 10 := by omega
  have hc0 : c ≠ 0 ∧ c ≠ 10 := by omega
  have hf : fgets (max_font_file_line_len + 1) ⟨[a, b, c], false⟩
      = (some [a, b, c], ⟨[], true⟩) := by
    simp [fgets, fgets_read, ha0.2, hb0.2, hc0.2]
  have hs : strlen [a, b, c] = 3 := by simp [strlen, ha0.1, hb0.1, hc0.1]
  rw [h, h1, hk, pack_pixel_lines, hf]
  simp only [hs, pack_pixels_row a b c [] _ code _ t1 ha hb hc, feof, font_width,
    Nat.lt_irrefl, false_and, or_self, if_false, if_true, Nat.zero_add, hlt]

/-- The state of the loop over `line` after fewer than 95 well-formed groups. -/
theorem pack_table_after_groups (gs : List Group) (hgs : ∀ g ∈ gs, g.well_formed)
    (hlen : gs.length < group_limit) (rest : List Nat) :
    ∃ fuel, pack_table (stream gs ++ rest)
      = match pack_lines (fuel + 1) (1 + 6 * gs.length) ⟨rest, false⟩
            (gs.foldl apply_group init_encodings) with
        | .fatal e => .fatal e
        | .ok r => .ok r.1 := by
  have h := pack_lines_groups gs hgs rest max_font_file_lines 1 init_encodings
    init_encodings_length (by simp only [max_font_file_lines, group_limit] at *; omega)
    (by simp only [max_font_file_lines, group_limit] at *; omega)
  simp only [group_limit, max_font_file_lines] at hlen h
  refine ⟨571 - gs.length - 1, ?_⟩
  rw [pack_table, max_font_file_lines, h, show 571 - gs.length - 1 + 1 = 571 - gs.length by omega]

/-- Whenever the last pixel line of a stream of at most 95 well-formed groups
lacks its newline, `pack_font` exits with "Expected 0 more lines of pixels". -/
theorem pack_table_unterminated (gs : List Group) (g : Group)
    (hgs : ∀ x ∈ gs, x.well_formed) (hg : g.well_formed) (hlen : gs.length < group_limit) :
    pack_table (stream gs ++ g.encode.dropLast)
      = .fatal (.expected_more_lines 0 (6 * gs.length + 6)) := by
  obtain ⟨a0, a1, a2, a3, a4, a5, a6, a7, a8, a9, a10, a11, a12, a13, a14, hrows,
    h0, h1, h2, h3, h4, h5, h6, h7, h8, h9, h10, h11, h12, h13, h14⟩ := rows_shape g hg
  obtain ⟨text, code, rows⟩ := g
  simp only at hrows
  subst hrows
  unfold Group.well_formed at hg
  obtain ⟨hl, htext, hcode, -, -⟩ := hg
  simp only at hl htext hcode
  obtain ⟨fuel, hf⟩ := pack_table_after_groups gs hgs hlen
    (Group.encode ⟨text, code, [[a0, a1, a2], [a3, a4, a5], [a6, a7, a8], [a9, a10, a11],
      [a12, a13, a14]]⟩).dropLast
  have e : (Group.encode ⟨text, code, [[a0, a1, a2], [a3, a4, a5], [a6, a7, a8],
      [a9, a10, a11], [a12, a13, a14]]⟩).dropLast
      = text ++ [code, 10] ++ (([[a0, a1, a2], [a3, a4, a5], [a6, a7, a8],
          [a9, a10, a11]] : List (List Nat)).flatMap (· ++ [10]) ++ [a12, a13, a14]) := by
    have : Group.encode ⟨text, code, [[a0, a1, a2], [a3, a4, a5], [a6, a7, a8],
        [a9, a10, a11], [a12, a13, a14]]⟩
        = (text ++ [code, 10] ++ (([[a0, a1, a2], [a3, a4, a5], [a6, a7, a8],
          [a9, a10, a11]] : List (List Nat)).flatMap (· ++ [10]) ++ [a12, a13, a14])) ++ [10] := by
      simp [Group.encode, Group.grid]
    rw [this, List.dropLast_concat]
  have hu := pack_lines_unterminated text code
    [[a0, a1, a2], [a3, a4, a5], [a6, a7, a8], [a9, a10, a11]] a12 a13 a14 hl htext hcode
    (by simp [font_height])
    (by
      intro r hr
      simp only [List.mem_cons, List.mem_singleton, List.not_mem_nil, or_false] at hr
      rcases hr with rfl | rfl | rfl | rfl <;>
        exact ⟨rfl, by
          intro x hx
          simp only [List.mem_cons, List.mem_singleton, List.not_mem_nil, or_false] at hx
          rcases hx with rfl | rfl | rfl <;> assumption⟩)
    h12 h13 h14 fuel (1 + 6 * gs.length) (gs.foldl apply_group init_encodings)
    (by simp only [max_font_file_lines, group_limit] at *; omega)
  rw [hf, e, hu]
  simp only [font_height, List.length_cons, List.length_nil]
  norm_num
  omega

/-! ## C8: the limit on the number of groups -/

/-- C8, counterexample: `groups_96` holds 96 well-formed groups, fewer than
570, but `pack_font` does not apply its first `min 96 570` groups: the entry of
`B`, which the 96th group defines as 0, 0, is still 255, 255. -/
theorem pack_group_limit_counterexample :
    (∀ g ∈ groups_96, g.well_formed) ∧ groups_96.length = 96 ∧
    ∃ t, pack_table (stream groups_96) = .ok t ∧
      t ≠ (groups_96.take (min groups_96.length 570)).foldl apply_group init_encodings ∧
      t.getD (group_B.code * 2) 0 = 255 ∧ group_B.spec_byte 0 = 0 := by
  have hwf : ∀ g ∈ groups_96, g.well_formed := by decide
  have h1 := getD_foldl_apply_group_ne (groups_96.take group_limit) init_encodings 66
    (by decide)
  have h2 := getD_foldl_apply_group_last (List.replicate 95 group_A) [] group_B init_encodings
    init_encodings_length (by decide) (by decide)
  have h3 : ((groups_96.take group_limit).foldl apply_group init_encodings).getD (66 * 2) 0
      = 255 := by
    rw [h1.1]; decide
  refine ⟨hwf, by decide, _, pack_table_stream _ hwf, ?_, h3, by decide⟩
  intro h
  have h4 : ((groups_96.take (min groups_96.length 570)).foldl apply_group
      init_encodings).getD (66 * 2) 0 = 0 := by
    rw [show groups_96.take (min groups_96.length 570)
        = List.replicate 95 group_A ++ group_B :: [] by decide]
    rw [show (66 : Nat) = group_B.code from rfl, h2.1]
    decide
  rw [← h] at h4
  omega

/-- C8, amended: the stream is bounded by 95 header+glyph groups (570 lines).
For every well-formed stream of `n` newline-terminated groups `pack_font`
applies exactly the first `min n 95` groups to the table, and after the 95th
group the loop ends without reading the bytes that follow, whatever they are. -/
theorem pack_group_limit (gs : List Group) (hgs : ∀ g ∈ gs, g.well_formed) :
    pack_table (stream gs)
      = .ok ((gs.take (min gs.length 95)).foldl apply_group init_encodings) ∧
    (95 ≤ gs.length → ∀ rest : List Nat,
      pack_lines max_font_file_lines 1 ⟨stream (gs.take 95) ++ rest, false⟩ init_encodings
        = .ok ((gs.take 95).foldl apply_group init_encodings, ⟨rest, false⟩)) := by
  constructor
  · rw [pack_table_stream gs hgs]
    by_cases h : gs.length ≤ 95
    · rw [Nat.min_eq_left h, List.take_length, List.take_of_length_le h]
    · rw [Nat.min_eq_right (by omega)]
  · intro h95 rest
    have hl : (gs.take 95).length = 95 := by rw [List.length_take]; omega
    have h := pack_lines_groups (gs.take 95) (fun g hg => hgs g (List.mem_of_mem_take hg)) rest
      max_font_file_lines 1 init_encodings init_encodings_length
      (by rw [hl]; decide) (by rw [hl]; simp only [max_font_file_lines]; omega)
    simp only [max_font_file_lines] at h ⊢
    rw [h, hl]
    simp [pack_lines]

theorem pack_group_limit_witness :
    (∀ g ∈ groups_96, g.well_formed) ∧
    pack_table (stream groups_96)
      = .ok ((groups_96.take (min groups_96.length 95)).foldl apply_group init_encodings) ∧
    (95 ≤ groups_96.length → ∀ rest : List Nat,
      pack_lines max_font_file_lines 1 ⟨stream (groups_96.take 95) ++ rest, false⟩
          init_encodings
        = .ok ((groups_96.take 95).foldl apply_group init_encodings, ⟨rest, false⟩)) :=
  ⟨by decide, pack_group_limit groups_96 (by decide)⟩

/-! ## C10: clean and mid-group end of input -/

/-- C10, counterexample: after 95 complete well-formed groups (a number of
groups within the limit) a valid header line followed by no pixel line and the
end of input does not make `pack_font` fail: the encoding is emitted. -/
theorem pack_end_of_input_counterexample :
    (∀ g ∈ List.replicate 95 group_A, g.well_formed) ∧
    (List.replicate 95 group_A).length ≤ group_limit ∧
    (⟨[], 66, []⟩ : Group).incomplete ∧
    ∃ t, pack_font (stream (List.replicate 95 group_A) ++ Group.encode ⟨[], 66, []⟩)
      = .ok (pack_output t) := by
  have hwf : ∀ g ∈ List.replicate 95 group_A, g.well_formed := by decide
  refine ⟨hwf, by decide, by decide,
    (List.replicate 95 group_A).foldl apply_group init_encodings, ?_⟩
  rw [pack_font, pack_table_limit _ hwf (by decide)]

/-- C10, amended: a stream of any number of complete well-formed
newline-terminated groups followed by end of input (the empty stream included)
is accepted and its encoding is emitted; a stream of fewer than 95 complete
groups followed by a valid header line and fewer than 5 pixel lines before end
of input, the last of them with or without its newline, makes `pack_font`
exit with a diagnostic, nothing being written to the standard output. -/
theorem pack_end_of_input :
    (∀ gs : List Group, (∀ g ∈ gs, g.well_formed) →
      ∃ t, pack_font (stream gs) = .ok (pack_output t)) ∧
    (∀ (gs : List Group) (g : Group), (∀ x ∈ gs, x.well_formed) → gs.length < group_limit →
      g.incomplete →
      pack_font (stream gs ++ g.encode)
        = .fatal (.expected_pixel_line (6 * gs.length + g.rows.length + 2)) ∧
      (g.rows ≠ [] → pack_font (stream gs ++ g.encode.dropLast)
        = .fatal (.expected_more_lines ((5 : Int) - g.rows.length)
            (6 * gs.length + g.rows.length + 1)))) := by
  constructor
  · intro gs hgs
    exact ⟨_, by rw [pack_font, pack_table_stream gs hgs]⟩
  · intro gs g hgs hlen hg
    have hline : 1 + 6 * gs.length < max_font_file_lines := by
      simp only [max_font_file_lines, group_limit] at *; omega
    constructor
    · obtain ⟨fuel, hf⟩ := pack_table_after_groups gs hgs hlen g.encode
      rw [pack_font, hf, pack_lines_incomplete g hg fuel _ _ hline]
      simp only
      congr 2
      omega
    · intro hne
      obtain ⟨hl, htext, hcode, hlt, hrows⟩ := hg
      obtain ⟨rows, r, hr⟩ : ∃ rows r, g.rows = rows ++ [r] := by
        rcases List.eq_nil_or_concat g.rows with h | ⟨L, b, h⟩
        · exact absurd h hne
        · exact ⟨L, b, by simpa using h⟩
      have hr3 := hrows r (by rw [hr]; simp)
      obtain ⟨a, b, c, rfl⟩ := list_length_three hr3.1
      have e : g.encode.dropLast
          = g.text ++ [g.code, 10] ++ (rows.flatMap (· ++ [10]) ++ [a, b, c]) := by
        have : g.encode
            = (g.text ++ [g.code, 10] ++ (rows.flatMap (· ++ [10]) ++ [a, b, c])) ++ [10] := by
          simp [Group.encode, Group.grid, hr]
        rw [this, List.dropLast_concat]
      have hlen2 : g.rows.length = rows.length + 1 := by rw [hr]; simp
      obtain ⟨fuel, hf⟩ := pack_table_after_groups gs hgs hlen g.encode.dropLast
      have hu := pack_lines_unterminated g.text g.code rows a b c hl htext hcode
        (by omega) (fun x hx => hrows x (by rw [hr]; simp [hx]))
        (hr3.2 a (by simp)) (hr3.2 b (by simp)) (hr3.2 c (by simp)) fuel
        (1 + 6 * gs.length) (gs.foldl apply_group init_encodings) hline
      rw [pack_font, hf, e, hu]
      simp only [font_height, hlen2]
      congr 2
      · push_cast; omega
      · omega

theorem pack_end_of_input_witness :
    ((∀ g ∈ [group_A], g.well_formed) ∧ ∃ t, pack_font (stream [group_A]) = .ok (pack_output t)) ∧
    ((∀ x ∈ [group_A], x.well_formed) ∧ [group_A].length < group_limit ∧
      (⟨[], 66, [[49, 48, 49]]⟩ : Group).incomplete ∧
      pack_font (stream [group_A] ++ Group.encode ⟨[], 66, [[49, 48, 49]]⟩)
        = .fatal (.expected_pixel_line
            (6 * [group_A].length + (⟨[], 66, [[49, 48, 49]]⟩ : Group).rows.length + 2)) ∧
      ((⟨[], 66, [[49, 48, 49]]⟩ : Group).rows ≠ [] →
        pack_font (stream [group_A] ++ (Group.encode ⟨[], 66, [[49, 48, 49]]⟩).dropLast)
          = .fatal (.expected_more_lines
              ((5 : Int) - (⟨[], 66, [[49, 48, 49]]⟩ : Group).rows.length)
              (6 * [group_A].length + (⟨[], 66, [[49, 48, 49]]⟩ : Group).rows.length + 1)))) :=
  ⟨⟨by decide, pack_end_of_input.1 [group_A] (by decide)⟩,
    by decide, by decide, by decide,
    pack_end_of_input.2 [group_A] ⟨[], 66, [[49, 48, 49]]⟩ (by decide) (by decide) (by decide)⟩

/-! ## C7: entries of unprintable codes -/

theorem pack_pixels_other (buf : List Nat) (line ch : Nat) (n pixel bp : Nat) (t t1 : List Nat)
    (bp1 : Nat) (h : pack_pixels buf line ch n pixel bp t = .ok (t1, bp1)) (hbp : bp + n ≤ 16)
    (i : Nat) (h0 : i ≠ ch * 2) (h1 : i ≠ ch * 2 + 1) :
    bp1 = bp + n ∧ t1.getD i 0 = t.getD i 0 := by
  induction n generalizing pixel bp t with
  | zero =>
    simp only [pack_pixels, Outcome.ok.injEq, Prod.mk.injEq] at h
    obtain ⟨rfl, rfl⟩ := h
    exact ⟨rfl, rfl⟩
  | succ n ih =>
    rw [pack_pixels] at h
    split at h
    · cases h
    · have := ih _ _ _ h (by omega)
      refine ⟨by omega, ?_⟩
      rw [this.2]
      simp only [bytes_per_font_character, CHAR_BIT]
      exact getD_set_ne _ _ _ _ (by omega)

theorem pack_pixel_lines_other (ch : Nat) (n pl line bp : Nat) (f : FILE) (t : List Nat)
    (r : PixelLines) (h : pack_pixel_lines ch n pl line bp f t = .ok r) (hbp : bp + 3 * n ≤ 15)
    (i : Nat) (h0 : i ≠ ch * 2) (h1 : i ≠ ch * 2 + 1) :
    r.table.getD i 0 = t.getD i 0 := by
  induction n generalizing pl line bp f t with
  | zero =>
    simp only [pack_pixel_lines, Outcome.ok.injEq] at h
    subst h
    rfl
  | succ n ih =>
    rw [pack_pixel_lines] at h
    generalize fgets (max_font_file_line_len + 1) f = fr at h
    obtain ⟨_ | buf, f1⟩ := fr
    · cases h
    · simp only at h
      by_cases hcond : strlen buf < font_width ∨
          (strlen buf > font_width ∧ buf.getD font_width 0 ≠ 10)
      · rw [if_pos hcond] at h
        cases h
      · rw [if_neg hcond] at h
        generalize hp : pack_pixels buf (line + 1) ch font_width 0 bp t = pr at h
        obtain ⟨t1, bp1⟩ | e := pr
        · have hpp := pack_pixels_other _ _ _ _ _ _ _ _ _ hp
            (by simp only [font_width]; omega) i h0 h1
          simp only at h
          by_cases hfe : feof f1 = true
          · rw [if_pos hfe] at h
            simp only [Outcome.ok.injEq] at h
            subst h
            exact hpp.2
          · rw [if_neg hfe] at h
            have := ih _ _ _ _ _ h (by simp only [font_width] at hpp; omega)
            rw [this, hpp.2]
        · cases h

/-- The loop over `line` never changes the entry of an unprintable code. -/
theorem pack_lines_other (fuel line : Nat) (f : FILE) (t : List Nat) (r : List Nat × FILE)
    (h : pack_lines fuel line f t = .ok r) (c : Nat) (hc : isprint c = false) :
    r.1.getD (c * 2) 0 = t.getD (c * 2) 0 ∧ r.1.getD (c * 2 + 1) 0 = t.getD (c * 2 + 1) 0 := by
  induction fuel generalizing line f t with
  | zero => simp [pack_lines] at h
  | succ fuel ih =>
    rw [pack_lines] at h
    by_cases hline : line < max_font_file_lines
    · rw [if_pos hline] at h
      generalize fgets (max_font_file_line_len + 1) f = fr at h
      obtain ⟨_ | buf, f1⟩ := fr
      · simp only [Outcome.ok.injEq] at h
        subst h
        exact ⟨rfl, rfl⟩
      · simp only at h
        generalize strchr buf 10 = sr at h
        obtain _ | _ | search := sr
        · cases h
        · cases h
        · simp only at h
          by_cases hp : isprint (buf.getD search 0) = true
          · have hne : c ≠ buf.getD search 0 := by
              intro e
              rw [e, hp] at hc
              cases hc
            simp only [hp, Bool.not_true, Bool.false_eq_true, if_false] at h
            generalize hr1 : pack_pixel_lines (buf.getD search 0) font_height 0 line 0 f1
              ((t.set (buf.getD search 0 * bytes_per_font_character) byte_all_zeroes).set
                (buf.getD search 0 * bytes_per_font_character + 1) byte_all_zeroes) = pr at h
            obtain r1 | e := pr
            · have k0 := pack_pixel_lines_other _ _ _ _ _ _ _ _ hr1 (by decide) (c * 2)
                (by omega) (by omega)
              have k1 := pack_pixel_lines_other _ _ _ _ _ _ _ _ hr1 (by decide) (c * 2 + 1)
                (by omega) (by omega)
              simp only [bytes_per_font_character, byte_all_zeroes] at k0 k1
              rw [getD_set_ne _ _ _ _ (by omega), getD_set_ne _ _ _ _ (by omega)] at k0 k1
              simp only at h
              by_cases hpl : r1.pixel_line < font_height
              · rw [if_pos hpl] at h
                cases h
              · rw [if_neg hpl] at h
                by_cases hfe : feof r1.file = true
                · rw [if_pos hfe] at h
                  simp only [Outcome.ok.injEq] at h
                  subst h
                  exact ⟨k0, k1⟩
                · rw [if_neg hfe] at h
                  have := ih _ _ _ h
                  rw [this.1, this.2]
                  exact ⟨k0, k1⟩
            · cases h
          · simp only [hp, Bool.not_false, if_true] at h
            cases h
    · rw [if_neg hline] at h
      simp only [Outcome.ok.injEq] at h
      subst h
      exact ⟨rfl, rfl⟩

theorem init_encodings_getD (i : Nat) (h : i < 512) : init_encodings.getD i 0 = 255 := by
  simp only [init_encodings, List.getD_eq_getElem?_getD]
  rw [List.getElem?_replicate]
  simp only [byte_value_cnt, bytes_per_font_character, byte_all_ones, CHAR_BIT]
  rw [if_pos (by omega)]
  rfl

set_option maxRecDepth 20000 in
theorem default_font_unprintable :
    ∀ c, c < 256 → isprint c = false →
      default_font.getD (c * 2) 0 = 255 ∧ default_font.getD (c * 2 + 1) 0 = 255 := by
  decide

/-- C7: for every code that is not printable (0..31 and 127..255) both bytes
of its entry are 255 in `default_font`, and also in the table that `pack_font`
has built, for every input stream on which `pack_font` succeeds. -/
theorem unprintable_entries_all_ones :
    (∀ c, c < 256 → isprint c = false →
      default_font.getD (c * 2) 0 = 255 ∧ default_font.getD (c * 2 + 1) 0 = 255) ∧
    (∀ (input t : List Nat), pack_table input = .ok t →
      ∀ c, c < 256 → isprint c = false →
        t.getD (c * 2) 0 = 255 ∧ t.getD (c * 2 + 1) 0 = 255) := by
  constructor
  · exact default_font_unprintable
  · intro input t h c hc hp
    rw [pack_table] at h
    generalize hr : pack_lines max_font_file_lines 1 ⟨input, false⟩ init_encodings = pr at h
    obtain r | e := pr
    · simp only [Outcome.ok.injEq] at h
      subst h
      have := pack_lines_other _ _ _ _ _ hr c hp
      rw [this.1, this.2, init_encodings_getD _ (by omega), init_encodings_getD _ (by omega)]
      exact ⟨rfl, rfl⟩
    · cases h

theorem unprintable_entries_all_ones_witness :
    pack_table (stream [group_A]) = .ok (apply_group init_encodings group_A) ∧
    (127 : Nat) < 256 ∧ isprint 127 = false ∧
    (apply_group init_encodings group_A).getD (127 * 2) 0 = 255 ∧
    (apply_group init_encodings group_A).getD (127 * 2 + 1) 0 = 255 :=
  ⟨pack_table_single group_A (by decide), by decide, by decide,
    unprintable_entries_all_ones.2 (stream [group_A]) _
      (pack_table_single group_A (by decide)) 127 (by decide) (by decide)⟩

/-! ## The output of `unpack_font` as a stream of groups -/

theorem unpack_rows_eq_grid (font : List Nat) (i n bp : Nat) :
    unpack_rows font i n bp = (unpack_grid font i n bp).flatMap (· ++ [10]) := by
  induction n generalizing bp with
  | zero => rfl
  | succ n ih => simp [unpack_rows, unpack_grid, ih]

/-- What one iteration of the loop over `i` prints for the code `c`. -/
theorem unpack_entries_range (font : List Nat) (hlen : font.length = 512) (m k n : Nat)
    (hk : k + m = 256) (hn : m < n) :
    unpack_entries font n (2 * k)
      = (List.range' k m).flatMap fun c =>
          if isprint c = true then (unpack_group font c).encode else [] := by
  induction m generalizing k n with
  | zero =>
    obtain ⟨n, rfl⟩ : ∃ j, n = j + 1 := ⟨n - 1, by omega⟩
    rw [unpack_entries, if_neg (by omega)]
    rfl
  | succ m ih =>
    obtain ⟨n, rfl⟩ : ∃ j, n = j + 1 := ⟨n - 1, by omega⟩
    have h1 : 2 * k / bytes_per_font_character % byte_value_cnt = k := by
      show 2 * k / 2 % 256 = k
      omega
    have h2 : 2 * k + bytes_per_font_character = 2 * (k + 1) := by
      simp only [bytes_per_font_character]; omega
    rw [unpack_entries, if_pos (by omega), List.range'_succ, List.flatMap_cons]
    simp only [h1, h2]
    rw [ih (k + 1) n (by omega) (by omega)]
    congr 1
    by_cases hp : isprint k = true
    · simp only [hp, Bool.not_true, Bool.false_eq_true, if_false, if_true, Group.encode,
        unpack_group, Group.grid, unpack_rows_eq_grid, bytes_per_font_character]
      simp [Nat.mul_comm]
    · simp only [hp, Bool.not_eq_true] at *
      simp [hp]

theorem unpack_font_of_eq_stream (font : List Nat) (hlen : font.length = 512) :
    unpack_font_of font = stream (unpack_groups font) := by
  have h := unpack_entries_range font hlen 256 0 512 (by omega) (by omega)
  rw [unpack_font_of, hlen, h]
  have hsplit : List.range' 0 256
      = List.range' 0 32 ++ (List.range' 32 95 ++ List.range' 127 129) := by
    rw [show (127 : Nat) = 32 + 1 * 95 from rfl, List.range'_append,
      show (32 : Nat) = 0 + 1 * 32 from rfl, List.range'_append]
  rw [hsplit, List.flatMap_append, List.flatMap_append]
  have e1 : ((List.range' 0 32).flatMap fun c =>
      if isprint c = true then (unpack_group font c).encode else []) = [] := by
    rw [List.flatMap_eq_nil_iff]
    intro c hc
    have : isprint c = false := by
      simp only [List.mem_range'_1] at hc
      simp [isprint]; omega
    simp [this]
  have e2 : ((List.range' 127 129).flatMap fun c =>
      if isprint c = true then (unpack_group font c).encode else []) = [] := by
    rw [List.flatMap_eq_nil_iff]
    intro c hc
    have : isprint c = false := by
      simp only [List.mem_range'_1] at hc
      simp [isprint]; omega
    simp [this]
  rw [e1, e2, List.nil_append, List.append_nil, stream, unpack_groups, List.range'_eq_map_range,
    List.flatMap_map, List.flatMap_map]
  apply List.flatMap_congr
  intro k hk
  have : isprint (32 + k) = true := by
    simp only [List.mem_range] at hk
    simp [isprint]; omega
  simp [this]

/-! ## C4, C5: packing the output of `unpack_font` -/

/-- The header lines that `unpack_font` prints for the codes 32..126 are valid
header lines of `pack_font`. -/
theorem unpack_header_valid :
    ∀ k, k < 95 →
      (printf_d (32 + k) ++ bytes " 0x" ++ printf_02X (32 + k) ++ [32]).length + 2
        ≤ max_font_file_line_len ∧
      ∀ b ∈ printf_d (32 + k) ++ bytes " 0x" ++ printf_02X (32 + k) ++ [32], b ≠ 10 ∧ b ≠ 0 := by
  decide

theorem unpack_grid_shape (font : List Nat) (i : Nat) :
    unpack_grid font i font_height 0 =
      [[if font.getD i 0 &&& 1 ≠ 0 then 49 else 48, if font.getD i 0 &&& 2 ≠ 0 then 49 else 48,
        if font.getD i 0 &&& 4 ≠ 0 then 49 else 48],
       [if font.getD i 0 &&& 8 ≠ 0 then 49 else 48, if font.getD i 0 &&& 16 ≠ 0 then 49 else 48,
        if font.getD i 0 &&& 32 ≠ 0 then 49 else 48],
       [if font.getD i 0 &&& 64 ≠ 0 then 49 else 48,
        if font.getD i 0 &&& 128 ≠ 0 then 49 else 48,
        if font.getD (i + 1) 0 &&& 1 ≠ 0 then 49 else 48],
       [if font.getD (i + 1) 0 &&& 2 ≠ 0 then 49 else 48,
        if font.getD (i + 1) 0 &&& 4 ≠ 0 then 49 else 48,
        if font.getD (i + 1) 0 &&& 8 ≠ 0 then 49 else 48],
       [if font.getD (i + 1) 0 &&& 16 ≠ 0 then 49 else 48,
        if font.getD (i + 1) 0 &&& 32 ≠ 0 then 49 else 48,
        if font.getD (i + 1) 0 &&& 64 ≠ 0 then 49 else 48]] := by
  simp only [unpack_grid, unpack_row, font_height, font_width, CHAR_BIT, Nat.reduceAdd,
    Nat.reduceDiv, Nat.reduceMod, Nat.add_zero, Nat.reduceShiftLeft, Nat.zero_add]

theorem ite_char (p : Prop) [Decidable p] :
    ((if p then 49 else 48 : Nat) = 48 ∨ (if p then 49 else 48 : Nat) = 49) ∧
    decide ((if p then 49 else 48 : Nat) = 49) = decide p := by
  by_cases h : p <;> simp [h]

theorem unpack_group_well_formed (font : List Nat) (k : Nat) (hk : k < 95) :
    (unpack_group font (32 + k)).well_formed := by
  obtain ⟨h1, h2⟩ := unpack_header_valid k hk
  refine ⟨h1, h2, ?_, ?_, ?_⟩
  · show isprint (32 + k) = true
    simp [isprint]; omega
  · simp only [unpack_group, unpack_grid_shape]
    rfl
  · simp only [unpack_group, unpack_grid_shape]
    intro r hr
    simp only [List.mem_cons, List.mem_singleton, List.not_mem_nil, or_false] at hr
    rcases hr with rfl | rfl | rfl | rfl | rfl <;>
      exact ⟨rfl, by
        intro x hx
        simp only [List.mem_cons, List.mem_singleton, List.not_mem_nil, or_false] at hx
        rcases hx with rfl | rfl | rfl <;> exact (ite_char _).1⟩

set_option maxRecDepth 20000 in
theorem glyph_byte_low :
    ∀ x, x < 256 →
      glyph_byte (decide (x &&& 1 ≠ 0)) (decide (x &&& 2 ≠ 0)) (decide (x &&& 4 ≠ 0))
        (decide (x &&& 8 ≠ 0)) (decide (x &&& 16 ≠ 0)) (decide (x &&& 32 ≠ 0))
        (decide (x &&& 64 ≠ 0)) (decide (x &&& 128 ≠ 0)) = x := by
  decide

set_option maxRecDepth 20000 in
theorem glyph_byte_high :
    ∀ y, y < 256 →
      glyph_byte (decide (y &&& 1 ≠ 0)) (decide (y &&& 2 ≠ 0)) (decide (y &&& 4 ≠ 0))
        (decide (y &&& 8 ≠ 0)) (decide (y &&& 16 ≠ 0)) (decide (y &&& 32 ≠ 0))
        (decide (y &&& 64 ≠ 0)) false = y % 128 := by
  decide

/-- Packing the pixel lines that `unpack_font` prints for an entry gives the
first byte back, and the second byte without its bit 7. -/
theorem unpack_group_spec_byte (font : List Nat) (c : Nat)
    (hx : font.getD (c * 2) 0 < 256) (hy : font.getD (c * 2 + 1) 0 < 256) :
    (unpack_group font c).spec_byte 0 = font.getD (c * 2) 0 ∧
    (unpack_group font c).spec_byte 1 = font.getD (c * 2 + 1) 0 % 128 := by
  simp only [unpack_group, unpack_grid_shape, bytes_per_font_character]
  constructor
  · rw [spec_byte_zero_glyph _ _ _ _ _ _ _ _ _ _ _ _ _ _ _ _ _ (ite_char _).1 (ite_char _).1
      (ite_char _).1 (ite_char _).1 (ite_char _).1 (ite_char _).1 (ite_char _).1 (ite_char _).1]
    simp only [(ite_char _).2]
    exact glyph_byte_low _ hx
  · rw [spec_byte_one_glyph _ _ _ _ _ _ _ _ _ _ _ _ _ _ _ _ _ (ite_char _).1 (ite_char _).1
      (ite_char _).1 (ite_char _).1 (ite_char _).1 (ite_char _).1 (ite_char _).1]
    simp only [(ite_char _).2]
    exact glyph_byte_high _ hy

theorem unpack_groups_well_formed (font : List Nat) :
    ∀ g ∈ unpack_groups font, g.well_formed := by
  intro g hg
  simp only [unpack_groups, List.mem_map, List.mem_range] at hg
  obtain ⟨k, hk, rfl⟩ := hg
  exact unpack_group_well_formed font k hk

theorem unpack_groups_split (font : List Nat) (k : Nat) (hk : k < 95) :
    unpack_groups font
      = ((List.range k).map fun j => unpack_group font (32 + j)) ++ unpack_group font (32 + k) ::
          ((List.range' (k + 1) (95 - (k + 1))).map fun j => unpack_group font (32 + j)) := by
  have e2 : 95 - k = (95 - (k + 1)) + 1 := by omega
  have h : List.range 95 = List.range k ++ k :: List.range' (k + 1) (95 - (k + 1)) := by
    calc List.range 95 = List.range' 0 (95 - k + k) := by
          rw [List.range_eq_range']; congr 1; omega
      _ = List.range' 0 k ++ List.range' (0 + 1 * k) (95 - k) :=
          (List.range'_append 0 k (95 - k) 1).symm
      _ = List.range k ++ k :: List.range' (k + 1) (95 - (k + 1)) := by
          rw [List.range_eq_range', e2, List.range'_succ]
          simp
  rw [unpack_groups, h, List.map_append, List.map_cons]

/-- The table that `pack_font` builds from the output of `unpack_font` for a
table `font`. -/
theorem pack_unpack_entries (font : List Nat) (hlen : font.length = 512)
    (hb : ∀ b ∈ font, b < 256) :
    pack_table (unpack_font_of font)
      = .ok ((unpack_groups font).foldl apply_group init_encodings) ∧
    ∀ c, 32 ≤ c → c ≤ 126 →
      ((unpack_groups font).foldl apply_group init_encodings).getD (c * 2) 0
        = font.getD (c * 2) 0 ∧
      ((unpack_groups font).foldl apply_group init_encodings).getD (c * 2 + 1) 0
        = font.getD (c * 2 + 1) 0 % 128 := by
  have hwf := unpack_groups_well_formed font
  constructor
  · rw [unpack_font_of_eq_stream font hlen, pack_table_stream _ hwf,
      List.take_of_length_le (by simp [unpack_groups])]
  · intro c h32 h126
    obtain ⟨k, rfl⟩ : ∃ k, c = 32 + k := ⟨c - 32, by omega⟩
    have hk : k < 95 := by omega
    have hget : ∀ i, i < 512 → font.getD i 0 < 256 := by
      intro i hi
      rw [List.getD_eq_getElem?_getD, List.getElem?_eq_getElem (by omega), Option.getD_some]
      exact hb _ (List.getElem_mem _)
    have hs := unpack_group_spec_byte font (32 + k) (hget _ (by omega)) (hget _ (by omega))
    have hl := getD_foldl_apply_group_last
      ((List.range k).map fun j => unpack_group font (32 + j)) 
      ((List.range' (k + 1) (95 - (k + 1))).map fun j => unpack_group font (32 + j))
      (unpack_group font (32 + k)) init_encodings init_encodings_length
      (unpack_group_well_formed font k hk)
      (by
        intro x hx
        simp only [List.mem_map, List.mem_range'_1] at hx
        obtain ⟨j, hj, rfl⟩ := hx
        simp only [unpack_group]
        omega)
    rw [← unpack_groups_split font k hk] at hl
    simp only [unpack_group] at hl hs
    rw [hl.1, hl.2]
    exact hs

set_option maxRecDepth 20000 in
theorem default_font_bytes : default_font.length = 512 ∧ ∀ b ∈ default_font, b < 256 := by
  decide

theorem default_font_high_bit :
    ∀ k, k < 95 → default_font.getD ((32 + k) * 2 + 1) 0 % 128
      = default_font.getD ((32 + k) * 2 + 1) 0 := by
  decide

theorem list_eq_of_getD (l1 l2 : List Nat) (hlen : l1.length = l2.length)
    (h : ∀ i, i < l1.length → l1.getD i 0 = l2.getD i 0) : l1 = l2 := by
  apply List.ext_getElem hlen
  intro i h1 h2
  have := h i h1
  rwa [List.getD_eq_getElem?_getD, List.getD_eq_getElem?_getD, List.getElem?_eq_getElem h1,
    List.getElem?_eq_getElem h2, Option.getD_some, Option.getD_some] at this

/-- The groups that `unpack_font` prints for `default_font` pack to
`default_font`. -/
theorem foldl_unpack_groups_default :
    (unpack_groups default_font).foldl apply_group init_encodings = default_font := by
  have hp := (pack_unpack_entries default_font default_font_bytes.1 default_font_bytes.2).2
  apply list_eq_of_getD
  · rw [foldl_apply_group_length, init_encodings_length, default_font_bytes.1]
  · intro i hi
    rw [foldl_apply_group_length, init_encodings_length] at hi
    have key : ∀ c, c < 256 →
        ((unpack_groups default_font).foldl apply_group init_encodings).getD (c * 2) 0
          = default_font.getD (c * 2) 0 ∧
        ((unpack_groups default_font).foldl apply_group init_encodings).getD (c * 2 + 1) 0
          = default_font.getD (c * 2 + 1) 0 := by
      intro c hc
      by_cases hpr : 32 ≤ c ∧ c ≤ 126
      · have := hp c hpr.1 hpr.2
        obtain ⟨k, rfl⟩ : ∃ k, c = 32 + k := ⟨c - 32, by omega⟩
        rw [default_font_high_bit k (by omega)] at this
        exact this
      · have hnp : isprint c = false := by
          rw [← Bool.not_eq_true, isprint_iff]; exact hpr
        have hne := getD_foldl_apply_group_ne (unpack_groups default_font) init_encodings c
          (by
            intro g hg
            simp only [unpack_groups, List.mem_map, List.mem_range] at hg
            obtain ⟨k, hk, rfl⟩ := hg
            simp only [unpack_group]
            omega)
        have hd := default_font_unprintable c hc hnp
        rw [hne.1, hne.2, hd.1, hd.2, init_encodings_getD _ (by omega),
          init_encodings_getD _ (by omega)]
        exact ⟨rfl, rfl⟩
    rcases Nat.even_or_odd' i with ⟨c, rfl | rfl⟩
    · have := (key c (by omega)).1
      rwa [Nat.mul_comm] at this
    · have := (key c (by omega)).2
      rwa [Nat.mul_comm] at this

/-- C4: the text that `unpack_font` emits for `default_font` is a stream of 95
well-formed groups; `pack_font` reads all of it (nothing is left unread, no
group is rejected) and the table it builds is, byte for byte, `default_font`. -/
theorem unpack_then_pack_default_font :
    unpack_font = stream (unpack_groups default_font) ∧
    (unpack_groups default_font).length = 95 ∧
    (∀ g ∈ unpack_groups default_font, g.well_formed) ∧
    pack_lines max_font_file_lines 1 ⟨unpack_font, false⟩ init_encodings
      = .ok (default_font, ⟨[], false⟩) ∧
    pack_table unpack_font = .ok default_font ∧
    default_font.length = 512 := by
  have hs := unpack_font_of_eq_stream default_font default_font_bytes.1
  have hwf := unpack_groups_well_formed default_font
  have hl : (unpack_groups default_font).length = 95 := by simp [unpack_groups]
  have h := pack_lines_groups (unpack_groups default_font) hwf [] max_font_file_lines 1
    init_encodings init_encodings_length (by rw [hl]; decide)
    (by rw [hl]; simp only [max_font_file_lines]; omega)
  rw [List.append_nil, hl, foldl_unpack_groups_default] at h
  have h2 : pack_lines max_font_file_lines 1 ⟨unpack_font, false⟩ init_encodings
      = .ok (default_font, ⟨[], false⟩) := by
    rw [unpack_font, hs, h]
    simp [pack_lines]
  refine ⟨hs, hl, hwf, h2, ?_, default_font_bytes.1⟩
  rw [pack_table, h2]

/-! ### C5: packing the output of `unpack_font` for an arbitrary table -/

/-- C5, counterexample: for the 256-entry table whose bytes are all 255,
packing the text that `unpack_font` emits gives, for the printable code 65, a
second byte 127 that is not the second byte 255 of the table. -/
theorem pack_unpack_roundtrip_counterexample :
    init_encodings.length = 512 ∧ (∀ b ∈ init_encodings, b < 256) ∧
    ∃ t, pack_table (unpack_font_of init_encodings) = .ok t ∧
      t.getD (65 * 2 + 1) 0 = 127 ∧ init_encodings.getD (65 * 2 + 1) 0 = 255 := by
  have hb : ∀ b ∈ init_encodings, b < 256 := by
    intro b hb
    rw [init_encodings] at hb
    rw [List.eq_of_mem_replicate hb]
    decide
  obtain ⟨h1, h2⟩ := pack_unpack_entries init_encodings init_encodings_length hb
  refine ⟨init_encodings_length, hb, _, h1, ?_, init_encodings_getD _ (by decide)⟩
  rw [(h2 65 (by decide) (by decide)).2, init_encodings_getD _ (by decide)]

/-- C5, amended: for every 256-entry table of bytes, feeding the text that
`unpack_font` emits for it into `pack_font` yields a table whose two bytes for
every printable code (32..126) are the first byte of the table's entry and its
second byte with bit 7 cleared; they are exactly the table's two bytes when
the unused 16th bit of the entry is 0. -/
theorem pack_unpack_roundtrip (font : List Nat) (hlen : font.length = 512)
    (hb : ∀ b ∈ font, b < 256) :
    ∃ t, pack_table (unpack_font_of font) = .ok t ∧
      ∀ c, 32 ≤ c → c ≤ 126 →
        t.getD (c * 2) 0 = font.getD (c * 2) 0 ∧
        t.getD (c * 2 + 1) 0 = font.getD (c * 2 + 1) 0 % 128 ∧
        (font.getD (c * 2 + 1) 0 < 128 → t.getD (c * 2 + 1) 0 = font.getD (c * 2 + 1) 0) := by
  obtain ⟨h1, h2⟩ := pack_unpack_entries font hlen hb
  refine ⟨_, h1, fun c h32 h126 => ⟨(h2 c h32 h126).1, (h2 c h32 h126).2, fun h => ?_⟩⟩
  rw [(h2 c h32 h126).2]
  omega

theorem pack_unpack_roundtrip_witness :
    default_font.length = 512 ∧ (∀ b ∈ default_font, b < 256) ∧
    ∃ t, pack_table (unpack_font_of default_font) = .ok t ∧
      ∀ c, 32 ≤ c → c ≤ 126 →
        t.getD (c * 2) 0 = default_font.getD (c * 2) 0 ∧
        t.getD (c * 2 + 1) 0 = default_font.getD (c * 2 + 1) 0 % 128 ∧
        (default_font.getD (c * 2 + 1) 0 < 128 →
          t.getD (c * 2 + 1) 0 = default_font.getD (c * 2 + 1) 0) :=
  ⟨default_font_bytes.1, default_font_bytes.2,
    pack_unpack_roundtrip default_font default_font_bytes.1 default_font_bytes.2⟩

/-! ## C3: painting one glyph -/

theorem Painted.refl (W : Nat) (buf : List Nat) : Painted W buf buf (fun _ _ => none) :=
  ⟨rfl, fun _ _ _ _ _ => rfl⟩

theorem Painted.trans {W : Nat} {b0 b1 b2 : List Nat} {F1 F2 : Nat → Nat → Option (List Nat)}
    (h1 : Painted W b0 b1 F1) (h2 : Painted W b1 b2 F2) :
    Painted W b0 b2 (fun X Y => match F2 X Y with
      | some px => some px
      | none => F1 X Y) := by
  refine ⟨h2.1.trans h1.1, ?_⟩
  intro X Y k hX hk
  rw [h2.2 X Y k hX hk]
  dsimp only
  cases h : F2 X Y with
  | some px => rfl
  | none => exact h1.2 X Y k hX hk

theorem Painted.congr {W : Nat} {b0 b1 : List Nat} {F G : Nat → Nat → Option (List Nat)}
    (h : Painted W b0 b1 F) (hFG : ∀ X Y, X < W → F X Y = G X Y) : Painted W b0 b1 G := by
  refine ⟨h.1, ?_⟩
  intro X Y k hX hk
  rw [h.2 X Y k hX hk, hFG X Y hX]

theorem memcpy_three (buf : List Nat) (pos : Nat) (px : List Nat) :
    memcpy_within buf pos px 3
      = ((buf.set pos (px.getD 0 0)).set (pos + 1) (px.getD 1 0)).set (pos + 2) (px.getD 2 0) := by
  simp [memcpy_within]

/-- Two pixel cells of a row-major buffer overlap only when they are the same
cell. -/
theorem cell_offset_eq (W X Y k X0 Y0 j : Nat) (hX : X < W) (hX0 : X0 < W) (hk : k < 3)
    (hj : j < 3) (h : W * 3 * Y + X * 3 + k = W * 3 * Y0 + X0 * 3 + j) :
    X = X0 ∧ Y = Y0 ∧ k = j := by
  have hW : 0 < W * 3 := by omega
  have e1 : (W * 3 * Y + (X * 3 + k)) / (W * 3) = Y := by
    rw [Nat.mul_add_div hW, Nat.div_eq_of_lt (by omega), Nat.add_zero]
  have e2 : (W * 3 * Y0 + (X0 * 3 + j)) / (W * 3) = Y0 := by
    rw [Nat.mul_add_div hW, Nat.div_eq_of_lt (by omega), Nat.add_zero]
  have hY : Y = Y0 := by
    rw [← e1, ← e2, ← Nat.add_assoc, ← Nat.add_assoc, h]
  subst hY
  omega

theorem cell_bound (W H X Y : Nat) (hX : X < W) (hY : Y < H) :
    W * 3 * Y + X * 3 + 3 ≤ W * H * 3 := by
  have h1 : W * 3 * (Y + 1) ≤ W * 3 * H := Nat.mul_le_mul_left _ hY
  have h2 : W * 3 * (Y + 1) = W * 3 * Y + W * 3 := by ring
  have h3 : W * 3 * H = W * H * 3 := by ring
  omega

theorem getD_set_three (buf : List Nat) (pos a b c p : Nat) (h : pos + 3 ≤ buf.length) :
    (((buf.set pos a).set (pos + 1) b).set (pos + 2) c).getD p 0
      = if p = pos then a else if p = pos + 1 then b else if p = pos + 2 then c
        else buf.getD p 0 := by
  by_cases h0 : p = pos
  · subst h0
    rw [if_pos rfl, getD_set_ne _ _ _ _ (by omega), getD_set_ne _ _ _ _ (by omega),
      getD_set_self _ _ _ (by omega)]
  · rw [if_neg h0]
    by_cases h1 : p = pos + 1
    · subst h1
      rw [if_pos rfl, getD_set_ne _ _ _ _ (by omega), getD_set_self _ _ _ (by simp; omega)]
    · rw [if_neg h1]
      by_cases h2 : p = pos + 2
      · subst h2
        rw [if_pos rfl, getD_set_self _ _ _ (by simp; omega)]
      · rw [if_neg h2, getD_set_ne _ _ _ _ (Ne.symm h2), getD_set_ne _ _ _ _ (Ne.symm h1),
          getD_set_ne _ _ _ _ (Ne.symm h0)]

theorem Painted_memcpy (W : Nat) (buf : List Nat) (X0 Y0 : Nat) (px : List Nat) (hX0 : X0 < W)
    (hlen : W * 3 * Y0 + X0 * 3 + 3 ≤ buf.length) :
    Painted W buf (memcpy_within buf (W * 3 * Y0 + X0 * 3) px 3)
      (fun X Y => if X = X0 ∧ Y = Y0 then some px else none) := by
  rw [memcpy_three]
  refine ⟨by simp, ?_⟩
  intro X Y k hX hk
  rw [getD_set_three _ _ _ _ _ _ hlen]
  dsimp only
  by_cases hc : X = X0 ∧ Y = Y0
  · obtain ⟨rfl, rfl⟩ := hc
    simp only [and_self, if_true]
    have h3 : k = 0 ∨ k = 1 ∨ k = 2 := by omega
    rcases h3 with rfl | rfl | rfl <;> simp
  · rw [if_neg hc]
    have hne : ∀ j, j < 3 → W * 3 * Y + X * 3 + k ≠ W * 3 * Y0 + X0 * 3 + j := by
      intro j hj e
      have := cell_offset_eq W X Y k X0 Y0 j hX hX0 hk hj e
      exact hc ⟨this.1, this.2.1⟩
    have h0 := hne 0 (by omega)
    have h1 := hne 1 (by omega)
    have h2 := hne 2 (by omega)
    simp only [Nat.add_zero] at h0
    rw [if_neg h0, if_neg h1, if_neg h2]

/-- The loop over `sx` paints the cells of one buffer row from column
`cur_x + x + sx` on. -/
theorem paint_sx_spec (fb : framebuffer) (c bit_pos y x sy : Nat) (hbpp : fb.bytes_per_pixel = 3)
    (hsize : fb.width * fb.height * 3 < ULONG) (hY : fb.cur_y + y + sy < fb.height)
    (n sx : Nat) (buf : List Nat) (hlen : buf.length = fb.width * fb.height * 3)
    (hX : fb.cur_x + x + sx + n ≤ fb.width) :
    ∃ buf1, paint_sx fb c (fb.width * fb.height * 3) bit_pos y x sy n sx buf
        = .done buf1 bit_pos ∧
      Painted fb.width buf buf1 (fun X Y =>
        if Y = fb.cur_y + y + sy ∧ fb.cur_x + x + sx ≤ X ∧ X < fb.cur_x + x + sx + n
        then some (glyph_pixel c bit_pos) else none) := by
  induction n generalizing sx buf with
  | zero =>
    refine ⟨buf, rfl, (Painted.refl _ buf).congr ?_⟩
    intro X Y _
    rw [if_neg (by omega)]
  | succ n ih =>
    have hb := cell_bound fb.width fb.height (fb.cur_x + x + sx) (fb.cur_y + y + sy)
      (by omega) hY
    have hpos : (fb.width * fb.bytes_per_pixel * (fb.cur_y + y + sy)
        + (fb.cur_x + x + sx) * fb.bytes_per_pixel) % ULONG
        = fb.width * 3 * (fb.cur_y + y + sy) + (fb.cur_x + x + sx) * 3 := by
      rw [hbpp]
      exact Nat.mod_eq_of_lt (by omega)
    have hguard : ¬ ((fb.width * 3 * (fb.cur_y + y + sy) + (fb.cur_x + x + sx) * 3
        + fb.bytes_per_pixel) % ULONG > fb.width * fb.height * 3) := by
      rw [hbpp, Nat.mod_eq_of_lt (by omega)]
      omega
    have hm := Painted_memcpy fb.width buf (fb.cur_x + x + sx) (fb.cur_y + y + sy)
      (glyph_pixel c bit_pos) (by omega) (by omega)
    obtain ⟨buf1, h1, p1⟩ := ih (sx + 1)
      (memcpy_within buf (fb.width * 3 * (fb.cur_y + y + sy) + (fb.cur_x + x + sx) * 3)
        (glyph_pixel c bit_pos) 3)
      (by rw [hm.1, hlen]) (by omega)
    refine ⟨buf1, ?_, (hm.trans p1).congr ?_⟩
    · rw [paint_sx]
      simp only [hpos, if_neg hguard]
      rw [hbpp, memcpy, if_pos (by omega)]
      exact h1
    · intro X Y _
      clear hpos hguard h1 hb
      dsimp only
      split_ifs <;> first | (exfalso; omega) | rfl

/-- The loop over `sy` paints a block of cells. -/
theorem paint_sy_spec (fb : framebuffer) (c bit_pos y x : Nat) (hbpp : fb.bytes_per_pixel = 3)
    (hsize : fb.width * fb.height * 3 < ULONG)
    (hX : fb.cur_x + x + fb.font_scale ≤ fb.width)
    (n sy : Nat) (buf : List Nat) (hlen : buf.length = fb.width * fb.height * 3)
    (hY : fb.cur_y + y + sy + n ≤ fb.height) :
    ∃ buf1, paint_sy fb c (fb.width * fb.height * 3) bit_pos y x n sy buf
        = .done buf1 bit_pos ∧
      Painted fb.width buf buf1 (fun X Y =>
        if fb.cur_y + y + sy ≤ Y ∧ Y < fb.cur_y + y + sy + n ∧
            fb.cur_x + x ≤ X ∧ X < fb.cur_x + x + fb.font_scale
        then some (glyph_pixel c bit_pos) else none) := by
  induction n generalizing sy buf with
  | zero =>
    refine ⟨buf, rfl, (Painted.refl _ buf).congr ?_⟩
    intro X Y _
    rw [if_neg (by omega)]
  | succ n ih =>
    obtain ⟨buf1, h1, p1⟩ := paint_sx_spec fb c bit_pos y x sy hbpp hsize (by omega)
      fb.font_scale 0 buf hlen (by omega)
    obtain ⟨buf2, h2, p2⟩ := ih (sy + 1) buf1 (by rw [p1.1, hlen]) (by omega)
    refine ⟨buf2, ?_, (p1.trans p2).congr ?_⟩
    · rw [paint_sy, h1]
      exact h2
    · intro X Y _
      clear h1 h2
      dsimp only
      split_ifs <;> first | (exfalso; omega) | rfl

/-- The loop over `x` paints one row of three blocks and advances `bit_pos` by
three. -/
theorem paint_x_spec (fb : framebuffer) (c bit_pos y : Nat) (hbpp : fb.bytes_per_pixel = 3)
    (hsize : fb.width * fb.height * 3 < ULONG) (hs1 : 1 ≤ fb.font_scale)
    (hs : 3 * fb.font_scale < UINT)
    (hX : fb.cur_x + 3 * fb.font_scale ≤ fb.width)
    (hY : fb.cur_y + y + fb.font_scale ≤ fb.height)
    (fuel : Nat) (hfuel : 4 ≤ fuel) (buf : List Nat)
    (hlen : buf.length = fb.width * fb.height * 3) :
    ∃ buf1, paint_x fb c (fb.width * fb.height * 3) (3 * fb.font_scale) y fuel 0
        bit_pos buf = .done buf1 (bit_pos + 3) ∧
      Painted fb.width buf buf1 (fun X Y =>
        if fb.cur_y + y ≤ Y ∧ Y < fb.cur_y + y + fb.font_scale then glyph_row fb c bit_pos X
        else none) := by
  obtain ⟨fuel, rfl⟩ : ∃ f, fuel = f + 4 := ⟨fuel - 4, by omega⟩
  obtain ⟨b1, h1, p1⟩ := paint_sy_spec fb c bit_pos y 0 hbpp hsize (by omega)
    fb.font_scale 0 buf hlen (by omega)
  obtain ⟨b2, h2, p2⟩ := paint_sy_spec fb c (bit_pos + 1) y fb.font_scale hbpp hsize (by omega)
    fb.font_scale 0 b1 (by rw [p1.1, hlen]) (by omega)
  obtain ⟨b3, h3, p3⟩ := paint_sy_spec fb c (bit_pos + 2) y (fb.font_scale + fb.font_scale)
    hbpp hsize (by omega) fb.font_scale 0 b2 (by rw [p2.1, p1.1, hlen]) (by omega)
  have e1 : (0 + fb.font_scale) % UINT = fb.font_scale := by
    rw [Nat.zero_add]; exact Nat.mod_eq_of_lt (by omega)
  have e2 : (fb.font_scale + fb.font_scale) % UINT = fb.font_scale + fb.font_scale :=
    Nat.mod_eq_of_lt (by omega)
  have e3 : (fb.font_scale + fb.font_scale + fb.font_scale) % UINT
      = fb.font_scale + fb.font_scale + fb.font_scale := Nat.mod_eq_of_lt (by omega)
  refine ⟨b3, ?_, ((p1.trans p2).trans p3).congr ?_⟩
  · rw [paint_x, if_pos (by omega), h1]
    simp only [e1]
    rw [paint_x, if_pos (by omega), h2]
    simp only [e2]
    rw [paint_x, if_pos (by omega), h3]
    simp only [e3]
    rw [paint_x, if_neg (by omega)]
  · intro X Y _
    clear h1 h2 h3 e1 e2 e3
    dsimp only [glyph_row]
    split_ifs <;> first | (exfalso; omega) | rfl

/-- The loop over `y` paints the five rows of blocks of the glyph. -/
theorem paint_y_spec (fb : framebuffer) (c : Nat) (hbpp : fb.bytes_per_pixel = 3)
    (hsize : fb.width * fb.height * 3 < ULONG) (hs1 : 1 ≤ fb.font_scale)
    (hs : 5 * fb.font_scale < UINT)
    (hX : fb.cur_x + 3 * fb.font_scale ≤ fb.width)
    (hY : fb.cur_y + 5 * fb.font_scale ≤ fb.height)
    (fuel : Nat) (hfuel : 6 ≤ fuel) (buf : List Nat)
    (hlen : buf.length = fb.width * fb.height * 3) :
    ∃ buf1, paint_y fb c (fb.width * fb.height * 3) (5 * fb.font_scale) (3 * fb.font_scale)
        fuel 0 0 buf = .done buf1 15 ∧
      Painted fb.width buf buf1 (glyph_cells fb c) := by
  have hs3 : 3 * fb.font_scale < UINT := by omega
  obtain ⟨fuel, rfl⟩ : ∃ f, fuel = f + 6 := ⟨fuel - 6, by omega⟩
  have h4 : 4 ≤ UINT + 1 := by decide
  obtain ⟨b1, h1, p1⟩ := paint_x_spec fb c 0 0 hbpp hsize hs1 hs3 hX (by omega)
    (UINT + 1) h4 buf hlen
  obtain ⟨b2, h2, p2⟩ := paint_x_spec fb c 3 fb.font_scale hbpp hsize hs1 hs3 hX (by omega)
    (UINT + 1) h4 b1 (by rw [p1.1, hlen])
  obtain ⟨b3, h3, p3⟩ := paint_x_spec fb c 6 (fb.font_scale + fb.font_scale) hbpp hsize hs1 hs3
    hX (by omega) (UINT + 1) h4 b2 (by rw [p2.1, p1.1, hlen])
  obtain ⟨b4, h4', p4⟩ := paint_x_spec fb c 9 (fb.font_scale + fb.font_scale + fb.font_scale)
    hbpp hsize hs1 hs3 hX (by omega) (UINT + 1) h4 b3 (by rw [p3.1, p2.1, p1.1, hlen])
  obtain ⟨b5, h5, p5⟩ := paint_x_spec fb c 12
    (fb.font_scale + fb.font_scale + fb.font_scale + fb.font_scale)
    hbpp hsize hs1 hs3 hX (by omega) (UINT + 1) h4 b4 (by rw [p4.1, p3.1, p2.1, p1.1, hlen])
  have e1 : (0 + fb.font_scale) % UINT = fb.font_scale := by
    rw [Nat.zero_add]; exact Nat.mod_eq_of_lt (by omega)
  have e2 : (fb.font_scale + fb.font_scale) % UINT = fb.font_scale + fb.font_scale :=
    Nat.mod_eq_of_lt (by omega)
  have e3 : (fb.font_scale + fb.font_scale + fb.font_scale) % UINT
      = fb.font_scale + fb.font_scale + fb.font_scale := Nat.mod_eq_of_lt (by omega)
  have e4 : (fb.font_scale + fb.font_scale + fb.font_scale + fb.font_scale) % UINT
      = fb.font_scale + fb.font_scale + fb.font_scale + fb.font_scale :=
    Nat.mod_eq_of_lt (by omega)
  have e5 : (fb.font_scale + fb.font_scale + fb.font_scale + fb.font_scale + fb.font_scale)
      % UINT = fb.font_scale + fb.font_scale + fb.font_scale + fb.font_scale + fb.font_scale :=
    Nat.mod_eq_of_lt (by omega)
  refine ⟨b5, ?_, ((((p1.trans p2).trans p3).trans p4).trans p5).congr ?_⟩
  · have k1 : paint_x fb c (fb.width * fb.height * 3) (3 * fb.font_scale) 0 (UINT + 1) 0 0 buf
        = .done b1 3 := h1
    have k2 : paint_x fb c (fb.width * fb.height * 3) (3 * fb.font_scale) fb.font_scale
        (UINT + 1) 0 3 b1 = .done b2 6 := h2
    have k3 : paint_x fb c (fb.width * fb.height * 3) (3 * fb.font_scale)
        (fb.font_scale + fb.font_scale) (UINT + 1) 0 6 b2 = .done b3 9 := h3
    have k4 : paint_x fb c (fb.width * fb.height * 3) (3 * fb.font_scale)
        (fb.font_scale + fb.font_scale + fb.font_scale) (UINT + 1) 0 9 b3 = .done b4 12 := h4'
    have k5 : paint_x fb c (fb.width * fb.height * 3) (3 * fb.font_scale)
        (fb.font_scale + fb.font_scale + fb.font_scale + fb.font_scale) (UINT + 1) 0 12 b4
        = .done b5 15 := h5
    rw [paint_y, if_pos (by omega), k1]
    simp only [e1]
    rw [paint_y, if_pos (by omega), k2]
    simp only [e2]
    rw [paint_y, if_pos (by omega), k3]
    simp only [e3]
    rw [paint_y, if_pos (by omega), k4]
    simp only [e4]
    rw [paint_y, if_pos (by omega), k5]
    simp only [e5]
    rw [paint_y, if_neg (by omega)]
  · intro X Y _
    clear h1 h2 h3 h4' h5 e1 e2 e3 e4 e5 p1 p2 p3 p4 p5
    have r1 : (fb.cur_y + 0 ≤ Y ∧ Y < fb.cur_y + 0 + fb.font_scale)
        ↔ (fb.cur_y ≤ Y ∧ Y < fb.cur_y + fb.font_scale) := by omega
    have r2 : (fb.cur_y + fb.font_scale ≤ Y ∧ Y < fb.cur_y + fb.font_scale + fb.font_scale)
        ↔ (fb.cur_y + fb.font_scale ≤ Y ∧ Y < fb.cur_y + 2 * fb.font_scale) := by omega
    have r3 : (fb.cur_y + (fb.font_scale + fb.font_scale) ≤ Y ∧
        Y < fb.cur_y + (fb.font_scale + fb.font_scale) + fb.font_scale)
        ↔ (fb.cur_y + 2 * fb.font_scale ≤ Y ∧ Y < fb.cur_y + 3 * fb.font_scale) := by omega
    have r4 : (fb.cur_y + (fb.font_scale + fb.font_scale + fb.font_scale) ≤ Y ∧
        Y < fb.cur_y + (fb.font_scale + fb.font_scale + fb.font_scale) + fb.font_scale)
        ↔ (fb.cur_y + 3 * fb.font_scale ≤ Y ∧ Y < fb.cur_y + 4 * fb.font_scale) := by omega
    have r5 : (fb.cur_y + (fb.font_scale + fb.font_scale + fb.font_scale + fb.font_scale) ≤ Y ∧
        Y < fb.cur_y + (fb.font_scale + fb.font_scale + fb.font_scale + fb.font_scale)
          + fb.font_scale)
        ↔ (fb.cur_y + 4 * fb.font_scale ≤ Y ∧ Y < fb.cur_y + 5 * fb.font_scale) := by omega
    simp only [glyph_cells, r1, r2, r3, r4, r5]
    by_cases c1 : fb.cur_y ≤ Y ∧ Y < fb.cur_y + fb.font_scale <;>
    by_cases c2 : fb.cur_y + fb.font_scale ≤ Y ∧ Y < fb.cur_y + 2 * fb.font_scale <;>
    by_cases c3 : fb.cur_y + 2 * fb.font_scale ≤ Y ∧ Y < fb.cur_y + 3 * fb.font_scale <;>
    by_cases c4 : fb.cur_y + 3 * fb.font_scale ≤ Y ∧ Y < fb.cur_y + 4 * fb.font_scale <;>
    by_cases c5 : fb.cur_y + 4 * fb.font_scale ≤ Y ∧ Y < fb.cur_y + 5 * fb.font_scale <;>
    first
      | (exfalso; omega)
      | (simp only [c1, c2, c3, c4, c5, if_true, if_false] <;>
          (cases glyph_row fb c 0 X <;> cases glyph_row fb c 3 X <;>
            cases glyph_row fb c 6 X <;> cases glyph_row fb c 9 X <;>
            cases glyph_row fb c 12 X <;> rfl))

theorem and_one_shiftLeft_ne_zero (x m : Nat) : (x &&& (1 <<< m) ≠ 0) ↔ x.testBit m = true := by
  rw [Nat.one_shiftLeft, Nat.and_two_pow]
  cases h : x.testBit m
  · simp
  · simp [Nat.pos_iff_ne_zero.1 (Nat.two_pow_pos m)]

/-- The bytes of the pixel that is painted for bit `bit_pos` of the glyph of
`c`: `#` when the bit is set in `default_font`, a space otherwise. -/
theorem glyph_pixel_getD (c bit_pos k : Nat) (hk : k < 3) :
    (glyph_pixel c bit_pos).getD k 0
      = if (default_font.getD (c * 2 + bit_pos / 8) 0).testBit (bit_pos % 8) = true then 35
        else 32 := by
  have h3 : k = 0 ∨ k = 1 ∨ k = 2 := by omega
  simp only [glyph_pixel, and_one_shiftLeft_ne_zero, bytes_per_font_character, CHAR_BIT]
  split_ifs <;> rcases h3 with rfl | rfl | rfl <;> rfl

theorem glyph_row_inside (fb : framebuffer) (c bit_pos i : Nat) (hs1 : 1 ≤ fb.font_scale)
    (hi : i < 3 * fb.font_scale) :
    glyph_row fb c bit_pos (fb.cur_x + i) = some (glyph_pixel c (bit_pos + i / fb.font_scale)) := by
  have hq : i / fb.font_scale < 3 := (Nat.div_lt_iff_lt_mul hs1).2 hi
  have hi1 := Nat.div_add_mod i fb.font_scale
  have hi2 := Nat.mod_lt i hs1
  generalize i / fb.font_scale = q at hq hi1 ⊢
  generalize i % fb.font_scale = r at hi1 hi2
  interval_cases q
  · rw [glyph_row, if_pos (by omega)]
    rfl
  · rw [glyph_row, if_neg (by omega), if_pos (by omega)]
  · rw [glyph_row, if_neg (by omega), if_neg (by omega), if_pos (by omega)]

theorem glyph_cells_inside (fb : framebuffer) (c i j : Nat) (hs1 : 1 ≤ fb.font_scale)
    (hi : i < 3 * fb.font_scale) (hj : j < 5 * fb.font_scale) :
    glyph_cells fb c (fb.cur_x + i) (fb.cur_y + j)
      = some (glyph_pixel c (j / fb.font_scale * 3 + i / fb.font_scale)) := by
  have hp : j / fb.font_scale < 5 := (Nat.div_lt_iff_lt_mul hs1).2 hj
  have hj1 := Nat.div_add_mod j fb.font_scale
  have hj2 := Nat.mod_lt j hs1
  generalize j / fb.font_scale = p at hp hj1 ⊢
  generalize j % fb.font_scale = r at hj1 hj2
  interval_cases p
  · rw [glyph_cells, if_pos (by omega), glyph_row_inside fb c _ i hs1 hi]
  · rw [glyph_cells, if_neg (by omega), if_pos (by omega), glyph_row_inside fb c _ i hs1 hi]
  · rw [glyph_cells, if_neg (by omega), if_neg (by omega), if_pos (by omega),
      glyph_row_inside fb c _ i hs1 hi]
  · rw [glyph_cells, if_neg (by omega), if_neg (by omega), if_neg (by omega), if_pos (by omega),
      glyph_row_inside fb c _ i hs1 hi]
  · rw [glyph_cells, if_neg (by omega), if_neg (by omega), if_neg (by omega),
      if_neg (by omega), if_pos (by omega), glyph_row_inside fb c _ i hs1 hi]

theorem glyph_row_outside (fb : framebuffer) (c bit_pos X : Nat)
    (h : ¬ (fb.cur_x ≤ X ∧ X < fb.cur_x + 3 * fb.font_scale)) :
    glyph_row fb c bit_pos X = none := by
  rw [glyph_row, if_neg (by omega), if_neg (by omega), if_neg (by omega)]

theorem glyph_cells_outside (fb : framebuffer) (c X Y : Nat)
    (h : ¬ (fb.cur_x ≤ X ∧ X < fb.cur_x + 3 * fb.font_scale ∧
      fb.cur_y ≤ Y ∧ Y < fb.cur_y + 5 * fb.font_scale)) :
    glyph_cells fb c X Y = none := by
  by_cases hX : fb.cur_x ≤ X ∧ X < fb.cur_x + 3 * fb.font_scale
  · rw [glyph_cells, if_neg (by omega), if_neg (by omega), if_neg (by omega),
      if_neg (by omega), if_neg (by omega)]
  · simp only [glyph_cells, glyph_row_outside fb c _ X hX, ite_self]

/-- A buffer that holds a glyph at the cursor is far below the range of the
machine integers. -/
theorem scale_bound (W H s cx cy : Nat) (hsize : W * H * 3 < ULONG)
    (hx : cx + 3 * s ≤ W) (hy : cy + 5 * s ≤ H) : 5 * s + 1 < UINT := by
  by_contra hcon
  have h1 : 858993459 ≤ s := by simp only [UINT] at hcon; omega
  have h2 : (858993459 : Nat) * 858993459 ≤ s * s := Nat.mul_le_mul h1 h1
  have h3 : (3 * s) * (5 * s) ≤ W * H := Nat.mul_le_mul (by omega) (by omega)
  have h4 : (3 * s) * (5 * s) = 15 * (s * s) := by ring
  simp only [ULONG] at hsize
  omega

/-- C3: in a framebuffer as `simulation` sets it up (3 bytes per pixel, a
buffer of `width * height * 3` bytes, a size that fits an `unsigned long`) with
scale `s ≥ 1` in which the glyph fits at the cursor (`cur_x + 3 s ≤ width`,
`cur_y + 5 s ≤ height`), `framebuffer_write` of
a one-byte text holding a non-newline code `c` processes the text to its end,
sets for every `i < 3 s`, `j < 5 s` the three bytes of the pixel cell at
`(cur_x + i, cur_y + j)`, at byte offset `width * 3 * (cur_y + j) +
(cur_x + i) * 3`, to `#` when bit `b = (j / s) * 3 + i / s` of the entry of `c`
in `default_font` is set (byte `b / 8`, bit `b % 8`) and to a space otherwise,
and leaves every other pixel cell of the buffer unchanged. -/
theorem framebuffer_write_glyph (fb : framebuffer) (c : Nat)
    (hbpp : fb.bytes_per_pixel = 3) (hs1 : 1 ≤ fb.font_scale)
    (hlen : fb.buf.length = fb.width * fb.height * 3)
    (hsize : fb.width * fb.height * 3 < ULONG)
    (hx : fb.cur_x + 3 * fb.font_scale ≤ fb.width)
    (hy : fb.cur_y + 5 * fb.font_scale ≤ fb.height)
    (hc0 : c ≠ 0) (hc10 : c ≠ 10) :
    ∃ buf1, framebuffer_write fb [c]
        = .finished { fb with buf := buf1, cur_x := fb.cur_x + 3 * fb.font_scale + 1 } ∧
      buf1.length = fb.buf.length ∧
      (∀ i j k, i < 3 * fb.font_scale → j < 5 * fb.font_scale → k < 3 →
        buf1.getD (fb.width * 3 * (fb.cur_y + j) + (fb.cur_x + i) * 3 + k) 0
          = if (default_font.getD (c * 2 + (j / fb.font_scale * 3 + i / fb.font_scale) / 8)
                0).testBit ((j / fb.font_scale * 3 + i / fb.font_scale) % 8) = true
            then 35 else 32) ∧
      (∀ X Y k, X < fb.width → Y < fb.height → k < 3 →
        ¬ (fb.cur_x ≤ X ∧ X < fb.cur_x + 3 * fb.font_scale ∧
            fb.cur_y ≤ Y ∧ Y < fb.cur_y + 5 * fb.font_scale) →
        buf1.getD (fb.width * 3 * Y + X * 3 + k) 0
          = fb.buf.getD (fb.width * 3 * Y + X * 3 + k) 0) := by
  have hs5 := scale_bound fb.width fb.height fb.font_scale fb.cur_x fb.cur_y hsize hx hy
  obtain ⟨buf1, h1, p1⟩ := paint_y_spec fb c hbpp hsize hs1 (by omega) hx hy (UINT + 1)
    (by decide) fb.buf hlen
  have hW : fb.width + 1 < ULONG := by
    have : fb.width * 1 ≤ fb.width * fb.height := Nat.mul_le_mul_left _ (by omega)
    omega
  have hH : fb.height + 1 < ULONG := by
    have : 1 * fb.height ≤ fb.width * fb.height := Nat.mul_le_mul_right _ (by omega)
    omega
  have e1 : font_height * fb.font_scale % UINT = 5 * fb.font_scale :=
    Nat.mod_eq_of_lt (by simp only [font_height]; omega)
  have e2 : font_width * fb.font_scale % UINT = 3 * fb.font_scale :=
    Nat.mod_eq_of_lt (by simp only [font_width]; omega)
  have e3 : (5 * fb.font_scale + 1) % UINT = 5 * fb.font_scale + 1 := Nat.mod_eq_of_lt hs5
  have e4 : (3 * fb.font_scale + 1) % UINT = 3 * fb.font_scale + 1 :=
    Nat.mod_eq_of_lt (by omega)
  have e5 : fb.width * fb.height * fb.bytes_per_pixel % ULONG = fb.width * fb.height * 3 := by
    rw [hbpp]; exact Nat.mod_eq_of_lt hsize
  have e6 : (fb.cur_x + (3 * fb.font_scale + 1)) % ULONG = fb.cur_x + 3 * fb.font_scale + 1 :=
    Nat.mod_eq_of_lt (by omega)
  have e7 : (fb.cur_y + (5 * fb.font_scale + 1)) % ULONG = fb.cur_y + (5 * fb.font_scale + 1) :=
    Nat.mod_eq_of_lt (by omega)
  have e8 : (fb.width + 1) % ULONG = fb.width + 1 := Nat.mod_eq_of_lt hW
  have e9 : (fb.height + 1) % ULONG = fb.height + 1 := Nat.mod_eq_of_lt hH
  have n1 : ¬ (fb.cur_x + 3 * fb.font_scale + 1 > fb.width + 1) := by omega
  have n2 : ¬ (fb.cur_y + (5 * fb.font_scale + 1) > fb.height + 1) := by omega
  refine ⟨buf1, ?_, p1.1, ?_, ?_⟩
  · simp only [framebuffer_write, e1, e2, e3, e4, e5, write_chars, hc0, hc10, if_false, e6, e7,
      e8, e9, n1, n2, h1, false_or]
  · intro i j k hi hj hk
    rw [p1.2 (fb.cur_x + i) (fb.cur_y + j) k (by omega) hk,
      glyph_cells_inside fb c i j hs1 hi hj]
    exact glyph_pixel_getD c _ k hk
  · intro X Y k hX _ hk hout
    rw [p1.2 X Y k hX hk, glyph_cells_outside fb c X Y hout]

/-- The theorem `framebuffer_write_glyph` at `fb_example` and the code of `A`. -/
theorem framebuffer_write_glyph_witness :
    fb_example.bytes_per_pixel = 3 ∧ 1 ≤ fb_example.font_scale ∧
    fb_example.buf.length = fb_example.width * fb_example.height * 3 ∧
    fb_example.width * fb_example.height * 3 < ULONG ∧
    fb_example.cur_x + 3 * fb_example.font_scale ≤ fb_example.width ∧
    fb_example.cur_y + 5 * fb_example.font_scale ≤ fb_example.height ∧
    (65 : Nat) ≠ 0 ∧ (65 : Nat) ≠ 10 ∧
    ∃ buf1, framebuffer_write fb_example [65]
        = .finished { fb_example with buf := buf1, cur_x := 7 } ∧
      buf1.length = fb_example.buf.length ∧
      (∀ i j k, i < 6 → j < 10 → k < 3 →
        buf1.getD (7 * 3 * j + i * 3 + k) 0
          = if (default_font.getD (65 * 2 + (j / 2 * 3 + i / 2) / 8) 0).testBit
                ((j / 2 * 3 + i / 2) % 8) = true
            then 35 else 32) :=
  ⟨by decide, by decide, List.length_replicate (7 * 11 * 3) 32, by decide, by decide, by decide, by decide,
    by decide,
    (framebuffer_write_glyph fb_example 65 (by decide) (by decide) (List.length_replicate (7 * 11 * 3) 32)
      (by decide)
      (by decide) (by decide) (by decide) (by decide)).imp fun _ h =>
      ⟨h.1, h.2.1, fun i j k hi hj hk => by
        have := h.2.2.1 i j k hi hj hk
        simpa [fb_example] using this⟩⟩

/-! ## C17: a newline -/

/-- C17: when `5 * font_scale + 1` fits an `unsigned int` and
`cur_y + 5 * font_scale + 1` fits an `unsigned long` (no integer overflow),
whatever the cursor, the dimensions and the buffer are, `framebuffer_write` of
the one-byte text `"\n"` runs to its end, sets `cur_x` to 0, adds exactly
`5 * font_scale + 1` to `cur_y` without any vertical wrap, and changes nothing
else: the pixel buffer keeps every byte. -/
theorem framebuffer_write_newline (fb : framebuffer) (hs : 5 * fb.font_scale + 1 < UINT)
    (hy : fb.cur_y + (5 * fb.font_scale + 1) < ULONG) :
    framebuffer_write fb [10]
      = .finished { fb with cur_x := 0, cur_y := fb.cur_y + (5 * fb.font_scale + 1) } := by
  have e1 : font_height * fb.font_scale % UINT = 5 * fb.font_scale :=
    Nat.mod_eq_of_lt (by simp only [font_height]; omega)
  have e3 : (5 * fb.font_scale + 1) % UINT = 5 * fb.font_scale + 1 := Nat.mod_eq_of_lt hs
  have e7 : (fb.cur_y + (5 * fb.font_scale + 1)) % ULONG = fb.cur_y + (5 * fb.font_scale + 1) :=
    Nat.mod_eq_of_lt hy
  simp [framebuffer_write, write_chars, e1, e3, e7]

/-- The theorem `framebuffer_write_newline` at `fb_example`: the new `cur_y`,
11, is the height of the buffer. -/
theorem framebuffer_write_newline_witness :
    5 * fb_example.font_scale + 1 < UINT ∧
    fb_example.cur_y + (5 * fb_example.font_scale + 1) < ULONG ∧
    framebuffer_write fb_example [10]
      = .finished { fb_example with cur_x := 0, cur_y := 11 } :=
  ⟨by decide, by decide, framebuffer_write_newline fb_example (by decide) (by decide)⟩

/-! ## Successive calls of `framebuffer_write` -/

/-- The loop over the bytes of a text, on a text followed by another: when the
first part is processed to its end the loop goes on with the second part, and
when the "Bug-guard" fires in the first part the second part is not looked at. -/
theorem write_chars_append (sh sw ch cw sz : Nat) (t1 t2 : List Nat) (fb : framebuffer)
    (h0 : ∀ b ∈ t1, b ≠ 0) :
    write_chars sh sw ch cw sz (t1 ++ t2) fb
      = match write_chars sh sw ch cw sz t1 fb with
        | .finished fb1 => write_chars sh sw ch cw sz t2 fb1
        | r => r := by
  induction t1 generalizing fb with
  | nil => rfl
  | cons c cs ih =>
    have hc : c ≠ 0 := h0 c (List.mem_cons_self _ _)
    have ih1 := fun f => ih f (fun b hb => h0 b (List.mem_cons_of_mem _ hb))
    rw [List.cons_append, write_chars, write_chars, if_neg hc, if_neg hc]
    by_cases h10 : c = 10
    · simp only [h10, if_true, true_or]
      exact ih1 _
    · simp only [h10, if_false, false_or]
      split
      · exact ih1 _
      · rfl
      · rfl
      · rfl

theorem memcpy_length (dst : List Nat) (pos : Nat) (src : List Nat) (n : Nat) :
    (memcpy_within dst pos src n).length = dst.length := by
  induction n with
  | zero => rfl
  | succ n ih => rw [memcpy_within, List.length_set, ih]

theorem memcpy_some_length (dst : List Nat) (pos : Nat) (src : List Nat) (n : Nat)
    (b : List Nat) (h : memcpy dst pos src n = some b) : b.length = dst.length := by
  rw [memcpy] at h
  split at h
  · simp only [Option.some.injEq] at h
    rw [← h, memcpy_length]
  · cases h

theorem paint_sx_succ (fb : framebuffer) (c sz bp y x sy n sx : Nat) (buf : List Nat) :
    paint_sx fb c sz bp y x sy (n + 1) sx buf
      = if ((access_at fb c bp y x sy sx).byte_pos + fb.bytes_per_pixel) % ULONG > sz then
          .out_of_bounds buf
        else
          match memcpy buf (access_at fb c bp y x sy sx).byte_pos (glyph_pixel c bp)
              fb.bytes_per_pixel with
          | some b => paint_sx fb c sz bp y x sy n (sx + 1) b
          | none => .undefined := by
  rw [paint_sx]
  rfl

theorem paint_sx_length (fb : framebuffer) (c sz bp y x sy n sx : Nat) (buf : List Nat) :
    (∀ b q, paint_sx fb c sz bp y x sy n sx buf = .done b q → b.length = buf.length) ∧
    (∀ b, paint_sx fb c sz bp y x sy n sx buf = .out_of_bounds b → b.length = buf.length) := by
  induction n generalizing sx buf with
  | zero =>
    constructor
    · intro b q h
      simp only [paint_sx, Paint.done.injEq] at h
      rw [← h.1]
    · intro b h
      simp [paint_sx] at h
  | succ n ih =>
    rw [paint_sx_succ]
    split
    · constructor
      · intro b q h; cases h
      · intro b h
        simp only [Paint.out_of_bounds.injEq] at h
        rw [← h]
    · cases hm : memcpy buf (access_at fb c bp y x sy sx).byte_pos (glyph_pixel c bp)
          fb.bytes_per_pixel with
      | some b1 =>
        have := ih (sx + 1) b1
        rw [memcpy_some_length _ _ _ _ _ hm] at this
        exact this
      | none =>
        constructor
        · intro b q h; cases h
        · intro b h; cases h

theorem paint_sy_length (fb : framebuffer) (c sz bp y x n sy : Nat) (buf : List Nat) :
    (∀ b q, paint_sy fb c sz bp y x n sy buf = .done b q → b.length = buf.length) ∧
    (∀ b, paint_sy fb c sz bp y x n sy buf = .out_of_bounds b → b.length = buf.length) := by
  induction n generalizing sy buf with
  | zero =>
    constructor
    · intro b q h
      simp only [paint_sy, Paint.done.injEq] at h
      rw [← h.1]
    · intro b h
      simp [paint_sy] at h
  | succ n ih =>
    rw [paint_sy]
    have hx := paint_sx_length fb c sz bp y x sy fb.font_scale 0 buf
    generalize paint_sx fb c sz bp y x sy fb.font_scale 0 buf = r at hx
    cases r with
    | done b1 q1 =>
      have h1 := hx.1 b1 q1 rfl
      have := ih (sy + 1) b1
      rw [h1] at this
      exact this
    | out_of_bounds b1 =>
      constructor
      · intro b q h; cases h
      · intro b h
        simp only [Paint.out_of_bounds.injEq] at h
        rw [← h]
        exact hx.2 b1 rfl
    | undefined =>
      constructor
      · intro b q h; cases h
      · intro b h; cases h
    | out_of_fuel =>
      constructor
      · intro b q h; cases h
      · intro b h; cases h

theorem paint_x_length (fb : framebuffer) (c sz sw y fuel x bp : Nat) (buf : List Nat) :
    (∀ b q, paint_x fb c sz sw y fuel x bp buf = .done b q → b.length = buf.length) ∧
    (∀ b, paint_x fb c sz sw y fuel x bp buf = .out_of_bounds b → b.length = buf.length) := by
  induction fuel generalizing x bp buf with
  | zero =>
    constructor
    · intro b q h; simp [paint_x] at h
    · intro b h; simp [paint_x] at h
  | succ fuel ih =>
    rw [paint_x]
    split
    · have hx := paint_sy_length fb c sz bp y x fb.font_scale 0 buf
      generalize paint_sy fb c sz bp y x fb.font_scale 0 buf = r at hx
      cases r with
      | done b1 q1 =>
        have h1 := hx.1 b1 q1 rfl
        have := ih ((x + fb.font_scale) % UINT) (bp + 1) b1
        rw [h1] at this
        exact this
      | out_of_bounds b1 =>
        constructor
        · intro b q h; cases h
        · intro b h
          simp only [Paint.out_of_bounds.injEq] at h
          rw [← h]
          exact hx.2 b1 rfl
      | undefined =>
        constructor
        · intro b q h; cases h
        · intro b h; cases h
      | out_of_fuel =>
        constructor
        · intro b q h; cases h
        · intro b h; cases h
    · constructor
      · intro b q h
        simp only [Paint.done.injEq] at h
        rw [← h.1]
      · intro b h; cases h

theorem paint_y_length (fb : framebuffer) (c sz sh sw fuel y bp : Nat) (buf : List Nat) :
    (∀ b q, paint_y fb c sz sh sw fuel y bp buf = .done b q → b.length = buf.length) ∧
    (∀ b, paint_y fb c sz sh sw fuel y bp buf = .out_of_bounds b → b.length = buf.length) := by
  induction fuel generalizing y bp buf with
  | zero =>
    constructor
    · intro b q h; simp [paint_y] at h
    · intro b h; simp [paint_y] at h
  | succ fuel ih =>
    rw [paint_y]
    split
    · have hx := paint_x_length fb c sz sw y (UINT + 1) 0 bp buf
      generalize paint_x fb c sz sw y (UINT + 1) 0 bp buf = r at hx
      cases r with
      | done b1 q1 =>
        have h1 := hx.1 b1 q1 rfl
        have := ih ((y + fb.font_scale) % UINT) q1 b1
        rw [h1] at this
        exact this
      | out_of_bounds b1 =>
        constructor
        · intro b q h; cases h
        · intro b h
          simp only [Paint.out_of_bounds.injEq] at h
          rw [← h]
          exact hx.2 b1 rfl
      | undefined =>
        constructor
        · intro b q h; cases h
        · intro b h; cases h
      | out_of_fuel =>
        constructor
        · intro b q h; cases h
        · intro b h; cases h
    · constructor
      · intro b q h
        simp only [Paint.done.injEq] at h
        rw [← h.1]
      · intro b h; cases h

/-- A call changes only the buffer contents and the cursor. -/
theorem write_chars_fields (sh sw ch cw sz : Nat) (t : List Nat) (fb fb1 : framebuffer)
    (h : (write_chars sh sw ch cw sz t fb).state = some fb1) :
    fb1.font_scale = fb.font_scale ∧ fb1.width = fb.width ∧ fb1.height = fb.height ∧
    fb1.bytes_per_pixel = fb.bytes_per_pixel ∧ fb1.buf.length = fb.buf.length := by
  induction t generalizing fb with
  | nil =>
    simp only [write_chars, Written.state, Option.some.injEq] at h
    subst h
    exact ⟨rfl, rfl, rfl, rfl, rfl⟩
  | cons c cs ih =>
    rw [write_chars] at h
    by_cases hc : c = 0
    · rw [if_pos hc] at h
      simp only [Written.state, Option.some.injEq] at h
      subst h
      exact ⟨rfl, rfl, rfl, rfl, rfl⟩
    · rw [if_neg hc] at h
      by_cases h10 : c = 10
      · simp only [h10, if_true, true_or] at h
        have := ih _ h
        exact this
      · simp only [h10, if_false, false_or] at h
        split at h
        · rename_i b q hp
          have hl := (paint_y_length _ _ _ _ _ _ _ _ _).1 b q hp
          have := ih _ h
          simp only at this
          refine ⟨?_, ?_, ?_, ?_, ?_⟩
          · rw [this.1]; split <;> split <;> rfl
          · rw [this.2.1]; split <;> split <;> rfl
          · rw [this.2.2.1]; split <;> split <;> rfl
          · rw [this.2.2.2.1]; split <;> split <;> rfl
          · rw [this.2.2.2.2, hl]; split <;> split <;> rfl
        · rename_i b hp
          have hl := (paint_y_length _ _ _ _ _ _ _ _ _).2 b hp
          simp only [Written.state, Option.some.injEq] at h
          subst h
          simp only
          refine ⟨?_, ?_, ?_, ?_, ?_⟩
          · split <;> split <;> rfl
          · split <;> split <;> rfl
          · split <;> split <;> rfl
          · split <;> split <;> rfl
          · rw [hl]; split <;> split <;> rfl
        · simp [Written.state] at h
        · simp [Written.state] at h

/-- One call on a text followed by another is the call on the first text and
then, provided that call ran to its end, the call on the second. -/
theorem framebuffer_write_append (fb : framebuffer) (t1 t2 : List Nat)
    (h0 : ∀ b ∈ t1, b ≠ 0) :
    framebuffer_write fb (t1 ++ t2)
      = match framebuffer_write fb t1 with
        | .finished fb1 => framebuffer_write fb1 t2
        | r => r := by
  rw [framebuffer_write, write_chars_append _ _ _ _ _ t1 t2 fb h0]
  simp only [framebuffer_write]
  generalize hw : write_chars (font_height * fb.font_scale % UINT)
    (font_width * fb.font_scale % UINT) ((font_height * fb.font_scale % UINT + 1) % UINT)
    ((font_width * fb.font_scale % UINT + 1) % UINT)
    (fb.width * fb.height * fb.bytes_per_pixel % ULONG) t1 fb = w
  cases w with
  | finished fb1 =>
    have hf := write_chars_fields _ _ _ _ _ t1 fb fb1 (by rw [hw]; rfl)
    simp only [hf.1, hf.2.1, hf.2.2.1, hf.2.2.2.1]
  | aborted fb1 => rfl
  | undefined => rfl
  | out_of_fuel => rfl

/-! ## One character in a framebuffer that holds a glyph -/

theorem holds_glyph_bounds (fb : framebuffer) (h : fb.holds_glyph) :
    5 * fb.font_scale + 1 < UINT ∧ fb.width + 3 * fb.font_scale + 2 < ULONG ∧
    fb.height + 1 < ULONG := by
  obtain ⟨⟨_, _, hsize⟩, hs1, hw, hh⟩ := h
  have h1 := scale_bound fb.width fb.height fb.font_scale 0 0 hsize (by omega) (by omega)
  have h2 : fb.width * 5 ≤ fb.width * fb.height := Nat.mul_le_mul_left _ (by omega)
  have h3 : 3 * fb.height ≤ fb.width * fb.height := Nat.mul_le_mul_right _ (by omega)
  exact ⟨h1, by omega, by omega⟩

theorem glyph_origin_fits (fb : framebuffer) (h : fb.holds_glyph) :
    (glyph_origin fb).1 + 3 * fb.font_scale ≤ fb.width ∧
    (glyph_origin fb).2 + 5 * fb.font_scale ≤ fb.height := by
  obtain ⟨_, hs1, hw, hh⟩ := h
  simp only [glyph_origin]
  constructor
  · split <;> omega
  · split <;> split <;> omega

/-- One non-newline character in a framebuffer that holds a glyph, when the
cursor arithmetic does not overflow: the glyph is painted with its top-left
corner at `glyph_origin` and the cursor moves one cell to the right of it. -/
theorem write_chars_glyph (fb : framebuffer) (c : Nat) (hfit : fb.holds_glyph)
    (hcx : fb.cur_x + (3 * fb.font_scale + 1) < ULONG)
    (hcy : fb.cur_y + 2 * (5 * fb.font_scale + 1) < ULONG) (hc0 : c ≠ 0) (hc10 : c ≠ 10) :
    ∃ buf1,
      Painted fb.width fb.buf buf1
        (glyph_cells { fb with cur_x := (glyph_origin fb).1, cur_y := (glyph_origin fb).2 } c) ∧
      ∀ cs : List Nat,
      write_chars (5 * fb.font_scale) (3 * fb.font_scale) (5 * fb.font_scale + 1)
          (3 * fb.font_scale + 1) (fb.width * fb.height * 3) (c :: cs) fb
        = write_chars (5 * fb.font_scale) (3 * fb.font_scale) (5 * fb.font_scale + 1)
            (3 * fb.font_scale + 1) (fb.width * fb.height * 3) cs
            { fb with buf := buf1, cur_x := (glyph_origin fb).1 + (3 * fb.font_scale + 1),
                      cur_y := (glyph_origin fb).2 } := by
  obtain ⟨hb1, hb2, hb3⟩ := holds_glyph_bounds fb hfit
  obtain ⟨hf1, hf2⟩ := glyph_origin_fits fb hfit
  obtain ⟨⟨hbpp, hlen, hsize⟩, hs1, hw, hh⟩ := hfit
  obtain ⟨buf1, h1, p1⟩ := paint_y_spec
    { fb with cur_x := (glyph_origin fb).1, cur_y := (glyph_origin fb).2 } c hbpp hsize hs1
    (by simp only; omega) hf1 hf2 (UINT + 1) (by decide) fb.buf hlen
  refine ⟨buf1, p1, ?_⟩
  intro cs
  have e6 : (fb.cur_x + (3 * fb.font_scale + 1)) % ULONG = fb.cur_x + (3 * fb.font_scale + 1) :=
    Nat.mod_eq_of_lt hcx
  have e7 : (fb.cur_y + (5 * fb.font_scale + 1)) % ULONG = fb.cur_y + (5 * fb.font_scale + 1) :=
    Nat.mod_eq_of_lt (by omega)
  have e7' : (fb.cur_y + (5 * fb.font_scale + 1) + (5 * fb.font_scale + 1)) % ULONG
      = fb.cur_y + (5 * fb.font_scale + 1) + (5 * fb.font_scale + 1) :=
    Nat.mod_eq_of_lt (by omega)
  have e8 : (fb.width + 1) % ULONG = fb.width + 1 := Nat.mod_eq_of_lt (by omega)
  have e9 : (fb.height + 1) % ULONG = fb.height + 1 := Nat.mod_eq_of_lt hb3
  have e10 : (0 + (3 * fb.font_scale + 1)) % ULONG = 0 + (3 * fb.font_scale + 1) :=
    Nat.mod_eq_of_lt (by omega)
  simp only at h1
  by_cases hwrap : fb.cur_x + (3 * fb.font_scale + 1) ≤ fb.width + 1
  · have n1 : ¬ (fb.cur_x + (3 * fb.font_scale + 1) > fb.width + 1) := by omega
    by_cases hv : fb.cur_y + (5 * fb.font_scale + 1) ≤ fb.height + 1
    · have n2 : ¬ (fb.cur_y + (5 * fb.font_scale + 1) > fb.height + 1) := by omega
      have g : glyph_origin fb = (fb.cur_x, fb.cur_y) := by
        simp only [glyph_origin, hwrap, hv, if_true]
      rw [g] at h1 ⊢
      simp only [write_chars, hc0, hc10, if_false, false_or, e6, e7, e8, e9, n1, n2, h1]
    · have n2 : fb.cur_y + (5 * fb.font_scale + 1) > fb.height + 1 := by omega
      have g : glyph_origin fb = (fb.cur_x, 0) := by
        simp only [glyph_origin, hwrap, hv, if_true, if_false]
      rw [g] at h1 ⊢
      simp only [write_chars, hc0, hc10, if_false, false_or, e6, e7, e8, e9, n1, n2, if_true,
        h1]
  · have n1 : fb.cur_x + (3 * fb.font_scale + 1) > fb.width + 1 := by omega
    by_cases hv : fb.cur_y + (5 * fb.font_scale + 1) + (5 * fb.font_scale + 1) ≤ fb.height + 1
    · have n2 : ¬ (fb.cur_y + (5 * fb.font_scale + 1) + (5 * fb.font_scale + 1)
          > fb.height + 1) := by omega
      have g : glyph_origin fb = (0, fb.cur_y + (5 * fb.font_scale + 1)) := by
        simp only [glyph_origin, hwrap, hv, if_true, if_false]
      rw [g] at h1 ⊢
      simp only [write_chars, hc0, hc10, if_false, false_or, e6, e7, e7', e8, e9, e10, n1, n2,
        if_true, or_true, h1]
    · have n2 : fb.cur_y + (5 * fb.font_scale + 1) + (5 * fb.font_scale + 1)
          > fb.height + 1 := by omega
      have g : glyph_origin fb = (0, 0) := by
        simp only [glyph_origin, hwrap, hv, if_true, if_false]
      rw [g] at h1 ⊢
      simp only [write_chars, hc0, hc10, if_false, false_or, e6, e7, e7', e8, e9, e10, n1, n2,
        if_true, or_true, h1]

/-- The parameters that `framebuffer_write` computes, in a framebuffer that
holds a glyph. -/
theorem framebuffer_write_eq (fb : framebuffer) (text : List Nat) (hfit : fb.holds_glyph) :
    framebuffer_write fb text
      = write_chars (5 * fb.font_scale) (3 * fb.font_scale) (5 * fb.font_scale + 1)
          (3 * fb.font_scale + 1) (fb.width * fb.height * 3) text fb := by
  obtain ⟨hb1, _, _⟩ := holds_glyph_bounds fb hfit
  obtain ⟨⟨hbpp, _, hsize⟩, _, _, _⟩ := hfit
  have e1 : font_height * fb.font_scale % UINT = 5 * fb.font_scale :=
    Nat.mod_eq_of_lt (by simp only [font_height]; omega)
  have e2 : font_width * fb.font_scale % UINT = 3 * fb.font_scale :=
    Nat.mod_eq_of_lt (by simp only [font_width]; omega)
  have e3 : (5 * fb.font_scale + 1) % UINT = 5 * fb.font_scale + 1 := Nat.mod_eq_of_lt hb1
  have e4 : (3 * fb.font_scale + 1) % UINT = 3 * fb.font_scale + 1 :=
    Nat.mod_eq_of_lt (by omega)
  have e5 : fb.width * fb.height * fb.bytes_per_pixel % ULONG = fb.width * fb.height * 3 := by
    rw [hbpp]; exact Nat.mod_eq_of_lt hsize
  simp only [framebuffer_write, e1, e2, e3, e4, e5]

/-- What a painted glyph means cell by cell: inside the glyph rectangle a cell
holds `#` or a space according to its bit of the entry of `c`, outside it the
cell is unchanged. -/
theorem painted_glyph_cells (fb : framebuffer) (c : Nat) (buf buf1 : List Nat)
    (hs1 : 1 ≤ fb.font_scale) (hx : fb.cur_x + 3 * fb.font_scale ≤ fb.width)
    (p : Painted fb.width buf buf1 (glyph_cells fb c)) :
    buf1.length = buf.length ∧
    (∀ i j k, i < 3 * fb.font_scale → j < 5 * fb.font_scale → k < 3 →
      buf1.getD (fb.width * 3 * (fb.cur_y + j) + (fb.cur_x + i) * 3 + k) 0
        = if (default_font.getD (c * 2 + (j / fb.font_scale * 3 + i / fb.font_scale) / 8)
              0).testBit ((j / fb.font_scale * 3 + i / fb.font_scale) % 8) = true
          then 35 else 32) ∧
    (∀ X Y k, X < fb.width → k < 3 →
      ¬ (fb.cur_x ≤ X ∧ X < fb.cur_x + 3 * fb.font_scale ∧
          fb.cur_y ≤ Y ∧ Y < fb.cur_y + 5 * fb.font_scale) →
      buf1.getD (fb.width * 3 * Y + X * 3 + k) 0 = buf.getD (fb.width * 3 * Y + X * 3 + k) 0) := by
  refine ⟨p.1, ?_, ?_⟩
  · intro i j k hi hj hk
    rw [p.2 (fb.cur_x + i) (fb.cur_y + j) k (by omega) hk,
      glyph_cells_inside fb c i j hs1 hi hj]
    exact glyph_pixel_getD c _ k hk
  · intro X Y k hX hk hout
    rw [p.2 X Y k hX hk, glyph_cells_outside fb c X Y hout]

theorem glyph_origin_le (fb : framebuffer) :
    (glyph_origin fb).2 ≤ fb.cur_y + (5 * fb.font_scale + 1) := by
  simp only [glyph_origin]
  split <;> split <;> omega

/-- In a framebuffer that holds a glyph, and as long as the cursor arithmetic
does not overflow, the "Bug-guard" never fires: every text is processed to its
end, and the framebuffer still holds a glyph afterwards. -/
theorem write_chars_finishes (s W H : Nat) (text : List Nat) (fb : framebuffer)
    (hfit : fb.holds_glyph) (hs : fb.font_scale = s) (hW : fb.width = W) (hH : fb.height = H)
    (hcx : fb.cur_x + (3 * s + 1) < ULONG)
    (hcy : fb.cur_y + (text.length + 1) * (5 * s + 1) < ULONG) :
    ∃ fb1, write_chars (5 * s) (3 * s) (5 * s + 1) (3 * s + 1) (W * H * 3) text fb
        = .finished fb1 ∧ fb1.holds_glyph := by
  induction text generalizing fb with
  | nil => exact ⟨fb, rfl, hfit⟩
  | cons c cs ih =>
    have hK : (List.length (c :: cs) + 1) * (5 * s + 1)
        = (cs.length + 1) * (5 * s + 1) + (5 * s + 1) := by
      rw [List.length_cons]; ring
    rw [hK] at hcy
    have hpos : 5 * s + 1 ≤ (cs.length + 1) * (5 * s + 1) := Nat.le_mul_of_pos_left _ (by omega)
    generalize (cs.length + 1) * (5 * s + 1) = K at hcy hpos ih
    by_cases hc0 : c = 0
    · exact ⟨fb, by rw [write_chars, if_pos hc0], hfit⟩
    · by_cases hc10 : c = 10
      · have e7 : (fb.cur_y + (5 * s + 1)) % ULONG = fb.cur_y + (5 * s + 1) :=
          Nat.mod_eq_of_lt (by omega)
        obtain ⟨fb1, h1, h2⟩ := ih
          { fb with cur_x := 0, cur_y := fb.cur_y + (5 * s + 1) } hfit hs hW hH
          (by simp only; omega) (by simp only; omega)
        refine ⟨fb1, ?_, h2⟩
        rw [write_chars, if_neg hc0]
        simp only [hc10, true_or, if_true, e7]
        exact h1
      · subst hs hW hH
        obtain ⟨hb1, hb2, hb3⟩ := holds_glyph_bounds fb hfit
        obtain ⟨hf1, hf2⟩ := glyph_origin_fits fb hfit
        have hle := glyph_origin_le fb
        obtain ⟨buf1, p1, hstep⟩ := write_chars_glyph fb c hfit hcx (by omega) hc0 hc10
        obtain ⟨fb1, h1, h2⟩ := ih
          { fb with buf := buf1, cur_x := (glyph_origin fb).1 + (3 * fb.font_scale + 1),
                    cur_y := (glyph_origin fb).2 }
          ⟨⟨hfit.1.1, by simp only; rw [p1.1]; exact hfit.1.2.1, hfit.1.2.2⟩, hfit.2⟩
          rfl rfl rfl (by simp only; omega) (by simp only; omega)
        exact ⟨fb1, by rw [hstep cs]; exact h1, h2⟩

/-- One non-newline character in a framebuffer that holds a glyph. -/
theorem framebuffer_write_single (fb : framebuffer) (c : Nat) (hfit : fb.holds_glyph)
    (hcx : fb.cur_x + (3 * fb.font_scale + 1) < ULONG)
    (hcy : fb.cur_y + 2 * (5 * fb.font_scale + 1) < ULONG) (hc0 : c ≠ 0) (hc10 : c ≠ 10) :
    ∃ buf1,
      Painted fb.width fb.buf buf1
        (glyph_cells { fb with cur_x := (glyph_origin fb).1, cur_y := (glyph_origin fb).2 } c) ∧
      framebuffer_write fb [c]
        = .finished { fb with buf := buf1,
                              cur_x := (glyph_origin fb).1 + (3 * fb.font_scale + 1),
                              cur_y := (glyph_origin fb).2 } := by
  obtain ⟨buf1, p1, h1⟩ := write_chars_glyph fb c hfit hcx hcy hc0 hc10
  exact ⟨buf1, p1, by rw [framebuffer_write_eq fb [c] hfit, h1 [], write_chars]⟩

/-! ## C15: cursor advance -/

/-- C15, counterexample: `fb_low` has scale 1, cursor (0, 0), width 4 and the
positive height 4, but rendering the one-character text `A` leaves `cur_x` at 0:
the fifth row of the glyph is out of bounds and `framebuffer_write` returns at
the "Bug-guard" before the cursor is advanced. -/
theorem framebuffer_write_cursor_advance_counterexample :
    fb_low.allocated ∧ fb_low.font_scale = 1 ∧ fb_low.cur_x = 0 ∧ fb_low.cur_y = 0 ∧
    4 ≤ fb_low.width ∧ 0 < fb_low.height ∧
    (framebuffer_write fb_low [65]).state.map (fun f => (f.cur_x, f.cur_y)) = some (0, 0) := by
  decide

/-- C15, amended: for every allocated framebuffer with scale 1, cursor (0, 0),
width at least 4 (one cell width) and height at least 5 (one glyph height),
rendering a text of one non-newline character runs to its end and leaves
`cur_x = 4` and `cur_y = 0`. -/
theorem framebuffer_write_cursor_advance (fb : framebuffer) (c : Nat) (halloc : fb.allocated)
    (hs : fb.font_scale = 1) (hx : fb.cur_x = 0) (hy : fb.cur_y = 0) (hW : 4 ≤ fb.width)
    (hH : 5 ≤ fb.height) (hc0 : c ≠ 0) (hc10 : c ≠ 10) :
    ∃ fb1, framebuffer_write fb [c] = .finished fb1 ∧ fb1.cur_x = 4 ∧ fb1.cur_y = 0 := by
  have hfit : fb.holds_glyph := ⟨halloc, by omega, by omega, by omega⟩
  obtain ⟨buf1, _, h1⟩ := framebuffer_write_single fb c hfit
    (by rw [hx, hs]; decide) (by rw [hy, hs]; decide) hc0 hc10
  have g : glyph_origin fb = (0, 0) := by
    simp only [glyph_origin, hx, hy, hs]
    split_ifs <;> first | rfl | (exfalso; omega)
  rw [g] at h1
  exact ⟨_, h1, by simp only [hs], rfl⟩

/-- The theorem `framebuffer_write_cursor_advance` at `fb_cell` and the code of
`A`. -/
theorem framebuffer_write_cursor_advance_witness :
    fb_cell.allocated ∧ fb_cell.font_scale = 1 ∧ fb_cell.cur_x = 0 ∧ fb_cell.cur_y = 0 ∧
    4 ≤ fb_cell.width ∧ 5 ≤ fb_cell.height ∧ (65 : Nat) ≠ 0 ∧ (65 : Nat) ≠ 10 ∧
    ∃ fb1, framebuffer_write fb_cell [65] = .finished fb1 ∧ fb1.cur_x = 4 ∧ fb1.cur_y = 0 :=
  ⟨by decide, by decide, by decide, by decide, by decide, by decide, by decide, by decide,
    framebuffer_write_cursor_advance fb_cell 65 (by decide) (by decide) (by decide) (by decide)
      (by decide) (by decide) (by decide) (by decide)⟩

/-! ## C16: horizontal wrap -/

/-- C16, counterexample: in `fb_cell` (scale 1, width 4 = one cell width,
positive height 6, cursor (0, 0)) rendering the two-character text `AB` leaves
the cursor at (4, 0): after the horizontal wrap `cur_y + char_height` exceeds
`height + 1`, so the vertical wrap puts the second glyph at (0, 0), not at
(0, 6). -/
theorem framebuffer_write_horizontal_wrap_counterexample :
    fb_cell.allocated ∧ 1 ≤ fb_cell.font_scale ∧ fb_cell.width = 3 * fb_cell.font_scale + 1 ∧
    0 < fb_cell.height ∧ fb_cell.cur_x = 0 ∧ fb_cell.cur_y = 0 ∧
    (framebuffer_write fb_cell [65, 66]).state.map (fun f => (f.cur_x, f.cur_y)) = some (4, 0) ∧
    framebuffer_write fb_cell [65, 66] = framebuffer_write fb_cell [66] := by
  decide

/-- C16, amended: for every scale `s ≥ 1` and every height of at least `5 s`
(one glyph height), in an allocated framebuffer whose width is exactly one cell
width `3 s + 1` and whose cursor starts at (0, 0), rendering a text of two
non-newline characters paints the second glyph with its top-left corner at
`cur_x = 0` and `cur_y = y0`, where `y0` is `cell_h = 5 s + 1` when the height
is at least `10 s + 1` and 0 (vertical wrap) otherwise; the cursor ends at
`(3 s + 1, y0)`. -/
theorem framebuffer_write_horizontal_wrap (fb : framebuffer) (c1 c2 : Nat)
    (halloc : fb.allocated) (hs1 : 1 ≤ fb.font_scale)
    (hW : fb.width = 3 * fb.font_scale + 1) (hH : 5 * fb.font_scale ≤ fb.height)
    (hx : fb.cur_x = 0) (hy : fb.cur_y = 0)
    (h10 : c1 ≠ 0) (h11 : c1 ≠ 10) (h20 : c2 ≠ 0) (h21 : c2 ≠ 10) :
    ∃ buf1 buf2 y0,
      y0 = (if 10 * fb.font_scale + 1 ≤ fb.height then 5 * fb.font_scale + 1 else 0) ∧
      framebuffer_write fb [c1]
        = .finished { fb with buf := buf1, cur_x := 3 * fb.font_scale + 1, cur_y := 0 } ∧
      framebuffer_write fb [c1, c2]
        = .finished { fb with buf := buf2, cur_x := 3 * fb.font_scale + 1, cur_y := y0 } ∧
      (∀ i j k, i < 3 * fb.font_scale → j < 5 * fb.font_scale → k < 3 →
        buf2.getD (fb.width * 3 * (y0 + j) + i * 3 + k) 0
          = if (default_font.getD (c2 * 2 + (j / fb.font_scale * 3 + i / fb.font_scale) / 8)
                0).testBit ((j / fb.font_scale * 3 + i / fb.font_scale) % 8) = true
            then 35 else 32) ∧
      (∀ X Y k, X < fb.width → k < 3 →
        ¬ (X < 3 * fb.font_scale ∧ y0 ≤ Y ∧ Y < y0 + 5 * fb.font_scale) →
        buf2.getD (fb.width * 3 * Y + X * 3 + k) 0
          = buf1.getD (fb.width * 3 * Y + X * 3 + k) 0) := by
  have hfit : fb.holds_glyph := ⟨halloc, hs1, by omega, hH⟩
  obtain ⟨hb1, hb2, hb3⟩ := holds_glyph_bounds fb hfit
  have hU : 10 * fb.font_scale + 2 < ULONG := by
    simp only [UINT, ULONG] at hb1 ⊢; omega
  have g1 : glyph_origin fb = (0, 0) := by
    simp only [glyph_origin, hx, hy, hW]
    split_ifs <;> first | rfl | (exfalso; omega)
  obtain ⟨buf1, p1, hw1⟩ := write_chars_glyph fb c1 hfit (by omega) (by omega) h10 h11
  rw [g1] at hw1 p1
  have hfit2 : ({ fb with buf := buf1, cur_x := 0 + (3 * fb.font_scale + 1), cur_y := 0 } :
      framebuffer).holds_glyph :=
    ⟨⟨halloc.1, by simp only; rw [p1.1]; exact halloc.2.1, halloc.2.2⟩, hs1, by simp only; omega,
      hH⟩
  have g2 : glyph_origin
        { fb with buf := buf1, cur_x := 0 + (3 * fb.font_scale + 1), cur_y := 0 }
      = (0, if 10 * fb.font_scale + 1 ≤ fb.height then 5 * fb.font_scale + 1 else 0) := by
    simp only [glyph_origin, hW, Nat.zero_add]
    split_ifs <;> first | rfl | (exfalso; omega)
  obtain ⟨buf2, p2, hw2⟩ := write_chars_glyph
    { fb with buf := buf1, cur_x := 0 + (3 * fb.font_scale + 1), cur_y := 0 } c2 hfit2
    (by simp only; omega) (by simp only; omega) h20 h21
  rw [g2] at hw2 p2
  simp only at hw2 p2
  obtain ⟨-, q1, q2⟩ := painted_glyph_cells
    { fb with buf := buf1, cur_x := 0,
              cur_y := if 10 * fb.font_scale + 1 ≤ fb.height then 5 * fb.font_scale + 1 else 0 }
    c2 buf1 buf2 hs1 (by simp only; omega) p2
  simp only at q1 q2
  refine ⟨buf1, buf2, _, rfl, ?_, ?_, ?_, ?_⟩
  · rw [framebuffer_write_eq fb [c1] hfit, hw1 [], write_chars]
    simp only [Nat.zero_add]
  · rw [framebuffer_write_eq fb [c1, c2] hfit, hw1 [c2], hw2 [], write_chars]
    simp only [Nat.zero_add]
  · intro i j k hi hj hk
    have := q1 i j k hi hj hk
    simpa only [Nat.zero_add] using this
  · intro X Y k hX hk hout
    exact q2 X Y k hX hk (by omega)

theorem fb_two_rows_allocated : fb_two_rows.allocated :=
  ⟨rfl, List.length_replicate _ _, by decide⟩

/-- The theorem `framebuffer_write_horizontal_wrap` at `fb_two_rows` and the
text `AB`: the second glyph goes to (0, 6). -/
theorem framebuffer_write_horizontal_wrap_witness :
    fb_two_rows.allocated ∧ 1 ≤ fb_two_rows.font_scale ∧
    fb_two_rows.width = 3 * fb_two_rows.font_scale + 1 ∧
    5 * fb_two_rows.font_scale ≤ fb_two_rows.height ∧
    fb_two_rows.cur_x = 0 ∧ fb_two_rows.cur_y = 0 ∧
    (65 : Nat) ≠ 0 ∧ (65 : Nat) ≠ 10 ∧ (66 : Nat) ≠ 0 ∧ (66 : Nat) ≠ 10 ∧
    ∃ buf2, framebuffer_write fb_two_rows [65, 66]
      = .finished { fb_two_rows with buf := buf2, cur_x := 4, cur_y := 6 } :=
  ⟨fb_two_rows_allocated, by decide, by decide, by decide, by decide, by decide, by decide,
    by decide, by decide, by decide,
    match framebuffer_write_horizontal_wrap fb_two_rows 65 66 fb_two_rows_allocated (by decide)
      (by decide) (by decide) (by decide) (by decide) (by decide) (by decide) (by decide)
      (by decide) with
    | ⟨_, buf2, _, hy0, _, h2, _⟩ => ⟨buf2, by rw [h2, hy0]; rfl⟩⟩


/-! ## C19: streaming -/

theorem fb_far_holds_glyph : fb_far.holds_glyph :=
  ⟨⟨rfl, List.length_replicate _ _, by decide⟩, by decide, by decide, by decide⟩

/-- C19, counterexample: `fb_far` has scale 1, width 3 and height 5, and its
`cur_y` is so large that `cur_y + char_height` wraps around to 0.  One call
with the text `"A\nB"` returns at the "Bug-guard" at the `A` and leaves the
framebuffer untouched, whereas a call with `A` followed by a call with `"\nB"`
paints the `B` at (0, 0) and leaves the cursor at (4, 0). -/
theorem framebuffer_write_streaming_counterexample :
    1 ≤ fb_far.font_scale ∧ 3 * fb_far.font_scale ≤ fb_far.width ∧
    5 * fb_far.font_scale ≤ fb_far.height ∧
    write_after (framebuffer_write fb_far [65]) [10, 66]
      ≠ framebuffer_write fb_far ([65] ++ [10, 66]) ∧
    framebuffer_write fb_far ([65] ++ [10, 66]) = .aborted fb_far ∧
    (write_after (framebuffer_write fb_far [65]) [10, 66]).state.map
      (fun f => (f.cur_x, f.cur_y)) = some (4, 0) := by
  decide

/-- C19, amended: for every allocated framebuffer with scale `s ≥ 1`, width
`≥ 3 s` and height `≥ 5 s` whose cursor is small enough that no cursor
arithmetic overflows while the first text is rendered
(`cur_x + cell_w` and `cur_y + (length t1 + 1) * cell_h` below `ULONG_MAX + 1`),
and for every two texts `t1` (a C string: without NUL byte) and `t2`, calling
`framebuffer_write` with `t1` and then with `t2` leaves the framebuffer in
exactly the same state as one call with `t1 ++ t2`; the first call processes
`t1` to its end. -/
theorem framebuffer_write_streaming (fb : framebuffer) (t1 t2 : List Nat)
    (hfit : fb.holds_glyph) (h0 : ∀ b ∈ t1, b ≠ 0)
    (hcx : fb.cur_x + (3 * fb.font_scale + 1) < ULONG)
    (hcy : fb.cur_y + (t1.length + 1) * (5 * fb.font_scale + 1) < ULONG) :
    (∃ fb1, framebuffer_write fb t1 = .finished fb1) ∧
    write_after (framebuffer_write fb t1) t2 = framebuffer_write fb (t1 ++ t2) := by
  obtain ⟨fb1, h1, -⟩ := write_chars_finishes fb.font_scale fb.width fb.height t1 fb hfit
    rfl rfl rfl hcx hcy
  rw [← framebuffer_write_eq fb t1 hfit] at h1
  refine ⟨⟨fb1, h1⟩, ?_⟩
  rw [framebuffer_write_append fb t1 t2 h0, h1]
  rfl

/-- The theorem `framebuffer_write_streaming` at `fb_example` and the texts
`Hi` and `"\n!"`. -/
theorem framebuffer_write_streaming_witness :
    fb_example.holds_glyph ∧ (∀ b ∈ [72, 105], b ≠ 0) ∧
    fb_example.cur_x + (3 * fb_example.font_scale + 1) < ULONG ∧
    fb_example.cur_y + ([72, 105].length + 1) * (5 * fb_example.font_scale + 1) < ULONG ∧
    write_after (framebuffer_write fb_example [72, 105]) [10, 33]
      = framebuffer_write fb_example ([72, 105] ++ [10, 33]) :=
  ⟨⟨⟨rfl, List.length_replicate (7 * 11 * 3) 32, by decide⟩, by decide, by decide, by decide⟩,
    by decide, by decide, by decide,
    (framebuffer_write_streaming fb_example [72, 105] [10, 33]
      ⟨⟨rfl, List.length_replicate (7 * 11 * 3) 32, by decide⟩, by decide, by decide, by decide⟩
      (by decide) (by decide) (by decide)).2⟩

/-! ## C20: wrap policy and advance -/

/-- C20, counterexample: in `fb_far` (scale 1, width 3, height 5) the cursor is
`(0, ULONG_MAX - 5)`.  By the rule of the claim, `cur_x + cell_w ≤ width + 1`
and `cur_y + cell_h > height + 1`, so the glyph of `A` would be painted at
(0, 0) and the cursor would end at (4, 0); in the code `cur_y + char_height`
wraps around to 0, no vertical wrap takes place, and the call returns at the
"Bug-guard" with nothing painted and the cursor not moved. -/
theorem framebuffer_write_wrap_policy_counterexample :
    1 ≤ fb_far.font_scale ∧ 3 * fb_far.font_scale ≤ fb_far.width ∧
    5 * fb_far.font_scale ≤ fb_far.height ∧ (65 : Nat) ≠ 10 ∧
    glyph_origin fb_far = (0, 0) ∧
    framebuffer_write fb_far [65] = .aborted fb_far ∧
    (framebuffer_write fb_far [65]).state.map (fun f => (f.cur_x, f.cur_y))
      ≠ some ((glyph_origin fb_far).1 + (3 * fb_far.font_scale + 1), (glyph_origin fb_far).2) := by
  decide

/-- C20, amended: for every allocated framebuffer with scale `s ≥ 1`, width
`≥ 3 s`, height `≥ 5 s` (`cell_w = 3 s + 1`, `cell_h = 5 s + 1`), any cursor
`(cur_x, cur_y)` with `cur_x + cell_w` and `cur_y + 2 * cell_h` below
`ULONG_MAX + 1` (no overflow in the cursor arithmetic) and any non-newline
character `c`, `framebuffer_write` paints the glyph with top-left corner
`(x0, y0) = glyph_origin fb`, that is `(x0, y1) = (cur_x, cur_y)` if
`cur_x + cell_w ≤ width + 1` and `(0, cur_y + cell_h)` otherwise, and `y0 = y1`
if `y1 + cell_h ≤ height + 1` and 0 otherwise; afterwards the cursor is
`(x0 + cell_w, y0)`.  No scrolling is performed: only the cells of the new
glyph are overwritten, every other cell keeps its bytes. -/
theorem framebuffer_write_wrap_policy (fb : framebuffer) (c x0 y0 : Nat)
    (hfit : fb.holds_glyph)
    (hcx : fb.cur_x + (3 * fb.font_scale + 1) < ULONG)
    (hcy : fb.cur_y + 2 * (5 * fb.font_scale + 1) < ULONG) (hc0 : c ≠ 0) (hc10 : c ≠ 10)
    (hx0 : x0 = if fb.cur_x + (3 * fb.font_scale + 1) ≤ fb.width + 1 then fb.cur_x else 0)
    (hy0 : y0 =
      if (if fb.cur_x + (3 * fb.font_scale + 1) ≤ fb.width + 1 then fb.cur_y
          else fb.cur_y + (5 * fb.font_scale + 1)) + (5 * fb.font_scale + 1) ≤ fb.height + 1
      then (if fb.cur_x + (3 * fb.font_scale + 1) ≤ fb.width + 1 then fb.cur_y
          else fb.cur_y + (5 * fb.font_scale + 1))
      else 0) :
    ∃ buf1,
      framebuffer_write fb [c]
        = .finished { fb with buf := buf1, cur_x := x0 + (3 * fb.font_scale + 1), cur_y := y0 } ∧
      buf1.length = fb.buf.length ∧
      x0 + 3 * fb.font_scale ≤ fb.width ∧ y0 + 5 * fb.font_scale ≤ fb.height ∧
      (∀ i j k, i < 3 * fb.font_scale → j < 5 * fb.font_scale → k < 3 →
        buf1.getD (fb.width * 3 * (y0 + j) + (x0 + i) * 3 + k) 0
          = if (default_font.getD (c * 2 + (j / fb.font_scale * 3 + i / fb.font_scale) / 8)
                0).testBit ((j / fb.font_scale * 3 + i / fb.font_scale) % 8) = true
            then 35 else 32) ∧
      (∀ X Y k, X < fb.width → k < 3 →
        ¬ (x0 ≤ X ∧ X < x0 + 3 * fb.font_scale ∧ y0 ≤ Y ∧ Y < y0 + 5 * fb.font_scale) →
        buf1.getD (fb.width * 3 * Y + X * 3 + k) 0
          = fb.buf.getD (fb.width * 3 * Y + X * 3 + k) 0) := by
  have hg : glyph_origin fb = (x0, y0) := by
    rw [hx0, hy0]; rfl
  obtain ⟨hf1, hf2⟩ := glyph_origin_fits fb hfit
  obtain ⟨buf1, p1, h1⟩ := framebuffer_write_single fb c hfit hcx hcy hc0 hc10
  rw [hg] at hf1 hf2 p1 h1
  simp only at hf1 hf2 p1 h1
  obtain ⟨q0, q1, q2⟩ := painted_glyph_cells { fb with cur_x := x0, cur_y := y0 } c fb.buf buf1
    hfit.2.1 hf1 p1
  exact ⟨buf1, h1, q0, hf1, hf2, q1, q2⟩

theorem fb_at_end_holds_glyph : fb_at_end.holds_glyph :=
  ⟨⟨rfl, List.length_replicate (7 * 11 * 3) 32, by decide⟩, by decide, by decide, by decide⟩

/-- The theorem `framebuffer_write_wrap_policy` at `fb_at_end` and the
character `A`: the glyph wraps to (0, 0) and the cursor ends at (7, 0). -/
theorem framebuffer_write_wrap_policy_witness :
    fb_at_end.holds_glyph ∧
    fb_at_end.cur_x + (3 * fb_at_end.font_scale + 1) < ULONG ∧
    fb_at_end.cur_y + 2 * (5 * fb_at_end.font_scale + 1) < ULONG ∧
    (65 : Nat) ≠ 0 ∧ (65 : Nat) ≠ 10 ∧
    ∃ buf1, framebuffer_write fb_at_end [65]
      = .finished { fb_at_end with buf := buf1, cur_x := 0 + (3 * fb_at_end.font_scale + 1),
                                   cur_y := 0 } :=
  ⟨fb_at_end_holds_glyph, by decide, by decide, by decide, by decide,
    match framebuffer_write_wrap_policy fb_at_end 65 0 0 fb_at_end_holds_glyph (by decide)
      (by decide) (by decide) (by decide) (by decide) (by decide) with
    | ⟨buf1, h, _⟩ => ⟨buf1, h⟩⟩

/-! ## C11: validation of header lines -/

theorem fgets_read_take (l : List Nat) (hl : ∀ b ∈ l, b ≠ 10) (n : Nat) (rest : List Nat)
    (h : n ≤ l.length ∨ rest = []) : (fgets_read n (l ++ rest)).1 = l.take n := by
  induction l generalizing n with
  | nil =>
    cases n with
    | zero => cases rest <;> rfl
    | succ n =>
      rcases h with h | h
      · simp at h
      · subst h; rfl
  | cons a l ih =>
    cases n with
    | zero => rfl
    | succ n =>
      have ha : a ≠ 10 := hl a (by simp)
      have := ih (fun b hb => hl b (by simp [hb])) n
        (h.imp (fun h => by simpa using h) id)
      simp [fgets_read, ha, this]

theorem fgets_some (f : FILE) (h : (fgets_read max_font_file_line_len f.rest).1 ≠ []) :
    fgets (max_font_file_line_len + 1) f
      = (some (fgets_read max_font_file_line_len f.rest).1,
          ⟨(fgets_read max_font_file_line_len f.rest).2.1,
            f.eof || (fgets_read max_font_file_line_len f.rest).2.2⟩) := by
  simp only [fgets, Nat.add_sub_cancel]
  rw [if_neg (fun hc => h hc.1)]

theorem strchr_no_newline (l : List Nat) (hl : ∀ b ∈ l, b ≠ 10) : strchr l 10 = none := by
  induction l with
  | nil => simp [strchr]
  | cons a l ih =>
    have ha : a ≠ 10 := hl a (by simp)
    have := ih (fun b hb => hl b (by simp [hb]))
    simp [strchr, ha, this]

/-- A header line without newline within the 11 bytes that `fgets` reads, or
before the end of the input. -/
theorem pack_lines_no_newline (l rest : List Nat) (hl : ∀ b ∈ l, b ≠ 10) (hne : l ≠ [])
    (h : max_font_file_line_len ≤ l.length ∨ rest = []) (fuel line : Nat) (t : List Nat)
    (hline : line < max_font_file_lines) :
    pack_lines (fuel + 1) line ⟨l ++ rest, false⟩ t = .fatal (.expected_char_newline line) := by
  have hr := fgets_read_take l hl max_font_file_line_len rest h
  have hne2 : l.take max_font_file_line_len ≠ [] := by
    cases l with
    | nil => exact absurd rfl hne
    | cons a l => simp [max_font_file_line_len]
  have hf := fgets_some ⟨l ++ rest, false⟩ (by rw [hr]; exact hne2)
  have hs : strchr (l.take max_font_file_line_len) 10 = none :=
    strchr_no_newline _ (fun b hb => hl b (List.mem_of_mem_take hb))
  rw [pack_lines, if_pos hline, hf]
  simp only [hr, hs]

/-- A header line that is only a newline. -/
theorem pack_lines_empty_header (rest : List Nat) (fuel line : Nat) (t : List Nat)
    (hline : line < max_font_file_lines) :
    pack_lines (fuel + 1) line ⟨10 :: rest, false⟩ t = .fatal (.expected_char_newline line) := by
  have hf := fgets_line [] rest false (by simp) (by simp [max_font_file_line_len])
  simp only [List.nil_append] at hf
  rw [pack_lines, if_pos hline, hf]
  simp [strchr]

/-- A header line whose byte before the newline is not printable. -/
theorem pack_lines_unprintable (text : List Nat) (code : Nat) (rest : List Nat)
    (fuel line : Nat) (t : List Nat) (hlen : text.length + 2 ≤ max_font_file_line_len)
    (htext : ∀ b ∈ text ++ [code], b ≠ 10 ∧ b ≠ 0) (hcode : isprint code = false)
    (hline : line < max_font_file_lines) :
    pack_lines (fuel + 1) line ⟨text ++ [code, 10] ++ rest, false⟩ t
      = .fatal (.expected_printable line) := by
  have henc : text ++ [code, 10] ++ rest = (text ++ [code]) ++ 10 :: rest := by simp
  have hf := fgets_line (text ++ [code]) rest false
    (fun b hb => (htext b hb).1) (by simp only [max_font_file_line_len] at hlen ⊢; simp; omega)
  have hs := strchr_line (text ++ [code]) htext
  have hget : (text ++ [code] ++ [10]).getD text.length 0 = code := by
    rw [List.append_assoc]
    exact getD_append_length text code [10]
  rw [henc, pack_lines, if_pos hline, hf]
  simp only [hs, List.length_append, List.length_singleton, hget, hcode, Bool.not_false,
    if_true]

theorem list_nil_or_snoc (l : List Nat) : l = [] ∨ ∃ L b, l = L ++ [b] := by
  by_cases hne : l = []
  · exact Or.inl hne
  · exact Or.inr ⟨l.dropLast, l.getLast hne, (List.dropLast_append_getLast hne).symm⟩

theorem pack_font_after_limit (rest : List Nat) :
    (pack_font (stream (List.replicate 95 group_A) ++ rest)).is_ok = true := by
  rw [pack_font, pack_table_limit (List.replicate 95 group_A)
    (fun g hg => by rw [List.eq_of_mem_replicate hg]; decide) (List.length_replicate _ _) rest]
  rfl

/-- C11, counterexample: after 95 well-formed groups, 570 lines, `pack_font`
reads no further line.  A header line in what follows makes it fail in none of
the four cases of the claim: a header that is only a newline, a header of 12
bytes, a header with no newline before the end of the input, and a header
whose byte before the newline is the unprintable byte 7 are all accepted. -/
theorem pack_header_validation_counterexample :
    (∀ g ∈ List.replicate 95 group_A, g.well_formed) ∧
    (List.replicate 95 group_A).length = 95 ∧
    (pack_font (stream (List.replicate 95 group_A) ++ [10])).is_ok = true ∧
    (pack_font (stream (List.replicate 95 group_A)
      ++ (List.replicate 11 65 ++ [10] ++ group_A.grid))).is_ok = true ∧
    (pack_font (stream (List.replicate 95 group_A) ++ [65])).is_ok = true ∧
    (pack_font (stream (List.replicate 95 group_A) ++ ([7, 10] ++ group_A.grid))).is_ok = true ∧
    isprint 7 = false :=
  ⟨fun g hg => by rw [List.eq_of_mem_replicate hg]; decide, List.length_replicate _ _,
    pack_font_after_limit _, pack_font_after_limit _, pack_font_after_limit _,
    pack_font_after_limit _, by decide⟩

/-- C11, amended: a header line `h ++ "\n"` (no NUL byte in it) of total length
`L = h.length + 1` that `pack_font` reads, that is a header line after fewer
than 95 well-formed groups, is accepted if and only if `2 ≤ L ≤ 11` and the
byte immediately before the newline is printable; the code it defines is that
byte (with a valid grid after it, the table is the reference table of the
groups, the last one defining that byte).  A header of 12 or more bytes, a
header that is only a newline, a header with no newline before the end of the
input, and a header whose byte before the newline is not printable each make
`pack_font` exit with a fatal diagnostic, whatever follows. -/
theorem pack_header_validation (gs : List Group) (hgs : ∀ g ∈ gs, g.well_formed)
    (hlen : gs.length < group_limit) (h : List Nat) (hh : ∀ b ∈ h, b ≠ 10 ∧ b ≠ 0)
    (rows : List (List Nat)) (hrows : rows.length = font_height ∧
      ∀ r ∈ rows, r.length = font_width ∧ ∀ b ∈ r, b = 48 ∨ b = 49) :
    ((∃ t, pack_table (stream gs ++ (h ++ [10] ++ rows.flatMap (· ++ [10]))) = .ok t) ↔
      2 ≤ h.length + 1 ∧ h.length + 1 ≤ max_font_file_line_len ∧
        isprint (h.getD (h.length - 1) 0) = true) ∧
    (2 ≤ h.length + 1 → h.length + 1 ≤ max_font_file_line_len →
      isprint (h.getD (h.length - 1) 0) = true →
      pack_table (stream gs ++ (h ++ [10] ++ rows.flatMap (· ++ [10])))
        = .ok ((gs ++ [Group.mk h.dropLast (h.getD (h.length - 1) 0) rows]).foldl apply_group
            init_encodings)) ∧
    (max_font_file_line_len + 1 ≤ h.length + 1 → ∀ rest,
      pack_table (stream gs ++ (h ++ [10] ++ rest))
        = .fatal (.expected_char_newline (1 + 6 * gs.length))) ∧
    (h.length + 1 = 1 → ∀ rest,
      pack_table (stream gs ++ (h ++ [10] ++ rest))
        = .fatal (.expected_char_newline (1 + 6 * gs.length))) ∧
    (h ≠ [] → pack_table (stream gs ++ h)
        = .fatal (.expected_char_newline (1 + 6 * gs.length))) ∧
    (2 ≤ h.length + 1 → h.length + 1 ≤ max_font_file_line_len →
      isprint (h.getD (h.length - 1) 0) = false → ∀ rest,
      pack_table (stream gs ++ (h ++ [10] ++ rest))
        = .fatal (.expected_printable (1 + 6 * gs.length))) := by
  have hline : 1 + 6 * gs.length < max_font_file_lines := by
    simp only [max_font_file_lines, group_limit] at *; omega
  have hno : ∀ b ∈ h, b ≠ 10 := fun b hb => (hh b hb).1
  -- the fatal cases
  have hlong : max_font_file_line_len + 1 ≤ h.length + 1 → ∀ rest,
      pack_table (stream gs ++ (h ++ [10] ++ rest))
        = .fatal (.expected_char_newline (1 + 6 * gs.length)) := by
    intro hL rest
    obtain ⟨fuel, hf⟩ := pack_table_after_groups gs hgs hlen (h ++ [10] ++ rest)
    rw [hf, List.append_assoc, pack_lines_no_newline h ([10] ++ rest) hno
      (by intro e; subst e; simp [max_font_file_line_len] at hL) (Or.inl (by omega)) fuel _ _ hline]
  have hempty : h.length + 1 = 1 → ∀ rest,
      pack_table (stream gs ++ (h ++ [10] ++ rest))
        = .fatal (.expected_char_newline (1 + 6 * gs.length)) := by
    intro hL rest
    have e : h = [] := List.length_eq_zero.1 (by omega)
    subst e
    obtain ⟨fuel, hf⟩ := pack_table_after_groups gs hgs hlen ([] ++ [10] ++ rest)
    rw [hf]
    simp only [List.nil_append, List.singleton_append]
    rw [pack_lines_empty_header rest fuel _ _ hline]
  have heof : h ≠ [] → pack_table (stream gs ++ h)
        = .fatal (.expected_char_newline (1 + 6 * gs.length)) := by
    intro hne
    obtain ⟨fuel, hf⟩ := pack_table_after_groups gs hgs hlen h
    have := pack_lines_no_newline h [] hno hne (Or.inr rfl) fuel _
      (gs.foldl apply_group init_encodings) hline
    rw [List.append_nil] at this
    rw [hf, this]
  have hunpr : 2 ≤ h.length + 1 → h.length + 1 ≤ max_font_file_line_len →
      isprint (h.getD (h.length - 1) 0) = false → ∀ rest,
      pack_table (stream gs ++ (h ++ [10] ++ rest))
        = .fatal (.expected_printable (1 + 6 * gs.length)) := by
    intro h2 h11 hp rest
    rcases list_nil_or_snoc h with rfl | ⟨L, b, rfl⟩
    · simp at h2
    · have hb : (L ++ [b]).getD ((L ++ [b]).length - 1) 0 = b := by
        rw [List.length_append, List.length_singleton, Nat.add_sub_cancel]
        simp
      rw [hb] at hp
      obtain ⟨fuel, hf⟩ := pack_table_after_groups gs hgs hlen (L ++ [b] ++ [10] ++ rest)
      have e : L ++ [b] ++ [10] ++ rest = L ++ [b, 10] ++ rest := by simp
      rw [hf, e, pack_lines_unprintable L b rest fuel _ _
        (by simp only [max_font_file_line_len, List.length_append, List.length_singleton] at h11 ⊢
            omega) hh hp hline]
  have hok : 2 ≤ h.length + 1 → h.length + 1 ≤ max_font_file_line_len →
      isprint (h.getD (h.length - 1) 0) = true →
      pack_table (stream gs ++ (h ++ [10] ++ rows.flatMap (· ++ [10])))
        = .ok ((gs ++ [Group.mk h.dropLast (h.getD (h.length - 1) 0) rows]).foldl apply_group
            init_encodings) := by
    intro h2 h11 hp
    rcases list_nil_or_snoc h with rfl | ⟨L, b, rfl⟩
    · simp at h2
    · have hb : (L ++ [b]).getD ((L ++ [b]).length - 1) 0 = b := by
        rw [List.length_append, List.length_singleton, Nat.add_sub_cancel]
        simp
      rw [hb] at hp ⊢
      rw [List.dropLast_concat]
      have hwf : (⟨L, b, rows⟩ : Group).well_formed :=
        ⟨by simp only [max_font_file_line_len, List.length_append, List.length_singleton] at h11 ⊢
            omega,
          fun x hx => hh x (by simp [hx]), hp, hrows.1, hrows.2⟩
      have hall : ∀ g ∈ gs ++ [(⟨L, b, rows⟩ : Group)], g.well_formed := by
        intro g hg
        rcases List.mem_append.1 hg with hg | hg
        · exact hgs g hg
        · simp only [List.mem_singleton] at hg
          subst hg
          exact hwf
      have hst := pack_table_stream (gs ++ [(⟨L, b, rows⟩ : Group)]) hall
      rw [List.take_of_length_le (by
        simp only [List.length_append, List.length_singleton, group_limit] at hlen ⊢
        omega)] at hst
      rw [← hst, stream_append]
      congr 2
      simp [stream, Group.encode, Group.grid]
  refine ⟨⟨?_, fun ⟨a, b, c⟩ => ⟨_, hok a b c⟩⟩, hok, hlong, hempty, heof, hunpr⟩
  rintro ⟨t, ht⟩
  by_cases h2 : 2 ≤ h.length + 1
  · by_cases h11 : h.length + 1 ≤ max_font_file_line_len
    · refine ⟨h2, h11, ?_⟩
      cases hp : isprint (h.getD (h.length - 1) 0)
      · rw [hunpr h2 h11 hp] at ht
        cases ht
      · rfl
    · rw [hlong (by omega)] at ht
      cases ht
  · rw [hempty (by omega)] at ht
    cases ht

/-- The theorem `pack_header_validation` at the header `A` of the concrete
scenario, on line 1. -/
theorem pack_header_validation_witness :
    (∀ g ∈ ([] : List Group), g.well_formed) ∧ ([] : List Group).length < group_limit ∧
    (∀ b ∈ [65], b ≠ 10 ∧ b ≠ 0) ∧
    (group_A.rows.length = font_height ∧
      ∀ r ∈ group_A.rows, r.length = font_width ∧ ∀ b ∈ r, b = 48 ∨ b = 49) ∧
    pack_table (stream [] ++ ([65] ++ [10] ++ group_A.rows.flatMap (· ++ [10])))
      = .ok (([] ++ [Group.mk [65].dropLast ([65].getD ([65].length - 1) 0) group_A.rows]).foldl
          apply_group init_encodings) :=
  ⟨by decide, by decide, by decide, by decide,
    (pack_header_validation [] (by decide) (by decide) [65] (by decide) group_A.rows
      (by decide)).2.1 (by decide) (by decide) (by decide)⟩

/-! ## C12: validation of pixel lines -/

theorem first_line_split (s : List Nat) :
    ∃ l tail, s = l ++ tail ∧ first_line s = l ∧ (∀ b ∈ l, b ≠ 10) ∧
      (tail = [] ∨ ∃ rest, tail = 10 :: rest) := by
  induction s with
  | nil => exact ⟨[], [], rfl, rfl, by simp, Or.inl rfl⟩
  | cons a s ih =>
    by_cases ha : a = 10
    · subst ha
      exact ⟨[], 10 :: s, rfl, by simp [first_line], by simp, Or.inr ⟨s, rfl⟩⟩
    · obtain ⟨l, tail, h1, h2, h3, h4⟩ := ih
      refine ⟨a :: l, tail, by rw [h1]; rfl, ?_, ?_, h4⟩
      · rw [← h2]
        simp [first_line, ha]
      · intro b hb
        rcases List.mem_cons.1 hb with rfl | hb
        · exact ha
        · exact h3 b hb

theorem fgets_three (a b c : Nat) (s : List Nat) (ha : a ≠ 10) (hb : b ≠ 10) (hc : c ≠ 10) :
    ∃ q f1, fgets (max_font_file_line_len + 1) ⟨a :: b :: c :: s, false⟩
        = (some (a :: b :: c :: q), f1) ∧
      ∀ d s1, s = d :: s1 → d ≠ 10 → ∃ q1, q = d :: q1 := by
  have hr : (fgets_read max_font_file_line_len (a :: b :: c :: s)).1
      = a :: b :: c :: (fgets_read 8 s).1 := by
    simp [fgets_read, ha, hb, hc, max_font_file_line_len]
  have hf := fgets_some ⟨a :: b :: c :: s, false⟩ (by rw [hr]; simp)
  rw [hr] at hf
  refine ⟨_, _, hf, ?_⟩
  intro d s1 hs hd
  subst hs
  exact ⟨(fgets_read 7 s1).1, by simp [fgets_read, hd]⟩

/-- A pixel line with fewer than 3 characters before its newline. -/
theorem pack_pixel_lines_short (l rest : List Nat) (hl : ∀ b ∈ l, b ≠ 10)
    (hlen : l.length < font_width) (ch n pl line bp : Nat) (t : List Nat) :
    ∃ e, (e = .expected_pixels (line + 1) ∨ ∃ p, e = .expected_01 p (line + 1)) ∧
      pack_pixel_lines ch (n + 1) pl line bp ⟨l ++ 10 :: rest, false⟩ t = .fatal e := by
  have hf := fgets_line l rest false hl
    (by simp only [font_width, max_font_file_line_len] at hlen ⊢; omega)
  rw [pack_pixel_lines, hf]
  simp only [font_width] at hlen
  match l, hlen, hl with
  | [], _, _ => exact ⟨_, Or.inl rfl, by simp [strlen, font_width]⟩
  | [a], _, _ =>
    refine ⟨_, Or.inl rfl, ?_⟩
    by_cases ha : a = 0 <;> simp [strlen, font_width, ha]
  | [a, b], _, _ =>
    by_cases ha : a = 0
    · exact ⟨_, Or.inl rfl, by simp [strlen, font_width, ha]⟩
    · by_cases hb : b = 0
      · exact ⟨_, Or.inl rfl, by simp [strlen, font_width, ha, hb]⟩
      · by_cases ha1 : a ≠ 48 ∧ a ≠ 49
        · exact ⟨_, Or.inr ⟨1, rfl⟩, by simp [strlen, font_width, ha, hb, pack_pixels, ha1]⟩
        · by_cases hb1 : b ≠ 48 ∧ b ≠ 49
          · exact ⟨_, Or.inr ⟨2, rfl⟩,
              by simp [strlen, font_width, ha, hb, pack_pixels, ha1, hb1]⟩
          · exact ⟨_, Or.inr ⟨3, rfl⟩,
              by simp [strlen, font_width, ha, hb, pack_pixels, ha1, hb1]⟩
  | _ :: _ :: _ :: _, h, _ => exact absurd h (by simp)

theorem strlen_three (a b c : Nat) (q : List Nat) :
    strlen (a :: b :: c :: q)
      = if a = 0 then 0 else if b = 0 then 1 else if c = 0 then 2 else strlen q + 3 := by
  simp only [strlen]
  split_ifs <;> rfl

/-- A pixel line of at least 3 characters with a fourth character that is
neither a newline nor a NUL byte, or with a character other than `'0'` and
`'1'` among the first 3. -/
theorem pack_pixel_lines_three (a b c : Nat) (s : List Nat) (ha : a ≠ 10) (hb : b ≠ 10)
    (hc : c ≠ 10)
    (h : (∃ d s1, s = d :: s1 ∧ d ≠ 10 ∧ d ≠ 0) ∨ (a ≠ 48 ∧ a ≠ 49) ∨ (b ≠ 48 ∧ b ≠ 49) ∨
      (c ≠ 48 ∧ c ≠ 49))
    (ch n pl line bp : Nat) (t : List Nat) :
    ∃ e, (e = .expected_pixels (line + 1) ∨ ∃ p, e = .expected_01 p (line + 1)) ∧
      pack_pixel_lines ch (n + 1) pl line bp ⟨a :: b :: c :: s, false⟩ t = .fatal e := by
  obtain ⟨q, f1, hf, hq⟩ := fgets_three a b c s ha hb hc
  rw [pack_pixel_lines, hf]
  simp only []
  by_cases hchk : strlen (a :: b :: c :: q) < font_width ∨
      (strlen (a :: b :: c :: q) > font_width ∧ (a :: b :: c :: q).getD font_width 0 ≠ 10)
  · exact ⟨_, Or.inl rfl, by rw [if_pos hchk]⟩
  · rw [if_neg hchk]
    rw [strlen_three] at hchk
    simp only [font_width, List.getD_cons_succ] at hchk
    rcases h with ⟨d, s1, hs, hd10, hd0⟩ | h
    · exfalso
      obtain ⟨q1, rfl⟩ := hq d s1 hs hd10
      apply hchk
      simp only [strlen, if_neg hd0, List.getD_cons_zero]
      split_ifs <;> first | (left; omega) | (right; exact ⟨by omega, hd10⟩)
    · by_cases ha1 : a ≠ 48 ∧ a ≠ 49
      · exact ⟨_, Or.inr ⟨1, rfl⟩, by simp [pack_pixels, ha1]⟩
      · by_cases hb1 : b ≠ 48 ∧ b ≠ 49
        · exact ⟨_, Or.inr ⟨2, rfl⟩, by simp [pack_pixels, ha1, hb1]⟩
        · have hc1 : c ≠ 48 ∧ c ≠ 49 := by tauto
          exact ⟨_, Or.inr ⟨3, rfl⟩, by simp [pack_pixels, ha1, hb1, hc1]⟩

/-- A malformed pixel line ends `pack_font` with a fatal diagnostic. -/
theorem pack_pixel_lines_bad (s : List Nat) (hbad : bad_pixel_line s)
    (ch n pl line bp : Nat) (t : List Nat) :
    ∃ e, (e = .expected_pixels (line + 1) ∨ ∃ p, e = .expected_01 p (line + 1)) ∧
      pack_pixel_lines ch (n + 1) pl line bp ⟨s, false⟩ t = .fatal e := by
  obtain ⟨l, tail, hs, hfl, hl, htail⟩ := first_line_split s
  unfold bad_pixel_line at hbad
  rw [hfl] at hbad
  simp only [font_width] at hbad
  rcases hbad with ⟨h1, h2⟩ | hbad
  · rcases htail with rfl | ⟨rest, rfl⟩
    · rw [hs, List.append_nil] at h2
      exact absurd h2 (Nat.lt_irrefl _)
    · rw [hs]
      exact pack_pixel_lines_short l rest hl h1 ch n pl line bp t
  · have h3 : 3 ≤ l.length := by
      rcases hbad with ⟨h, -⟩ | ⟨h, -⟩ <;> omega
    match l, h3, hl, hbad, hs with
    | a :: b :: c :: l1, _, hl, hbad, hs =>
      have ha : a ≠ 10 := hl a (by simp)
      have hb : b ≠ 10 := hl b (by simp)
      have hc : c ≠ 10 := hl c (by simp)
      rw [hs]
      refine pack_pixel_lines_three a b c (l1 ++ tail) ha hb hc ?_ ch n pl line bp t
      rcases hbad with ⟨h4, h5⟩ | ⟨-, k, hk, h5⟩
      · left
        match l1, h4, h5, hl with
        | d :: l2, _, h5, hl =>
          exact ⟨d, l2 ++ tail, rfl, hl d (by simp), by simpa using h5⟩
      · right
        have hk3 : k = 0 ∨ k = 1 ∨ k = 2 := by omega
        rcases hk3 with rfl | rfl | rfl
        · exact Or.inl (by simpa using h5)
        · exact Or.inr (Or.inl (by simpa using h5))
        · exact Or.inr (Or.inr (by simpa using h5))

set_option maxRecDepth 100000 in
/-- C12, counterexample: in the stream `"A\n111\0\n101\n101\n101\n111\n"` the
first pixel line has a byte other than newline at position 3, a NUL byte;
`strlen` stops there, the line passes as a line of 3 pixels, and `pack_font`
accepts the stream, with the same table as without the NUL byte.  And a pixel
line of a 96th group is never read: after 95 well-formed groups `pack_font`
accepts whatever follows, here the group `B` with the pixel line `1`. -/
theorem pack_pixel_line_validation_counterexample :
    first_line (stream_A_nul.drop 2) = [49, 49, 49, 0] ∧
    (first_line (stream_A_nul.drop 2)).getD 3 0 ≠ 10 ∧
    (pack_font stream_A_nul).is_ok = true ∧
    pack_table stream_A_nul = pack_table (stream [group_A]) ∧
    (pack_font (stream (List.replicate 95 group_A) ++ [66, 10, 49, 10])).is_ok = true :=
  ⟨by decide, by decide, by decide, by decide, by
    rw [pack_font, pack_table_limit (List.replicate 95 group_A)
      (fun g hg => by rw [List.eq_of_mem_replicate hg]; decide) (List.length_replicate _ _)
      [66, 10, 49, 10]]
    rfl⟩

/-- C12, amended: for every stream, if a pixel line of one of the first 95
groups (the groups before it well-formed, its header line and the pixel lines
before it valid) has fewer than 3 characters before its newline, has a byte
other than newline and NUL at position 3 (a fourth character), or has among
its first 3 characters one that is neither `'0'` nor `'1'`, then `pack_font`
fails fatally, with "Expected 3 pixels" or "Expected '0' or '1'" for the line
of that pixel line, and emits no encoding line on the primary output. -/
theorem pack_pixel_line_validation (gs : List Group) (hgs : ∀ g ∈ gs, g.well_formed)
    (hlen : gs.length < group_limit) (g : Group) (hg : g.incomplete) (s : List Nat)
    (hbad : bad_pixel_line s) :
    ∃ e, (e = .expected_pixels (6 * gs.length + g.rows.length + 2) ∨
        ∃ p, e = .expected_01 p (6 * gs.length + g.rows.length + 2)) ∧
      pack_font (stream gs ++ (g.encode ++ s)) = .fatal e := by
  have hline : 1 + 6 * gs.length < max_font_file_lines := by
    simp only [max_font_file_lines, group_limit] at *; omega
  obtain ⟨fuel, hf⟩ := pack_table_after_groups gs hgs hlen (g.encode ++ s)
  obtain ⟨hl, htext, hcode, hlt, hrows⟩ := hg
  have h := pack_lines_header g.text g.code (g.grid ++ s) fuel (1 + 6 * gs.length)
    (gs.foldl apply_group init_encodings) hl htext hcode hline
  obtain ⟨t1, h1⟩ := pack_pixel_lines_rows g.rows hrows s g.code font_height 0
    (1 + 6 * gs.length) 0
    (((gs.foldl apply_group init_encodings).set (g.code * 2) 0).set (g.code * 2 + 1) 0)
    (Nat.le_of_lt hlt)
  obtain ⟨k, hk⟩ : ∃ k, font_height - g.rows.length = k + 1 :=
    ⟨font_height - g.rows.length - 1, by omega⟩
  obtain ⟨e, he, hb⟩ := pack_pixel_lines_bad s hbad g.code k (0 + g.rows.length)
    (1 + 6 * gs.length + g.rows.length) (0 + 3 * g.rows.length) t1
  have hn : 1 + 6 * gs.length + g.rows.length + 1 = 6 * gs.length + g.rows.length + 2 := by
    omega
  rw [hn] at he
  refine ⟨e, he, ?_⟩
  have henc : g.encode ++ s = g.text ++ [g.code, 10] ++ (g.grid ++ s) := by
    simp [Group.encode]
  rw [pack_font, hf, henc, h, Group.grid, h1, hk, hb]

/-- The theorem `pack_pixel_line_validation` at the stream `"A\n111\n1x1\n"`:
the second pixel line of the first group has an `x`. -/
theorem pack_pixel_line_validation_witness :
    (∀ g ∈ ([] : List Group), g.well_formed) ∧ ([] : List Group).length < group_limit ∧
    (Group.mk [] 65 [[49, 49, 49]]).incomplete ∧ bad_pixel_line [49, 120, 49, 10] ∧
    ∃ e, pack_font (stream [] ++ ((Group.mk [] 65 [[49, 49, 49]]).encode ++ [49, 120, 49, 10]))
      = .fatal e :=
  ⟨by decide, by decide, by decide, by decide,
    match pack_pixel_line_validation [] (by decide) (by decide) (Group.mk [] 65 [[49, 49, 49]])
      (by decide) [49, 120, 49, 10] (by decide) with
    | ⟨e, _, h⟩ => ⟨e, h⟩⟩

/-! ## C13: the output of pack_font -/

theorem set_bytes (t : List Nat) (i v : Nat) (ht : t.length = 512 ∧ ∀ b ∈ t, b < 256)
    (hv : v < 256) : (t.set i v).length = 512 ∧ ∀ b ∈ t.set i v, b < 256 := by
  refine ⟨by rw [List.length_set]; exact ht.1, ?_⟩
  intro b hb
  rcases List.mem_or_eq_of_mem_set hb with hb | rfl
  · exact ht.2 b hb
  · exact hv

theorem getD_bytes (t : List Nat) (i : Nat) (ht : ∀ b ∈ t, b < 256) : t.getD i 0 < 256 := by
  rw [List.getD_eq_getElem?_getD]
  cases h : t[i]? with
  | none => simp
  | some b => exact ht b (List.getElem?_mem h)

theorem pack_pixels_bytes (buf : List Nat) (line ch : Nat) (n pixel bp : Nat) (t t1 : List Nat)
    (bp1 : Nat) (h : pack_pixels buf line ch n pixel bp t = .ok (t1, bp1))
    (ht : t.length = 512 ∧ ∀ b ∈ t, b < 256) : t1.length = 512 ∧ ∀ b ∈ t1, b < 256 := by
  induction n generalizing pixel bp t with
  | zero =>
    simp only [pack_pixels, Outcome.ok.injEq, Prod.mk.injEq] at h
    obtain ⟨rfl, rfl⟩ := h
    exact ht
  | succ n ih =>
    rw [pack_pixels] at h
    split at h
    · cases h
    · refine ih _ _ _ h (set_bytes _ _ _ ht ?_)
      have h1 := getD_bytes t (ch * bytes_per_font_character + bp / CHAR_BIT) ht.2
      have h2 : (if buf.getD pixel 0 = 48 then 0 else 1) <<< (bp % CHAR_BIT) < 2 ^ 8 := by
        have : bp % 8 < 8 := Nat.mod_lt _ (by decide)
        simp only [CHAR_BIT]
        generalize bp % 8 = k at this
        interval_cases k <;> split <;> decide
      exact Nat.or_lt_two_pow h1 h2

theorem pack_pixel_lines_bytes (ch : Nat) (n pl line bp : Nat) (f : FILE) (t : List Nat)
    (r : PixelLines) (h : pack_pixel_lines ch n pl line bp f t = .ok r)
    (ht : t.length = 512 ∧ ∀ b ∈ t, b < 256) :
    r.table.length = 512 ∧ ∀ b ∈ r.table, b < 256 := by
  induction n generalizing pl line bp f t with
  | zero =>
    simp only [pack_pixel_lines, Outcome.ok.injEq] at h
    subst h
    exact ht
  | succ n ih =>
    rw [pack_pixel_lines] at h
    generalize fgets (max_font_file_line_len + 1) f = fr at h
    obtain ⟨_ | buf, f1⟩ := fr
    · cases h
    · simp only at h
      by_cases hcond : strlen buf < font_width ∨
          (strlen buf > font_width ∧ buf.getD font_width 0 ≠ 10)
      · rw [if_pos hcond] at h
        cases h
      · rw [if_neg hcond] at h
        generalize hp : pack_pixels buf (line + 1) ch font_width 0 bp t = pr at h
        obtain ⟨t1, bp1⟩ | e := pr
        · have hpp := pack_pixels_bytes _ _ _ _ _ _ _ _ _ hp ht
          simp only at h
          by_cases hfe : feof f1 = true
          · rw [if_pos hfe] at h
            simp only [Outcome.ok.injEq] at h
            subst h
            exact hpp
          · rw [if_neg hfe] at h
            exact ih _ _ _ _ _ h hpp
        · cases h

/-- The loop over `line` keeps the table at 512 bytes, each below 256. -/
theorem pack_lines_bytes (fuel line : Nat) (f : FILE) (t : List Nat) (r : List Nat × FILE)
    (h : pack_lines fuel line f t = .ok r) (ht : t.length = 512 ∧ ∀ b ∈ t, b < 256) :
    r.1.length = 512 ∧ ∀ b ∈ r.1, b < 256 := by
  induction fuel generalizing line f t with
  | zero => simp [pack_lines] at h
  | succ fuel ih =>
    rw [pack_lines] at h
    by_cases hline : line < max_font_file_lines
    · rw [if_pos hline] at h
      generalize fgets (max_font_file_line_len + 1) f = fr at h
      obtain ⟨_ | buf, f1⟩ := fr
      · simp only [Outcome.ok.injEq] at h
        subst h
        exact ht
      · simp only at h
        generalize strchr buf 10 = sr at h
        obtain _ | _ | search := sr
        · cases h
        · cases h
        · simp only at h
          by_cases hp : isprint (buf.getD search 0) = true
          · simp only [hp, Bool.not_true, Bool.false_eq_true, if_false] at h
            generalize hr1 : pack_pixel_lines (buf.getD search 0) font_height 0 line 0 f1
              ((t.set (buf.getD search 0 * bytes_per_font_character) byte_all_zeroes).set
                (buf.getD search 0 * bytes_per_font_character + 1) byte_all_zeroes) = pr at h
            obtain r1 | e := pr
            · have k := pack_pixel_lines_bytes _ _ _ _ _ _ _ _ hr1
                (set_bytes _ _ _ (set_bytes _ _ _ ht (by decide)) (by decide))
              simp only at h
              by_cases hpl : r1.pixel_line < font_height
              · rw [if_pos hpl] at h
                cases h
              · rw [if_neg hpl] at h
                by_cases hfe : feof r1.file = true
                · rw [if_pos hfe] at h
                  simp only [Outcome.ok.injEq] at h
                  subst h
                  exact k
                · rw [if_neg hfe] at h
                  exact ih _ _ _ h k
            · cases h
          · simp only [hp, Bool.not_false, if_true] at h
            cases h
    · rw [if_neg hline] at h
      simp only [Outcome.ok.injEq] at h
      subst h
      exact ht

theorem init_encodings_bytes : init_encodings.length = 512 ∧ ∀ b ∈ init_encodings, b < 256 := by
  refine ⟨init_encodings_length, ?_⟩
  intro b hb
  rw [init_encodings, List.mem_replicate] at hb
  rw [hb.2]
  decide

/-- The table that `pack_font` prints has 512 bytes, each below 256. -/
theorem pack_table_bytes (input t : List Nat) (h : pack_table input = .ok t) :
    t.length = 512 ∧ ∀ b ∈ t, b < 256 := by
  rw [pack_table] at h
  generalize hr : pack_lines max_font_file_lines 1 ⟨input, false⟩ init_encodings = r at h
  obtain r | e := r
  · simp only [Outcome.ok.injEq] at h
    subst h
    exact pack_lines_bytes _ _ _ _ _ hr init_encodings_bytes
  · cases h

theorem intercalate_cons (sep x : List Nat) (xs : List (List Nat)) :
    List.intercalate sep (x :: xs) = x ++ xs.flatMap (fun y => sep ++ y) := by
  induction xs generalizing x with
  | nil => simp [List.intercalate]
  | cons y ys ih =>
    have := ih y
    simp only [List.intercalate, List.intersperse_cons_cons, List.flatten_cons,
      List.flatMap_cons] at this ⊢
    rw [this, List.append_assoc]

theorem getD_append_two (pre : List Nat) (a b : Nat) (rest : List Nat) (i : Nat)
    (hpre : pre.length = i * 2) :
    (pre ++ a :: b :: rest).getD (i * 2 + 0) 0 = a ∧
    (pre ++ a :: b :: rest).getD (i * 2 + 1) 0 = b := by
  constructor
  · rw [Nat.add_zero, ← hpre]
    exact getD_append_length pre a (b :: rest)
  · have := getD_append_length (pre ++ [a]) b rest
    rw [List.length_append, List.length_singleton, hpre] at this
    simpa using this

/-- The loop over `i` of the output from entry `i > 0` on: every byte of the
rest of the table, each after a separator. -/
theorem print_entries_rest (n : Nat) (pre rest : List Nat) (i : Nat) (hi : 0 < i)
    (hpre : pre.length = i * 2) (hrest : rest.length = 2 * n) :
    print_entries (pre ++ rest) n i = rest.flatMap (fun b => bytes ", " ++ printf_d b) := by
  induction n generalizing pre rest i with
  | zero =>
    have : rest = [] := List.length_eq_zero.1 (by omega)
    subst this
    rfl
  | succ n ih =>
    match rest, hrest with
    | a :: b :: rest1, hrest =>
      obtain ⟨g0, g1⟩ := getD_append_two pre a b rest1 i hpre
      have e : pre ++ a :: b :: rest1 = (pre ++ [a, b]) ++ rest1 := by simp
      have := ih (pre ++ [a, b]) rest1 (i + 1) (by omega)
        (by simp only [List.length_append, List.length_cons, List.length_nil]; omega)
        (by simp only [List.length_cons] at hrest; omega)
      rw [← e] at this
      rw [print_entries, if_neg (by omega), this]
      simp only [print_entry, bytes_per_font_character, if_true, g0, g1, List.nil_append,
        List.append_nil, List.flatMap_cons, List.append_assoc, Nat.zero_add]
      simp

/-- The values that `pack_font` prints are the 512 bytes of the table in their
order, joined by ", ". -/
theorem print_entries_table (t : List Nat) (ht : t.length = 512) :
    print_entries t byte_value_cnt 0 = List.intercalate (bytes ", ") (t.map printf_d) := by
  match t, ht with
  | a :: b :: rest, ht =>
    have := print_entries_rest 255 [a, b] rest 1 (by decide) rfl
      (by simp only [List.length_cons] at ht; omega)
    simp only [List.cons_append, List.nil_append] at this
    rw [show byte_value_cnt = 255 + 1 from rfl, print_entries, if_pos rfl, this,
      List.map_cons, intercalate_cons, List.map_cons, List.flatMap_cons, List.flatMap_map]
    simp only [print_entry, bytes_per_font_character, if_true, List.nil_append,
      List.append_nil, List.append_assoc, Nat.zero_add, List.getD_cons_zero, Nat.mul_zero,
      List.getD_cons_succ]
    simp

theorem printf_d_eq (n : Nat) : printf_d n = bytes (toString n) := rfl

/-- C13: for every input that `pack_font` accepts, the primary output is
exactly the text "Font encodes as these bytes: " followed by the 512 bytes of
the table in their order (the byte at index `2 * code + j` is byte `j` of the
code), each a value below 256 in unsigned decimal, joined by ", " with no
separator before the first value or after the last, followed by a single
newline. -/
theorem pack_output_format (input out : List Nat) (h : pack_font input = .ok out) :
    ∃ t, pack_table input = .ok t ∧ t.length = 512 ∧ (∀ b ∈ t, b < 256) ∧
      out = bytes "Font encodes as these bytes: "
        ++ List.intercalate (bytes ", ") (t.map fun b => bytes (toString b)) ++ bytes "\n" := by
  rw [pack_font] at h
  generalize ht : pack_table input = r at h
  obtain t | e := r
  · simp only [Outcome.ok.injEq] at h
    obtain ⟨h1, h2⟩ := pack_table_bytes input t ht
    refine ⟨t, rfl, h1, h2, ?_⟩
    rw [← h, pack_output, print_entries_table t h1]
    rfl
  · cases h

/-- The theorem `pack_output_format` at the stream of the concrete scenario. -/
theorem pack_output_format_witness :
    pack_font (stream [group_A]) = .ok (pack_output (apply_group init_encodings group_A)) ∧
    ∃ t, pack_table (stream [group_A]) = .ok t ∧ t.length = 512 ∧ (∀ b ∈ t, b < 256) ∧
      pack_output (apply_group init_encodings group_A) = bytes "Font encodes as these bytes: "
        ++ List.intercalate (bytes ", ") (t.map fun b => bytes (toString b)) ++ bytes "\n" :=
  ⟨by rw [pack_font, pack_table_single group_A (by decide)],
    pack_output_format (stream [group_A]) (pack_output (apply_group init_encodings group_A))
      (by rw [pack_font, pack_table_single group_A (by decide)])⟩

/-! ## C14: the output of unpack_font -/

theorem unpack_header_spec :
    ∀ k, k < 95 →
      printf_d (32 + k) ++ bytes " 0x" ++ printf_02X (32 + k) ++ [32] ++ [32 + k, 10]
        = spec_unpack_header (32 + k) ∧ (spec_unpack_header (32 + k)).length ≤ 11 := by
  decide

theorem unpack_grid_spec (c : Nat) :
    (unpack_grid default_font (c * bytes_per_font_character) font_height 0).flatMap (· ++ [10])
      = spec_unpack_lines c := by
  have e5 : List.range 5 = [0, 1, 2, 3, 4] := by decide
  have e3 : List.range 3 = [0, 1, 2] := by decide
  simp only [unpack_grid, unpack_row, font_height, font_width, CHAR_BIT,
    bytes_per_font_character, and_one_shiftLeft_ne_zero, spec_unpack_lines, spec_unpack_pixel,
    e5, e3, List.flatMap_cons, List.flatMap_nil, List.map_cons, List.map_nil]
  rfl

/-- C14: `unpack_font` emits, for every printable code 32..126 in ascending
order and for no other code, one header line
"<decimal code> 0x<two uppercase hex digits> <the character>" followed by
exactly 5 lines of exactly 3 characters, where the character at line `row`,
column `col` is `'1'` when bit `row * 3 + col` of the built-in entry of the code
is set (byte `b / 8`, bit `b % 8`, least significant bit first) and `'0'`
otherwise; every header line, newline included, is at most 11 bytes long. -/
theorem unpack_output_format :
    unpack_font = spec_unpack_output ∧
    (∀ c, 32 ≤ c → c ≤ 126 → (spec_unpack_header c).length ≤ max_font_file_line_len) ∧
    ∀ c, (spec_unpack_lines c).length = font_height * (font_width + 1) := by
  refine ⟨?_, ?_, ?_⟩
  · rw [unpack_font, unpack_font_of_eq_stream default_font default_font_bytes.1, stream,
      unpack_groups, spec_unpack_output, List.range'_eq_map_range, List.flatMap_map,
      List.flatMap_map]
    apply List.flatMap_congr
    intro k hk
    have h := unpack_header_spec k (List.mem_range.1 hk)
    simp only [Function.comp, unpack_group, Group.encode, Group.grid]
    rw [unpack_grid_spec, ← h.1]
  · intro c h1 h2
    obtain ⟨k, rfl⟩ : ∃ k, c = 32 + k := ⟨c - 32, by omega⟩
    exact (unpack_header_spec k (by omega)).2
  · intro c
    have e5 : List.range 5 = [0, 1, 2, 3, 4] := by decide
    simp [spec_unpack_lines, bytes, e5]
    rfl

/-! ## C21: the accesses of framebuffer_write stay in bounds -/

theorem accesses_sx_succ (fb : framebuffer) (c sz bp y x sy n sx : Nat) (buf : List Nat) :
    accesses_sx fb c sz bp y x sy (n + 1) sx buf
      = access_at fb c bp y x sy sx ::
        if ((access_at fb c bp y x sy sx).byte_pos + fb.bytes_per_pixel) % ULONG > sz then []
        else
          match memcpy buf (access_at fb c bp y x sy sx).byte_pos (glyph_pixel c bp)
              fb.bytes_per_pixel with
          | some b => accesses_sx fb c sz bp y x sy n (sx + 1) b
          | none => [] := by
  rw [accesses_sx]
  rfl

theorem accesses_sx_mem (fb : framebuffer) (c sz bp y x sy n sx : Nat) (buf : List Nat)
    (a : Access) (h : a ∈ accesses_sx fb c sz bp y x sy n sx buf) :
    ∃ k, sx ≤ k ∧ k < sx + n ∧ a = access_at fb c bp y x sy k := by
  induction n generalizing sx buf with
  | zero => simp [accesses_sx] at h
  | succ n ih =>
    rw [accesses_sx_succ] at h
    rcases List.mem_cons.1 h with rfl | h
    · exact ⟨sx, le_refl _, by omega, rfl⟩
    · split at h
      · simp at h
      · split at h
        · obtain ⟨k, h1, h2, h3⟩ := ih _ _ h
          exact ⟨k, by omega, by omega, h3⟩
        · simp at h

theorem accesses_sy_mem (fb : framebuffer) (c sz bp y x n sy : Nat) (buf : List Nat)
    (a : Access) (h : a ∈ accesses_sy fb c sz bp y x n sy buf) :
    ∃ j k, sy ≤ j ∧ j < sy + n ∧ k < fb.font_scale ∧ a = access_at fb c bp y x j k := by
  induction n generalizing sy buf with
  | zero => simp [accesses_sy] at h
  | succ n ih =>
    rw [accesses_sy] at h
    rcases List.mem_append.1 h with h | h
    · obtain ⟨k, _, h2, h3⟩ := accesses_sx_mem _ _ _ _ _ _ _ _ _ _ _ h
      exact ⟨sy, k, le_refl _, by omega, by omega, h3⟩
    · split at h
      · obtain ⟨j, k, h1, h2, h3, h4⟩ := ih _ _ h
        exact ⟨j, k, by omega, by omega, h3, h4⟩
      · simp at h

/-- The accesses of one row of blocks: block `i` is painted for bit
`bit_pos + i`, as long as `x` does not wrap around. -/
theorem accesses_x_mem (fb : framebuffer) (c sz scw y : Nat)
    (hs : scw + fb.font_scale ≤ UINT) (fuel x bp : Nat) (buf : List Nat) (a : Access)
    (h : a ∈ accesses_x fb c sz scw y fuel x bp buf) :
    ∃ i j k, x + i * fb.font_scale < scw ∧ j < fb.font_scale ∧ k < fb.font_scale ∧
      a = access_at fb c (bp + i) y (x + i * fb.font_scale) j k := by
  induction fuel generalizing x bp buf with
  | zero => simp [accesses_x] at h
  | succ fuel ih =>
    rw [accesses_x] at h
    by_cases hx : x < scw
    · rw [if_pos hx] at h
      rcases List.mem_append.1 h with h | h
      · obtain ⟨j, k, _, h2, h3, h4⟩ := accesses_sy_mem _ _ _ _ _ _ _ _ _ _ h
        exact ⟨0, j, k, by omega, by omega, h3, by rw [h4]; simp⟩
      · split at h
        · have e : (x + fb.font_scale) % UINT = x + fb.font_scale :=
            Nat.mod_eq_of_lt (by omega)
          rw [e] at h
          obtain ⟨i, j, k, h1, h2, h3, h4⟩ := ih _ _ _ h
          have e1 : x + (i + 1) * fb.font_scale = x + fb.font_scale + i * fb.font_scale := by
            ring
          have e2 : bp + (i + 1) = bp + 1 + i := by omega
          exact ⟨i + 1, j, k, by omega, h2, h3, by rw [e1, e2]; exact h4⟩
        · simp at h
    · rw [if_neg hx] at h
      simp at h

/-- The accesses of a glyph that fits: row of blocks `r`, block `i`, pixel
`(k, j)` of the block, for bit `3 * r + i`. -/
theorem accesses_y_mem (fb : framebuffer) (c : Nat) (hbpp : fb.bytes_per_pixel = 3)
    (hsize : fb.width * fb.height * 3 < ULONG) (hs1 : 1 ≤ fb.font_scale)
    (hs : 5 * fb.font_scale < UINT)
    (hX : fb.cur_x + 3 * fb.font_scale ≤ fb.width)
    (hY : fb.cur_y + 5 * fb.font_scale ≤ fb.height)
    (m r fuel : Nat) (hr : r + m = 5) (hfuel : m + 1 ≤ fuel) (buf : List Nat)
    (hlen : buf.length = fb.width * fb.height * 3) (a : Access)
    (h : a ∈ accesses_y fb c (fb.width * fb.height * 3) (5 * fb.font_scale)
      (3 * fb.font_scale) fuel (r * fb.font_scale) (3 * r) buf) :
    ∃ r1 i j k, r1 < 5 ∧ i < 3 ∧ j < fb.font_scale ∧ k < fb.font_scale ∧
      a = access_at fb c (3 * r1 + i) (r1 * fb.font_scale) (i * fb.font_scale) j k := by
  induction m generalizing r fuel buf with
  | zero =>
    obtain ⟨fuel, rfl⟩ : ∃ f, fuel = f + 1 := ⟨fuel - 1, by omega⟩
    have e : r = 5 := by omega
    subst e
    rw [accesses_y, if_neg (Nat.lt_irrefl _)] at h
    simp at h
  | succ m ih =>
    obtain ⟨fuel, rfl⟩ : ∃ f, fuel = f + 1 := ⟨fuel - 1, by omega⟩
    have hr4 : r * fb.font_scale ≤ 4 * fb.font_scale := Nat.mul_le_mul_right _ (by omega)
    rw [accesses_y, if_pos (by omega)] at h
    rcases List.mem_append.1 h with h | h
    · obtain ⟨i, j, k, h1, h2, h3, h4⟩ := accesses_x_mem fb c _ (3 * fb.font_scale) _
        (by omega) _ _ _ _ _ h
      have hi : i < 3 := by
        by_contra hc
        have : 3 * fb.font_scale ≤ i * fb.font_scale := Nat.mul_le_mul_right _ (by omega)
        omega
      rw [Nat.zero_add] at h4
      exact ⟨r, i, j, k, by omega, hi, h2, h3, h4⟩
    · obtain ⟨b1, h1, p1⟩ := paint_x_spec fb c (3 * r) (r * fb.font_scale) hbpp hsize hs1
        (by omega) hX (by omega) (UINT + 1) (by decide) buf hlen
      rw [h1] at h
      simp only at h
      have e : (r * fb.font_scale + fb.font_scale) % UINT = (r + 1) * fb.font_scale := by
        rw [Nat.mod_eq_of_lt (by omega)]
        ring
      have e3 : 3 * r + 3 = 3 * (r + 1) := by omega
      rw [e, e3] at h
      exact ih (r + 1) fuel (by omega) (by omega) b1 (by rw [p1.1, hlen]) h

/-- Every access of a glyph that fits is inside the framebuffer. -/
theorem accesses_y_in_bounds (fb : framebuffer) (c : Nat) (hbpp : fb.bytes_per_pixel = 3)
    (hsize : fb.width * fb.height * 3 < ULONG) (hs1 : 1 ≤ fb.font_scale)
    (hs : 5 * fb.font_scale < UINT)
    (hX : fb.cur_x + 3 * fb.font_scale ≤ fb.width)
    (hY : fb.cur_y + 5 * fb.font_scale ≤ fb.height) (buf : List Nat)
    (hlen : buf.length = fb.width * fb.height * 3) (a : Access)
    (h : a ∈ accesses_y fb c (fb.width * fb.height * 3) (5 * fb.font_scale)
      (3 * fb.font_scale) (UINT + 1) 0 0 buf) :
    a.in_bounds fb.width fb.height ∧ a.code = c := by
  have h0 : a ∈ accesses_y fb c (fb.width * fb.height * 3) (5 * fb.font_scale)
      (3 * fb.font_scale) (UINT + 1) (0 * fb.font_scale) (3 * 0) buf := by
    rw [Nat.zero_mul, Nat.mul_zero]; exact h
  obtain ⟨r, i, j, k, hr, hi, hj, hk, rfl⟩ := accesses_y_mem fb c hbpp hsize hs1 hs hX hY 5 0
    (UINT + 1) rfl (by decide) buf hlen a h0
  have hi2 : i * fb.font_scale ≤ 2 * fb.font_scale := Nat.mul_le_mul_right _ (by omega)
  have hr4 : r * fb.font_scale ≤ 4 * fb.font_scale := Nat.mul_le_mul_right _ (by omega)
  generalize i * fb.font_scale = X at hi2
  generalize r * fb.font_scale = Y at hr4
  have hcol : fb.cur_x + X + k < fb.width := by omega
  have hrow : fb.cur_y + Y + j < fb.height := by omega
  have hb := cell_bound fb.width fb.height (fb.cur_x + X + k) (fb.cur_y + Y + j) hcol hrow
  have hWH : fb.width * fb.height * 3 = fb.width * 3 * fb.height := by ring
  have hW : fb.width ≤ fb.width * 3 * fb.height :=
    Nat.le_trans (Nat.le_mul_of_pos_right _ (by decide : 0 < 3))
      (Nat.le_mul_of_pos_right _ (by omega))
  have hH : fb.height ≤ fb.width * 3 * fb.height := Nat.le_mul_of_pos_left _ (by omega)
  have e1 : (fb.cur_x + X + k) % ULONG = fb.cur_x + X + k := Nat.mod_eq_of_lt (by omega)
  have e2 : (fb.cur_y + Y + j) % ULONG = fb.cur_y + Y + j := Nat.mod_eq_of_lt (by omega)
  have e3 : (fb.width * 3 * (fb.cur_y + Y + j) + (fb.cur_x + X + k) * 3) % ULONG
      = fb.width * 3 * (fb.cur_y + Y + j) + (fb.cur_x + X + k) * 3 :=
    Nat.mod_eq_of_lt (by omega)
  simp only [Access.in_bounds, access_at, hbpp, e1, e2, e3]
  exact ⟨⟨hcol, hrow, trivial, hb, by omega, trivial⟩, trivial⟩

/-- The accesses of one non-newline character in a framebuffer that holds a
glyph: those of the glyph at `glyph_origin`, then those of the rest of the
text. -/
theorem accesses_chars_glyph (fb : framebuffer) (c : Nat) (hfit : fb.holds_glyph)
    (hcx : fb.cur_x + (3 * fb.font_scale + 1) < ULONG)
    (hcy : fb.cur_y + 2 * (5 * fb.font_scale + 1) < ULONG) (hc0 : c ≠ 0) (hc10 : c ≠ 10) :
    ∃ buf1, buf1.length = fb.buf.length ∧
      ∀ cs : List Nat,
      accesses_chars (5 * fb.font_scale) (3 * fb.font_scale) (5 * fb.font_scale + 1)
          (3 * fb.font_scale + 1) (fb.width * fb.height * 3) (c :: cs) fb
        = accesses_y { fb with cur_x := (glyph_origin fb).1, cur_y := (glyph_origin fb).2 } c
            (fb.width * fb.height * 3) (5 * fb.font_scale) (3 * fb.font_scale) (UINT + 1) 0 0
            fb.buf ++
          accesses_chars (5 * fb.font_scale) (3 * fb.font_scale) (5 * fb.font_scale + 1)
            (3 * fb.font_scale + 1) (fb.width * fb.height * 3) cs
            { fb with buf := buf1, cur_x := (glyph_origin fb).1 + (3 * fb.font_scale + 1),
                      cur_y := (glyph_origin fb).2 } := by
  obtain ⟨hb1, hb2, hb3⟩ := holds_glyph_bounds fb hfit
  obtain ⟨hf1, hf2⟩ := glyph_origin_fits fb hfit
  obtain ⟨⟨hbpp, hlen, hsize⟩, hs1, hw, hh⟩ := hfit
  obtain ⟨buf1, h1, p1⟩ := paint_y_spec
    { fb with cur_x := (glyph_origin fb).1, cur_y := (glyph_origin fb).2 } c hbpp hsize hs1
    (by simp only; omega) hf1 hf2 (UINT + 1) (by decide) fb.buf hlen
  refine ⟨buf1, p1.1, ?_⟩
  intro cs
  have e6 : (fb.cur_x + (3 * fb.font_scale + 1)) % ULONG = fb.cur_x + (3 * fb.font_scale + 1) :=
    Nat.mod_eq_of_lt hcx
  have e7 : (fb.cur_y + (5 * fb.font_scale + 1)) % ULONG = fb.cur_y + (5 * fb.font_scale + 1) :=
    Nat.mod_eq_of_lt (by omega)
  have e7' : (fb.cur_y + (5 * fb.font_scale + 1) + (5 * fb.font_scale + 1)) % ULONG
      = fb.cur_y + (5 * fb.font_scale + 1) + (5 * fb.font_scale + 1) :=
    Nat.mod_eq_of_lt (by omega)
  have e8 : (fb.width + 1) % ULONG = fb.width + 1 := Nat.mod_eq_of_lt (by omega)
  have e9 : (fb.height + 1) % ULONG = fb.height + 1 := Nat.mod_eq_of_lt hb3
  have e10 : (0 + (3 * fb.font_scale + 1)) % ULONG = 0 + (3 * fb.font_scale + 1) :=
    Nat.mod_eq_of_lt (by omega)
  simp only at h1
  by_cases hwrap : fb.cur_x + (3 * fb.font_scale + 1) ≤ fb.width + 1
  · have n1 : ¬ (fb.cur_x + (3 * fb.font_scale + 1) > fb.width + 1) := by omega
    by_cases hv : fb.cur_y + (5 * fb.font_scale + 1) ≤ fb.height + 1
    · have n2 : ¬ (fb.cur_y + (5 * fb.font_scale + 1) > fb.height + 1) := by omega
      have g : glyph_origin fb = (fb.cur_x, fb.cur_y) := by
        simp only [glyph_origin, hwrap, hv, if_true]
      rw [g] at h1 ⊢
      simp only [accesses_chars, hc0, hc10, if_false, false_or, e6, e7, e8, e9, n1, n2, h1]
    · have n2 : fb.cur_y + (5 * fb.font_scale + 1) > fb.height + 1 := by omega
      have g : glyph_origin fb = (fb.cur_x, 0) := by
        simp only [glyph_origin, hwrap, hv, if_true, if_false]
      rw [g] at h1 ⊢
      simp only [accesses_chars, hc0, hc10, if_false, false_or, e6, e7, e8, e9, n1, n2,
        if_true, h1]
  · have n1 : fb.cur_x + (3 * fb.font_scale + 1) > fb.width + 1 := by omega
    by_cases hv : fb.cur_y + (5 * fb.font_scale + 1) + (5 * fb.font_scale + 1) ≤ fb.height + 1
    · have n2 : ¬ (fb.cur_y + (5 * fb.font_scale + 1) + (5 * fb.font_scale + 1)
          > fb.height + 1) := by omega
      have g : glyph_origin fb = (0, fb.cur_y + (5 * fb.font_scale + 1)) := by
        simp only [glyph_origin, hwrap, hv, if_true, if_false]
      rw [g] at h1 ⊢
      simp only [accesses_chars, hc0, hc10, if_false, false_or, e6, e7, e7', e8, e9, e10, n1,
        n2, if_true, or_true, h1]
    · have n2 : fb.cur_y + (5 * fb.font_scale + 1) + (5 * fb.font_scale + 1)
          > fb.height + 1 := by omega
      have g : glyph_origin fb = (0, 0) := by
        simp only [glyph_origin, hwrap, hv, if_true, if_false]
      rw [g] at h1 ⊢
      simp only [accesses_chars, hc0, hc10, if_false, false_or, e6, e7, e7', e8, e9, e10, n1,
        n2, if_true, or_true, h1]

/-! ## The passes account for the way a call ends -/

theorem replay_append (bpp : Nat) (buf : List Nat) (l1 l2 : List Access) :
    replay bpp buf (l1 ++ l2) = replay bpp (replay bpp buf l1) l2 := by
  simp [replay, List.foldl_append]

theorem replay_length (bpp : Nat) (buf : List Nat) (l : List Access) :
    (replay bpp buf l).length = buf.length := by
  induction l generalizing buf with
  | nil => rfl
  | cons a l ih =>
    have := ih (memcpy_within buf a.byte_pos (glyph_pixel a.code a.bit_pos) bpp)
    rw [memcpy_length] at this
    exact this

theorem memcpy_some (dst : List Nat) (pos : Nat) (src : List Nat) (n : Nat) (b : List Nat)
    (h : memcpy dst pos src n = some b) :
    pos + n ≤ dst.length ∧ b = memcpy_within dst pos src n := by
  rw [memcpy] at h
  split at h
  · simp only [Option.some.injEq] at h
    exact ⟨by assumption, h.symm⟩
  · cases h

theorem memcpy_none (dst : List Nat) (pos : Nat) (src : List Nat) (n : Nat)
    (h : memcpy dst pos src n = none) : dst.length < pos + n := by
  rw [memcpy] at h
  split at h
  · cases h
  · omega

/-- The passes of a painting that ran to its end, followed by the passes of
what came after it. -/
theorem paint_explained_append (bpp sz : Nat) (buf : List Nat) (l1 l2 : List Access)
    (b : List Nat) (q : Nat) (r : Paint) (h1 : Paint.explained bpp sz buf l1 (.done b q))
    (h2 : Paint.explained bpp sz b l2 r) : Paint.explained bpp sz buf (l1 ++ l2) r := by
  obtain ⟨w1, e1⟩ := h1
  have hl : b.length = buf.length := by rw [e1, replay_length]
  have hw : ∀ l, (∀ a ∈ l, a.written bpp sz b.length) →
      ∀ a ∈ l1 ++ l, a.written bpp sz buf.length := by
    intro l h a ha
    rcases List.mem_append.1 ha with ha | ha
    · exact w1 a ha
    · rw [← hl]; exact h a ha
  cases r with
  | done b2 q2 =>
    obtain ⟨w2, e2⟩ := h2
    exact ⟨hw l2 w2, by rw [e2, e1, replay_append]⟩
  | out_of_bounds b2 =>
    obtain ⟨init, a, e, w, g, eb⟩ := h2
    exact ⟨l1 ++ init, a, by rw [e, List.append_assoc], hw init w, g,
      by rw [eb, e1, replay_append]⟩
  | undefined =>
    obtain ⟨init, a, e, w, g, eb⟩ := h2
    exact ⟨l1 ++ init, a, by rw [e, List.append_assoc], hw init w, g, by rw [← hl]; exact eb⟩
  | out_of_fuel => exact hw l2 h2

theorem paint_sx_explained (fb : framebuffer) (c sz bp y x sy n sx : Nat) (buf : List Nat) :
    (paint_sx fb c sz bp y x sy n sx buf).explained fb.bytes_per_pixel sz buf
      (accesses_sx fb c sz bp y x sy n sx buf) := by
  induction n generalizing sx buf with
  | zero => exact ⟨by simp [accesses_sx], rfl⟩
  | succ n ih =>
    rw [paint_sx_succ, accesses_sx_succ]
    by_cases hg : ((access_at fb c bp y x sy sx).byte_pos + fb.bytes_per_pixel) % ULONG > sz
    · rw [if_pos hg, if_pos hg]
      exact ⟨[], _, rfl, by simp, hg, rfl⟩
    · rw [if_neg hg, if_neg hg]
      cases hm : memcpy buf (access_at fb c bp y x sy sx).byte_pos (glyph_pixel c bp)
          fb.bytes_per_pixel with
      | none => exact ⟨[], _, rfl, by simp, hg, memcpy_none _ _ _ _ hm⟩
      | some b =>
        obtain ⟨hin, hb⟩ := memcpy_some _ _ _ _ _ hm
        have h1 : Paint.explained fb.bytes_per_pixel sz buf [access_at fb c bp y x sy sx]
            (.done b 0) := by
          refine ⟨?_, hb⟩
          intro a ha
          rw [List.mem_singleton] at ha
          subst ha
          exact ⟨hg, hin⟩
        exact paint_explained_append _ _ _ _ _ _ _ _ h1 (ih (sx + 1) b)

theorem paint_sy_explained (fb : framebuffer) (c sz bp y x n sy : Nat) (buf : List Nat) :
    (paint_sy fb c sz bp y x n sy buf).explained fb.bytes_per_pixel sz buf
      (accesses_sy fb c sz bp y x n sy buf) := by
  induction n generalizing sy buf with
  | zero => exact ⟨by simp [accesses_sy], rfl⟩
  | succ n ih =>
    have hx := paint_sx_explained fb c sz bp y x sy fb.font_scale 0 buf
    rw [paint_sy, accesses_sy]
    generalize paint_sx fb c sz bp y x sy fb.font_scale 0 buf = r at hx ⊢
    cases r with
    | done b q => exact paint_explained_append _ _ _ _ _ _ _ _ hx (ih (sy + 1) b)
    | out_of_bounds b => simpa only [List.append_nil] using hx
    | undefined => simpa only [List.append_nil] using hx
    | out_of_fuel => simpa only [List.append_nil] using hx

theorem paint_x_explained (fb : framebuffer) (c sz scw y fuel x bp : Nat) (buf : List Nat) :
    (paint_x fb c sz scw y fuel x bp buf).explained fb.bytes_per_pixel sz buf
      (accesses_x fb c sz scw y fuel x bp buf) := by
  induction fuel generalizing x bp buf with
  | zero =>
    intro a ha
    simp [accesses_x] at ha
  | succ fuel ih =>
    rw [paint_x, accesses_x]
    by_cases hx : x < scw
    · rw [if_pos hx, if_pos hx]
      have hy := paint_sy_explained fb c sz bp y x fb.font_scale 0 buf
      generalize paint_sy fb c sz bp y x fb.font_scale 0 buf = r at hy ⊢
      cases r with
      | done b q => exact paint_explained_append _ _ _ _ _ _ _ _ hy (ih _ _ b)
      | out_of_bounds b => simpa only [List.append_nil] using hy
      | undefined => simpa only [List.append_nil] using hy
      | out_of_fuel => simpa only [List.append_nil] using hy
    · rw [if_neg hx, if_neg hx]
      exact ⟨by simp, rfl⟩

theorem paint_y_explained (fb : framebuffer) (c sz sch scw fuel y bp : Nat) (buf : List Nat) :
    (paint_y fb c sz sch scw fuel y bp buf).explained fb.bytes_per_pixel sz buf
      (accesses_y fb c sz sch scw fuel y bp buf) := by
  induction fuel generalizing y bp buf with
  | zero =>
    intro a ha
    simp [accesses_y] at ha
  | succ fuel ih =>
    rw [paint_y, accesses_y]
    by_cases hy : y < sch
    · rw [if_pos hy, if_pos hy]
      have hx := paint_x_explained fb c sz scw y (UINT + 1) 0 bp buf
      generalize paint_x fb c sz scw y (UINT + 1) 0 bp buf = r at hx ⊢
      cases r with
      | done b q => exact paint_explained_append _ _ _ _ _ _ _ _ hx (ih _ _ b)
      | out_of_bounds b => simpa only [List.append_nil] using hx
      | undefined => simpa only [List.append_nil] using hx
      | out_of_fuel => simpa only [List.append_nil] using hx
    · rw [if_neg hy, if_neg hy]
      exact ⟨by simp, rfl⟩

theorem wrap_cursor_fields (ch cw c : Nat) (fb : framebuffer) :
    (wrap_cursor ch cw c fb).buf = fb.buf ∧
    (wrap_cursor ch cw c fb).bytes_per_pixel = fb.bytes_per_pixel := by
  unfold wrap_cursor
  simp only
  split <;> split <;> exact ⟨rfl, rfl⟩

theorem write_chars_cons (sh sw ch cw sz c : Nat) (cs : List Nat) (fb : framebuffer)
    (hc0 : c ≠ 0) (hc10 : c ≠ 10) :
    write_chars sh sw ch cw sz (c :: cs) fb
      = match paint_y (wrap_cursor ch cw c fb) c sz sh sw (UINT + 1) 0 0
            (wrap_cursor ch cw c fb).buf with
        | .done b _ =>
          write_chars sh sw ch cw sz cs
            { wrap_cursor ch cw c fb with
              buf := b, cur_x := ((wrap_cursor ch cw c fb).cur_x + cw) % ULONG }
        | .out_of_bounds b => .aborted { wrap_cursor ch cw c fb with buf := b }
        | .undefined => .undefined
        | .out_of_fuel => .out_of_fuel := by
  rw [write_chars, if_neg hc0]
  simp only [wrap_cursor, hc10, if_false]

theorem accesses_chars_cons (sh sw ch cw sz c : Nat) (cs : List Nat) (fb : framebuffer)
    (hc0 : c ≠ 0) (hc10 : c ≠ 10) :
    accesses_chars sh sw ch cw sz (c :: cs) fb
      = accesses_y (wrap_cursor ch cw c fb) c sz sh sw (UINT + 1) 0 0
            (wrap_cursor ch cw c fb).buf ++
          match paint_y (wrap_cursor ch cw c fb) c sz sh sw (UINT + 1) 0 0
              (wrap_cursor ch cw c fb).buf with
          | .done b _ =>
            accesses_chars sh sw ch cw sz cs
              { wrap_cursor ch cw c fb with
                buf := b, cur_x := ((wrap_cursor ch cw c fb).cur_x + cw) % ULONG }
          | _ => [] := by
  rw [accesses_chars, if_neg hc0]
  simp only [wrap_cursor, hc10, if_false]

/-- The passes of a painting that ran to its end, followed by the passes of
the rest of the call. -/
theorem written_explained_append (bpp sz : Nat) (buf : List Nat) (l1 l2 : List Access)
    (b : List Nat) (q : Nat) (w : Written) (h1 : Paint.explained bpp sz buf l1 (.done b q))
    (h2 : Written.explained bpp sz b l2 w) : Written.explained bpp sz buf (l1 ++ l2) w := by
  obtain ⟨w1, e1⟩ := h1
  have hl : b.length = buf.length := by rw [e1, replay_length]
  have hw : ∀ l, (∀ a ∈ l, a.written bpp sz b.length) →
      ∀ a ∈ l1 ++ l, a.written bpp sz buf.length := by
    intro l h a ha
    rcases List.mem_append.1 ha with ha | ha
    · exact w1 a ha
    · rw [← hl]; exact h a ha
  cases w with
  | finished fb1 =>
    obtain ⟨w2, e2⟩ := h2
    exact ⟨hw l2 w2, by rw [e2, e1, replay_append]⟩
  | aborted fb1 =>
    obtain ⟨init, a, e, w, g, eb⟩ := h2
    exact ⟨l1 ++ init, a, by rw [e, List.append_assoc], hw init w, g,
      by rw [eb, e1, replay_append]⟩
  | undefined =>
    obtain ⟨init, a, e, w, g, eb⟩ := h2
    exact ⟨l1 ++ init, a, by rw [e, List.append_assoc], hw init w, g, by rw [← hl]; exact eb⟩
  | out_of_fuel => exact hw l2 h2

/-- The passes of a call account for the way it ends: when it runs to its end
every pass has written inside the buffer; when it returns at the "Bug-guard"
the guard has fired at the last pass, which has written nothing; when its
behaviour is undefined the last pass has written outside the buffer. -/
theorem write_chars_explained (sh sw ch cw sz : Nat) (text : List Nat) (fb : framebuffer) :
    (write_chars sh sw ch cw sz text fb).explained fb.bytes_per_pixel sz fb.buf
      (accesses_chars sh sw ch cw sz text fb) := by
  induction text generalizing fb with
  | nil => exact ⟨by simp [accesses_chars], rfl⟩
  | cons c cs ih =>
    by_cases hc0 : c = 0
    · rw [write_chars, if_pos hc0, accesses_chars, if_pos hc0]
      exact ⟨by simp, rfl⟩
    · by_cases hc10 : c = 10
      · rw [write_chars, if_neg hc0, accesses_chars, if_neg hc0]
        simp only [hc10, true_or, if_true]
        exact ih _
      · rw [write_chars_cons sh sw ch cw sz c cs fb hc0 hc10,
          accesses_chars_cons sh sw ch cw sz c cs fb hc0 hc10]
        obtain ⟨e1, e2⟩ := wrap_cursor_fields ch cw c fb
        have hy := paint_y_explained (wrap_cursor ch cw c fb) c sz sh sw (UINT + 1) 0 0
          (wrap_cursor ch cw c fb).buf
        generalize paint_y (wrap_cursor ch cw c fb) c sz sh sw (UINT + 1) 0 0
          (wrap_cursor ch cw c fb).buf = r at hy ⊢
        rw [e2] at hy
        generalize accesses_y (wrap_cursor ch cw c fb) c sz sh sw (UINT + 1) 0 0
          (wrap_cursor ch cw c fb).buf = l1 at hy ⊢
        rw [e1] at hy
        cases r with
        | done b q =>
          refine written_explained_append _ _ _ _ _ b q _ hy ?_
          rw [← e2]
          exact ih _
        | out_of_bounds b => simpa only [List.append_nil] using hy
        | undefined => simpa only [List.append_nil] using hy
        | out_of_fuel => simpa only [List.append_nil] using hy

/-- The passes of a call of `framebuffer_write` account for the way it ends. -/
theorem framebuffer_write_explained (fb : framebuffer) (text : List Nat) :
    (framebuffer_write fb text).explained fb.bytes_per_pixel
      (fb.width * fb.height * fb.bytes_per_pixel % ULONG) fb.buf
      (framebuffer_write_accesses fb text) :=
  write_chars_explained _ _ _ _ _ text fb

/-- In a framebuffer that holds a glyph, when the cursor arithmetic does not
overflow, every access of `write_chars` is inside the framebuffer and paints a
byte of the text. -/
theorem accesses_chars_in_bounds (s W H : Nat) (text : List Nat) (fb : framebuffer)
    (hfit : fb.holds_glyph) (hs : fb.font_scale = s) (hW : fb.width = W) (hH : fb.height = H)
    (hcx : fb.cur_x + (3 * s + 1) < ULONG)
    (hcy : fb.cur_y + (text.length + 1) * (5 * s + 1) < ULONG) (a : Access)
    (h : a ∈ accesses_chars (5 * s) (3 * s) (5 * s + 1) (3 * s + 1) (W * H * 3) text fb) :
    a.in_bounds W H ∧ a.code ∈ text := by
  induction text generalizing fb with
  | nil => simp [accesses_chars] at h
  | cons c cs ih =>
    have hK : (List.length (c :: cs) + 1) * (5 * s + 1)
        = (cs.length + 1) * (5 * s + 1) + (5 * s + 1) := by
      rw [List.length_cons]; ring
    rw [hK] at hcy
    have hpos : 5 * s + 1 ≤ (cs.length + 1) * (5 * s + 1) := Nat.le_mul_of_pos_left _ (by omega)
    generalize (cs.length + 1) * (5 * s + 1) = K at hcy hpos ih
    by_cases hc0 : c = 0
    · rw [accesses_chars, if_pos hc0] at h
      simp at h
    · by_cases hc10 : c = 10
      · have e7 : (fb.cur_y + (5 * s + 1)) % ULONG = fb.cur_y + (5 * s + 1) :=
          Nat.mod_eq_of_lt (by omega)
        rw [accesses_chars, if_neg hc0] at h
        simp only [hc10, true_or, if_true, e7] at h
        have := ih { fb with cur_x := 0, cur_y := fb.cur_y + (5 * s + 1) } hfit hs hW hH
          (by simp only; omega) (by simp only; omega) h
        exact ⟨this.1, List.mem_cons_of_mem _ this.2⟩
      · subst hs hW hH
        obtain ⟨hb1, hb2, hb3⟩ := holds_glyph_bounds fb hfit
        obtain ⟨hf1, hf2⟩ := glyph_origin_fits fb hfit
        have hle := glyph_origin_le fb
        obtain ⟨buf1, hlen1, hstep⟩ := accesses_chars_glyph fb c hfit hcx (by omega) hc0 hc10
        rw [hstep cs] at h
        rcases List.mem_append.1 h with h | h
        · have := accesses_y_in_bounds
            { fb with cur_x := (glyph_origin fb).1, cur_y := (glyph_origin fb).2 } c
            hfit.1.1 hfit.1.2.2 hfit.2.1 (by simp only; omega) hf1 hf2 fb.buf hfit.1.2.1 a h
          exact ⟨this.1, by rw [this.2]; exact List.mem_cons_self _ _⟩
        · have := ih
            { fb with buf := buf1, cur_x := (glyph_origin fb).1 + (3 * fb.font_scale + 1),
                      cur_y := (glyph_origin fb).2 }
            ⟨⟨hfit.1.1, by simp only; rw [hlen1]; exact hfit.1.2.1, hfit.1.2.2⟩, hfit.2⟩
            rfl rfl rfl (by simp only; omega) (by simp only; omega) h
          exact ⟨this.1, List.mem_cons_of_mem _ this.2⟩

/-- The parameters that `framebuffer_write` computes, for its accesses. -/
theorem framebuffer_write_accesses_eq (fb : framebuffer) (text : List Nat)
    (hfit : fb.holds_glyph) :
    framebuffer_write_accesses fb text
      = accesses_chars (5 * fb.font_scale) (3 * fb.font_scale) (5 * fb.font_scale + 1)
          (3 * fb.font_scale + 1) (fb.width * fb.height * 3) text fb := by
  obtain ⟨hb1, _, _⟩ := holds_glyph_bounds fb hfit
  obtain ⟨⟨hbpp, _, hsize⟩, _, _, _⟩ := hfit
  have e1 : font_height * fb.font_scale % UINT = 5 * fb.font_scale :=
    Nat.mod_eq_of_lt (by simp only [font_height]; omega)
  have e2 : font_width * fb.font_scale % UINT = 3 * fb.font_scale :=
    Nat.mod_eq_of_lt (by simp only [font_width]; omega)
  have e3 : (5 * fb.font_scale + 1) % UINT = 5 * fb.font_scale + 1 := Nat.mod_eq_of_lt hb1
  have e4 : (3 * fb.font_scale + 1) % UINT = 3 * fb.font_scale + 1 :=
    Nat.mod_eq_of_lt (by omega)
  have e5 : fb.width * fb.height * fb.bytes_per_pixel % ULONG = fb.width * fb.height * 3 := by
    rw [hbpp]; exact Nat.mod_eq_of_lt hsize
  simp only [framebuffer_write_accesses, e1, e2, e3, e4, e5]

/-- C21, counterexample: `fb_far` and `fb_wild` have scale 1, width at least 3
and height at least 5.  In `fb_far` the cursor is `(0, ULONG_MAX - 5)`:
`cur_y + char_height` wraps around to 0, no vertical wrap takes place, and the
call takes the out-of-bounds branch at the first pixel of `A`.  In `fb_wild`
the cursor is `(ULONG_MAX, 0)`: the first pixel of `B` has column `ULONG_MAX`,
not below the width 4; the sum of the guard wraps around to 0 and the pixel is
written outside the buffer. -/
theorem framebuffer_write_in_bounds_counterexample :
    (1 ≤ fb_far.font_scale ∧ 3 * fb_far.font_scale ≤ fb_far.width ∧
      5 * fb_far.font_scale ≤ fb_far.height) ∧
    framebuffer_write fb_far [65] = .aborted fb_far ∧
    (1 ≤ fb_wild.font_scale ∧ 3 * fb_wild.font_scale ≤ fb_wild.width ∧
      5 * fb_wild.font_scale ≤ fb_wild.height) ∧
    framebuffer_write fb_wild [66] = .undefined ∧
    (∃ a ∈ framebuffer_write_accesses fb_wild [66],
      ¬ a.column < fb_wild.width ∧ fb_wild.buf.length < a.byte_pos + 3) :=
  ⟨by decide, by decide, by decide, by decide, by decide⟩

/-- C21, amended: the bounds guard is unreachable for buffers that hold one
glyph, from a cursor at which nothing overflows.  For every allocated
framebuffer with scale `s ≥ 1`, width `≥ 3 s` and height `≥ 5 s`, every text of
bytes and every starting cursor for which the cursor arithmetic does not
overflow (`cur_x + cell_w` and `cur_y + (length text + 1) * cell_h` below
`ULONG_MAX + 1`), `framebuffer_write` never takes the out-of-bounds branch: it
processes the text to its end, and the buffer it leaves is the given buffer
with the writes of its passes.  Every pixel it writes has column `< width` and
row `< height`, at the offset `width * 3 * row + column * 3` whose 3 bytes are
inside the buffer, and every table index it reads is `code * 2 + bit / 8` for
a byte `code` of the text and a `bit` in 0..14; all such indices, for a code
in 0..255, are below the length 512 of `default_font`. -/
theorem framebuffer_write_in_bounds (fb : framebuffer) (text : List Nat)
    (hfit : fb.holds_glyph) (htext : ∀ c ∈ text, c ≤ 255)
    (hcx : fb.cur_x + (3 * fb.font_scale + 1) < ULONG)
    (hcy : fb.cur_y + (text.length + 1) * (5 * fb.font_scale + 1) < ULONG) :
    (∃ fb1, framebuffer_write fb text = .finished fb1 ∧
      fb1.buf = replay fb.bytes_per_pixel fb.buf (framebuffer_write_accesses fb text)) ∧
    (∀ a ∈ framebuffer_write_accesses fb text,
      a.column < fb.width ∧ a.row < fb.height ∧
      a.byte_pos = fb.width * 3 * a.row + a.column * 3 ∧ a.byte_pos + 3 ≤ fb.buf.length ∧
      a.code ∈ text ∧ a.bit_pos ≤ 14 ∧ a.font_index = a.code * 2 + a.bit_pos / 8 ∧
      a.font_index < default_font.length) ∧
    (∀ code bit, code ≤ 255 → bit ≤ 14 → code * 2 + bit / 8 < default_font.length) := by
  have hidx : ∀ code bit, code ≤ 255 → bit ≤ 14 → code * 2 + bit / 8 < default_font.length := by
    intro code bit h1 h2
    rw [default_font_bytes.1]
    omega
  refine ⟨?_, ?_, hidx⟩
  · obtain ⟨fb1, h1, -⟩ := write_chars_finishes fb.font_scale fb.width fb.height text fb hfit
      rfl rfl rfl hcx hcy
    have h2 : framebuffer_write fb text = .finished fb1 := by
      rw [framebuffer_write_eq fb text hfit]; exact h1
    have he := framebuffer_write_explained fb text
    rw [h2] at he
    exact ⟨fb1, h2, he.2⟩
  · intro a ha
    rw [framebuffer_write_accesses_eq fb text hfit] at ha
    obtain ⟨⟨h1, h2, h3, h4, h5, h6⟩, h7⟩ := accesses_chars_in_bounds fb.font_scale fb.width
      fb.height text fb hfit rfl rfl rfl hcx hcy a ha
    simp only [bytes_per_font_character, CHAR_BIT] at h6
    refine ⟨h1, h2, h3, by rw [hfit.1.2.1]; exact h4, h7, h5, h6, ?_⟩
    rw [h6]
    exact hidx _ _ (htext _ h7) h5

set_option maxRecDepth 100000 in
/-- The theorem `framebuffer_write_in_bounds` at `fb_at_end` and the text
`"H\ni"`: the call paints two glyphs of 60 pixels each. -/
theorem framebuffer_write_in_bounds_witness :
    fb_at_end.holds_glyph ∧ (∀ c ∈ [72, 10, 105], c ≤ 255) ∧
    fb_at_end.cur_x + (3 * fb_at_end.font_scale + 1) < ULONG ∧
    fb_at_end.cur_y + ([72, 10, 105].length + 1) * (5 * fb_at_end.font_scale + 1) < ULONG ∧
    (framebuffer_write_accesses fb_at_end [72, 10, 105]).length = 120 ∧
    ∀ a ∈ framebuffer_write_accesses fb_at_end [72, 10, 105],
      a.column < fb_at_end.width ∧ a.row < fb_at_end.height ∧
      a.byte_pos = fb_at_end.width * 3 * a.row + a.column * 3 ∧
      a.byte_pos + 3 ≤ fb_at_end.buf.length ∧
      a.code ∈ [72, 10, 105] ∧ a.bit_pos ≤ 14 ∧ a.font_index = a.code * 2 + a.bit_pos / 8 ∧
      a.font_index < default_font.length :=
  ⟨fb_at_end_holds_glyph, by decide, by decide, by decide, by decide,
    (framebuffer_write_in_bounds fb_at_end [72, 10, 105] fb_at_end_holds_glyph (by decide)
      (by decide) (by decide)).2.1⟩

/-! ## C18: the "Bug-guard" -/

/-- The guard of line 281: when its test holds, the write is not performed and
the loop over `sx` ends at once, with the buffer as it is. -/
theorem paint_sx_guard (fb : framebuffer) (c sz bp y x sy n sx : Nat) (buf : List Nat)
    (h : ((fb.width * fb.bytes_per_pixel * (fb.cur_y + y + sy)
        + (fb.cur_x + x + sx) * fb.bytes_per_pixel) % ULONG + fb.bytes_per_pixel) % ULONG > sz) :
    paint_sx fb c sz bp y x sy (n + 1) sx buf = .out_of_bounds buf := by
  rw [paint_sx]
  simp only [h, if_true]

end Tinyfont
